import Mathlib

/-!
Verification of the peer-to-peer routing subsystem
(edge model, graph shortest-path engine, routing table view, peer store).

The Rust sources are shallowly embedded:
* `PeerId` and `SocketAddr` are modelled as `Nat` (only equality and the
  total order on peer ids matter to the verified code);
* cryptographic signatures are modelled symbolically: a signature is
  `some (hash, signer)` and verifies against exactly that hash and the
  signer's public key (public key of peer `p` is `p` itself);
* the machine integers (`u64` nonces, `u128` route bitmaps, `i32`
  distances) are modelled by `Nat`/`Int`; all operations performed by the
  code stay far from the wrap-around boundaries, which is noted where it
  matters;
* `HashMap`s are modelled as association lists with unique keys,
  `Vec`s as `List`s;
* Rust panics (failed `assert!`, out-of-bounds indexing) are modelled by
  `Option`-valued operations returning `none`;
* disk persistence and the wall clock are external: store writes are
  dropped from the model and clock reads become explicit parameters.
-/

namespace NearP2P

/-! ## Association-list utilities (model of HashMap) -/

/-- Insert or replace the binding of `key` (HashMap::insert semantics). -/
def upsert {α β : Type} [DecidableEq α] (l : List (α × β)) (key : α) (val : β) :
    List (α × β) :=
  match l with
  | [] => [(key, val)]
  | (a, b) :: t => if a = key then (key, val) :: t else (a, b) :: upsert t key val

/-- Remove the binding of `key` (HashMap::remove semantics). -/
def erase {α β : Type} [DecidableEq α] (l : List (α × β)) (key : α) : List (α × β) :=
  l.filter (fun p => p.1 ≠ key)

/-- Apply `f` to the value bound to `key`, if any (Entry::and_modify semantics). -/
def modifyAt {α β : Type} [DecidableEq α] (l : List (α × β)) (key : α) (f : β → β) :
    List (α × β) :=
  l.map (fun p => if p.1 = key then (p.1, f p.2) else p)

theorem lookup_cons {α β : Type} [DecidableEq α] (a : α) (b : β) (t : List (α × β))
    (k : α) :
    List.lookup k ((a, b) :: t) = if k = a then some b else List.lookup k t := by
  by_cases h : k = a
  · subst h
    simp [List.lookup]
  · have hb : (k == a) = false := beq_false_of_ne h
    simp [List.lookup, hb, h]

theorem lookup_upsert {α β : Type} [DecidableEq α] (l : List (α × β)) (k k' : α) (v : β) :
    (upsert l k v).lookup k' = if k' = k then some v else l.lookup k' := by
  induction l with
  | nil =>
      rw [show upsert ([] : List (α × β)) k v = [(k, v)] from rfl, lookup_cons]
  | cons hd tl ih =>
      obtain ⟨a, b⟩ := hd
      by_cases hak : a = k
      · subst hak
        by_cases hk' : k' = a <;> simp [upsert, lookup_cons, hk']
      · by_cases hk' : k' = a
        · subst hk'
          simp [upsert, hak, lookup_cons]
        · simp [upsert, hak, lookup_cons, hk', ih]

theorem lookup_erase {α β : Type} [DecidableEq α] (l : List (α × β)) (k k' : α) :
    (erase l k).lookup k' = if k' = k then none else l.lookup k' := by
  induction l with
  | nil => simp [erase, List.lookup]
  | cons hd tl ih =>
      obtain ⟨a, b⟩ := hd
      by_cases hak : a = k
      · subst hak
        have h1 : erase ((a, b) :: tl) a = erase tl a := by simp [erase]
        rw [h1, ih]
        by_cases hk' : k' = a <;> simp [lookup_cons, hk']
      · have h1 : erase ((a, b) :: tl) k = (a, b) :: erase tl k := by
          simp [erase, hak]
        rw [h1]
        by_cases hk' : k' = a
        · subst hk'
          simp [lookup_cons, hak]
        · simp [lookup_cons, hk', ih]

theorem lookup_modifyAt {α β : Type} [DecidableEq α] (l : List (α × β)) (k k' : α)
    (f : β → β) :
    (modifyAt l k f).lookup k' =
      if k' = k then (l.lookup k).map f else l.lookup k' := by
  induction l with
  | nil => simp [modifyAt, List.lookup]
  | cons hd tl ih =>
      obtain ⟨a, b⟩ := hd
      by_cases hak : a = k
      · subst hak
        have h1 : modifyAt ((a, b) :: tl) a f = (a, f b) :: modifyAt tl a f := by
          simp [modifyAt]
        rw [h1]
        by_cases hk' : k' = a <;> simp [lookup_cons, hk', ih]
      · have h1 : modifyAt ((a, b) :: tl) k f = (a, b) :: modifyAt tl k f := by
          simp [modifyAt, hak]
        rw [h1]
        have hka : ¬ k = a := fun h => hak h.symm
        by_cases hk' : k' = a
        · subst hk'
          simp [lookup_cons, hak, hka]
        · simp [lookup_cons, hk', ih, hka]

/-! ## Edge model (`EdgeInfo`, `EdgeInner`, verification)

Cryptography is modelled symbolically.  A `Signature` is either absent or a
pair of the signed hash and the signer; `sigVerify` succeeds exactly when the
signature is that signer's signature over that hash.  `SecretKey` of peer `p`
is `p` itself, and so is the public key: this keeps the model executable and
preserves exactly the equations the routing code relies on. -/

/-- Model of `CryptoHash` values produced by `Edge::build_hash`. -/
abbrev HashV : Type := Nat × Nat × Nat

/-- Symbolic signature: `some (h, p)` is peer `p`'s signature over hash `h`. -/
abbrev Signature : Type := Option (HashV × Nat)

/-- Model of `Signature::verify(data, public_key)`. -/
def sigVerify (s : Signature) (data : HashV) (pk : Nat) : Bool :=
  s = some (data, pk)

/-- Model of `SecretKey::sign(data)`; the secret key of peer `p` is `p`. -/
def sigSign (sk : Nat) (data : HashV) : Signature :=
  some (data, sk)

/-- Model of `Edge::build_hash(peer0, peer1, nonce)`: an injective fingerprint
of the triple. -/
def build_hash (peer0 peer1 : Nat) (nonce : Nat) : HashV :=
  (peer0, peer1, nonce)

/-- Status of the edge (`EdgeType` in `routing.rs`). -/
inductive EdgeType : Type
  | Added : EdgeType
  | Removed : EdgeType
deriving DecidableEq

/-- Edge object (`EdgeInner` in `routing.rs`): key pair, nonce, the two
addition signatures, and the optional removal info `(party, signature)`
where the boolean designates which endpoint is removing the edge. -/
structure EdgeInner : Type where
  key : Nat × Nat
  nonce : Nat
  signature0 : Signature
  signature1 : Signature
  removal_info : Option (Bool × Signature)
deriving DecidableEq

/-- Model of `EdgeInner::edge_type`: odd nonce = `Added`, even = `Removed`. -/
def EdgeInner.edge_type (e : EdgeInner) : EdgeType :=
  if e.nonce % 2 = 1 then EdgeType.Added else EdgeType.Removed

/-- Model of `EdgeInner::hash`. -/
def EdgeInner.hash (e : EdgeInner) : HashV :=
  build_hash e.key.1 e.key.2 e.nonce

/-- Model of `EdgeInner::prev_hash` (only evaluated when `nonce ≥ 1`, so the
truncated `Nat` subtraction agrees with the `u64` subtraction). -/
def EdgeInner.prev_hash (e : EdgeInner) : HashV :=
  build_hash e.key.1 e.key.2 (e.nonce - 1)

/-- Model of `EdgeInner::verify`. -/
def EdgeInner.verify (e : EdgeInner) : Bool :=
  if e.key.2 < e.key.1 then false
  else
    match e.edge_type with
    | EdgeType.Added =>
        e.removal_info.isNone
          && sigVerify e.signature0 e.hash e.key.1
          && sigVerify e.signature1 e.hash e.key.2
    | EdgeType.Removed =>
        if e.nonce = 0 then false
        else if ¬ (sigVerify e.signature0 e.prev_hash e.key.1
              && sigVerify e.signature1 e.prev_hash e.key.2) then false
        else
          match e.removal_info with
          | some (party, signature) =>
              let peer := if party then e.key.1 else e.key.2
              sigVerify signature e.hash peer
          | none => false

/-- Model of `EdgeInner::remove_edge(my_peer_id, sk)`.  The Rust code
asserts that the edge is an `Added` edge; a failed assertion is `none`.
The increment `edge.nonce += 1` is on a `u64`, so it wraps modulo
`2 ^ 64`: at `nonce = u64::MAX` the release build produces nonce `0`. -/
def EdgeInner.remove_edge (e : EdgeInner) (my_peer_id : Nat) (sk : Nat) :
    Option EdgeInner :=
  if e.edge_type ≠ EdgeType.Added then none
  else
    let nonce' := (e.nonce + 1) % 2 ^ 64
    let me : Bool := e.key.1 = my_peer_id
    let h := build_hash e.key.1 e.key.2 nonce'
    some { key := e.key, nonce := nonce', signature0 := e.signature0,
           signature1 := e.signature1,
           removal_info := some (me, sigSign sk h) }


theorem verify_added_eq (e : EdgeInner) (hord : ¬ e.key.2 < e.key.1)
    (hpar : e.nonce % 2 = 1) :
    e.verify = (e.removal_info.isNone
      && sigVerify e.signature0 e.hash e.key.1
      && sigVerify e.signature1 e.hash e.key.2) := by
  have htype : e.edge_type = EdgeType.Added := by
    simp [EdgeInner.edge_type, hpar]
  unfold EdgeInner.verify
  rw [if_neg hord, htype]

theorem verify_removed_eq (e : EdgeInner) (hord : ¬ e.key.2 < e.key.1)
    (hpar : e.nonce % 2 = 0) :
    e.verify = (if e.nonce = 0 then false
      else if ¬ (sigVerify e.signature0 e.prev_hash e.key.1
            && sigVerify e.signature1 e.prev_hash e.key.2) then false
      else
        match e.removal_info with
        | some (party, signature) =>
            sigVerify signature e.hash (if party then e.key.1 else e.key.2)
        | none => false) := by
  have htype : e.edge_type = EdgeType.Removed := by
    simp [EdgeInner.edge_type, hpar]
  unfold EdgeInner.verify
  rw [if_neg hord, htype]

/-! ## Claims C2 and C4: edge verification and edge removal -/

/-- Shared part of the claimed invariants E2 to E5 for C2, written from the
spec's words: parity decides Added/Removed, both addition signatures cover
`hash(key.0, key.1, add_nonce)` with `add_nonce = nonce` for Added and
`nonce - 1` for Removed, removal info is absent for Added and present for
Removed with the designated party's signature over the current-nonce hash,
and nonce `0` is invalid for Removed. -/
def specEdgeConds (e : EdgeInner) : Prop :=
  (e.nonce % 2 = 1 ∧
      sigVerify e.signature0 (build_hash e.key.1 e.key.2 e.nonce) e.key.1 = true ∧
      sigVerify e.signature1 (build_hash e.key.1 e.key.2 e.nonce) e.key.2 = true ∧
      e.removal_info = none) ∨
  (e.nonce % 2 = 0 ∧ e.nonce ≠ 0 ∧
      sigVerify e.signature0 (build_hash e.key.1 e.key.2 (e.nonce - 1)) e.key.1 = true ∧
      sigVerify e.signature1 (build_hash e.key.1 e.key.2 (e.nonce - 1)) e.key.2 = true ∧
      ∃ party s, e.removal_info = some (party, s) ∧
        sigVerify s (build_hash e.key.1 e.key.2 e.nonce)
          (if party then e.key.1 else e.key.2) = true)

/-- Conditions E1 to E5 exactly as claim C2 states them, with the strict
canonical orientation `key.0 < key.1`. -/
def claimE (e : EdgeInner) : Prop :=
  e.key.1 < e.key.2 ∧ specEdgeConds e

/-- Conditions E1 to E5 with the orientation condition weakened to
`key.0 ≤ key.1`, which is what the code actually checks. -/
def claimEAmended (e : EdgeInner) : Prop :=
  e.key.1 ≤ e.key.2 ∧ specEdgeConds e

/-- Degenerate self-edge used to refute C2 as stated: both endpoints are
peer `1` and both signatures are peer 1's valid signature over the
addition hash. -/
def cexEdge : EdgeInner :=
  { key := (1, 1), nonce := 1,
    signature0 := sigSign 1 (build_hash 1 1 1),
    signature1 := sigSign 1 (build_hash 1 1 1),
    removal_info := none }

/-- Claim C2, counterexample: `verify` accepts the self-edge `(1,1)` even
though it violates invariant E1 (`key.0 < key.1`), because the code only
rejects `key.0 > key.1`. -/
theorem edge_verify_claim_cex : cexEdge.verify = true ∧ ¬ claimE cexEdge := by
  constructor
  · decide
  · intro h
    exact absurd h.1 (by decide)

/-- Claim C2 (amended): `EdgeInner.verify` returns `true` iff the edge
satisfies E1 to E5 with the orientation invariant E1 weakened from
`key.0 < key.1` to `key.0 ≤ key.1`: for an Added edge (odd nonce) both
signatures verify over `hash(key.0, key.1, nonce)` and removal info is
absent; for a Removed edge (even nonce) the nonce is nonzero, both
signatures verify over `hash(key.0, key.1, nonce-1)`, removal info is
present and the designated party's signature verifies over
`hash(key.0, key.1, nonce)`. -/
theorem edge_verify_iff_amended (e : EdgeInner) :
    e.verify = true ↔ claimEAmended e := by
  unfold claimEAmended specEdgeConds
  by_cases hord : e.key.2 < e.key.1
  · have hfalse : e.verify = false := by
      unfold EdgeInner.verify
      rw [if_pos hord]
    rw [hfalse]
    constructor
    · intro h
      cases h
    · rintro ⟨hle, -⟩
      omega
  · have hle : e.key.1 ≤ e.key.2 := Nat.le_of_not_lt hord
    rcases Nat.mod_two_eq_zero_or_one e.nonce with hpar | hpar
    · rw [verify_removed_eq e hord hpar]
      by_cases hz : e.nonce = 0
      · rw [if_pos hz]
        constructor
        · intro h
          cases h
        · rintro ⟨-, (⟨hodd, -⟩ | ⟨-, hnz, -⟩)⟩
          · omega
          · exact absurd hz hnz
      · rw [if_neg hz]
        by_cases hsig : (sigVerify e.signature0 e.prev_hash e.key.1
            && sigVerify e.signature1 e.prev_hash e.key.2) = true
        · rw [if_neg (by simp [hsig])]
          rw [Bool.and_eq_true] at hsig
          cases hri : e.removal_info with
          | none =>
              constructor
              · intro h
                cases h
              · rintro ⟨-, (⟨hodd, -⟩ | ⟨-, -, -, -, party, s, hsome, -⟩)⟩
                · omega
                · exact Option.noConfusion hsome
          | some pr =>
              obtain ⟨party, s⟩ := pr
              constructor
              · intro h
                exact ⟨hle, Or.inr ⟨hpar, hz, hsig.1, hsig.2, party, s, rfl, h⟩⟩
              · rintro ⟨-, (⟨hodd, -⟩ | ⟨-, -, -, -, party2, s2, hsome, hver⟩)⟩
                · omega
                · cases hsome
                  simpa [EdgeInner.hash] using hver
        · rw [if_pos (by simpa using hsig)]
          constructor
          · intro h
            cases h
          · rintro ⟨-, (⟨hodd, -⟩ | ⟨-, -, hv0, hv1, -⟩)⟩
            · omega
            · refine absurd ?_ hsig
              rw [EdgeInner.prev_hash]
              simp [hv0, hv1]
    · rw [verify_added_eq e hord hpar]
      constructor
      · intro h
        rw [Bool.and_eq_true, Bool.and_eq_true] at h
        refine ⟨hle, Or.inl ⟨hpar, h.1.2, h.2, ?_⟩⟩
        exact Option.isNone_iff_eq_none.1 h.1.1
      · rintro ⟨-, (⟨-, hv0, hv1, hnone⟩ | ⟨heven, -⟩)⟩
        · rw [EdgeInner.hash]
          simp [hnone, hv0, hv1]
        · omega

/-- Witness for C2 (amended) at a concrete verified Added edge. -/
theorem edge_verify_iff_amended_witness :
    EdgeInner.verify
      { key := (1, 2), nonce := 1,
        signature0 := sigSign 1 (build_hash 1 2 1),
        signature1 := sigSign 2 (build_hash 1 2 1),
        removal_info := none } = true ↔
    claimEAmended
      { key := (1, 2), nonce := 1,
        signature0 := sigSign 1 (build_hash 1 2 1),
        signature1 := sigSign 2 (build_hash 1 2 1),
        removal_info := none } :=
  edge_verify_iff_amended _

/-- Edge with nonce `u64::MAX` used to refute C4 as stated: odd nonce, so
it is an `Added` edge, and both signatures are valid over the addition
hash, so it verifies. -/
def eMaxEdge : EdgeInner :=
  { key := (1, 2), nonce := 2 ^ 64 - 1,
    signature0 := sigSign 1 (build_hash 1 2 (2 ^ 64 - 1)),
    signature1 := sigSign 2 (build_hash 1 2 (2 ^ 64 - 1)),
    removal_info := none }

/-- Claim C4, counterexample: on a verified Added edge with nonce
`u64::MAX`, the `u64` increment in `remove_edge` wraps to `0`, so the
result's nonce is not `nonce + 1` and the produced edge fails `verify`
(the Removed branch rejects nonce `0`). -/
theorem remove_edge_claim_cex :
    eMaxEdge.verify = true ∧
    eMaxEdge.remove_edge 2 2 =
      some { key := (1, 2), nonce := 0,
             signature0 := sigSign 1 (build_hash 1 2 (2 ^ 64 - 1)),
             signature1 := sigSign 2 (build_hash 1 2 (2 ^ 64 - 1)),
             removal_info := some (false, sigSign 2 (build_hash 1 2 0)) } ∧
    EdgeInner.verify
      { key := (1, 2), nonce := 0,
        signature0 := sigSign 1 (build_hash 1 2 (2 ^ 64 - 1)),
        signature1 := sigSign 2 (build_hash 1 2 (2 ^ 64 - 1)),
        removal_info := some (false, sigSign 2 (build_hash 1 2 0)) } = false :=
  ⟨by decide, by decide, by decide⟩

/-- Claim C4 (amended): removing a verified Added edge whose nonce is
below `u64::MAX` (so the `u64` increment `nonce += 1` does not wrap)
yields a Removed edge with the same key, incremented nonce, both addition
signatures preserved, removal info
`(my_peer_id == key.0, sign(new_nonce_hash))`, and the result verifies.
At nonce `u64::MAX` the increment wraps to `0` and the result fails
`verify`, refuting the unrestricted claim (`remove_edge_claim_cex`).
The secret key matching the endpoint `my` is `my` itself in the symbolic
signature model. -/
theorem remove_edge_spec_amended (e : EdgeInner) (my : Nat)
    (he : e.verify = true) (hadd : e.nonce % 2 = 1)
    (hlt : e.nonce + 1 < 2 ^ 64)
    (hmy : my = e.key.1 ∨ my = e.key.2) :
    e.remove_edge my my =
      some { key := e.key, nonce := e.nonce + 1,
             signature0 := e.signature0, signature1 := e.signature1,
             removal_info :=
               some ((e.key.1 = my : Bool),
                 sigSign my (build_hash e.key.1 e.key.2 (e.nonce + 1))) } ∧
    EdgeInner.verify
      { key := e.key, nonce := e.nonce + 1,
        signature0 := e.signature0, signature1 := e.signature1,
        removal_info :=
          some ((e.key.1 = my : Bool),
            sigSign my (build_hash e.key.1 e.key.2 (e.nonce + 1))) } = true := by
  have htype : e.edge_type = EdgeType.Added := by
    simp [EdgeInner.edge_type, hadd]
  have hord : ¬ e.key.2 < e.key.1 := by
    intro hlt
    have : e.verify = false := by
      unfold EdgeInner.verify
      rw [if_pos hlt]
    rw [this] at he
    cases he
  have hA := (verify_added_eq e hord hadd) ▸ he
  rw [Bool.and_eq_true, Bool.and_eq_true] at hA
  have hmod : (e.nonce + 1) % 2 ^ 64 = e.nonce + 1 := Nat.mod_eq_of_lt hlt
  constructor
  · rw [EdgeInner.remove_edge, if_neg (by simp [htype])]
    simp only [hmod]
  · set e' : EdgeInner :=
      { key := e.key, nonce := e.nonce + 1,
        signature0 := e.signature0, signature1 := e.signature1,
        removal_info :=
          some ((e.key.1 = my : Bool),
            sigSign my (build_hash e.key.1 e.key.2 (e.nonce + 1))) } with he'
    rw [edge_verify_iff_amended]
    refine ⟨Nat.le_of_not_lt hord, Or.inr ⟨by simp [he', Nat.add_mod, hadd],
      by simp [he'], ?_, ?_, (e.key.1 = my : Bool),
      sigSign my (build_hash e.key.1 e.key.2 (e.nonce + 1)), rfl, ?_⟩⟩
    · have : e'.signature0 = e.signature0 ∧ e'.key = e.key ∧
          e'.nonce - 1 = e.nonce := by simp [he']
      rw [this.1, this.2.1, this.2.2]
      simpa [EdgeInner.hash] using hA.1.2
    · have : e'.signature1 = e.signature1 ∧ e'.key = e.key ∧
          e'.nonce - 1 = e.nonce := by simp [he']
      rw [this.1, this.2.1, this.2.2]
      simpa [EdgeInner.hash] using hA.2
    · by_cases hk : e.key.1 = my
      · simp [he', hk, sigVerify, sigSign, build_hash]
      · have hk2 : my = e.key.2 := by
          rcases hmy with h | h
          · exact absurd h.symm hk
          · exact h
        have hne : ¬ e.key.1 = e.key.2 := fun h => hk (by rw [h, ← hk2])
        simp [he', hk, sigVerify, sigSign, build_hash, hk2, hne]

/-- Witness for C4 (amended) at a concrete verified Added edge between
peers 1 and 2, removed by endpoint 2. -/
theorem remove_edge_spec_amended_witness :
    EdgeInner.remove_edge
      { key := (1, 2), nonce := 1,
        signature0 := sigSign 1 (build_hash 1 2 1),
        signature1 := sigSign 2 (build_hash 1 2 1),
        removal_info := none } 2 2 =
      some { key := (1, 2), nonce := 2,
             signature0 := sigSign 1 (build_hash 1 2 1),
             signature1 := sigSign 2 (build_hash 1 2 1),
             removal_info := some (false, sigSign 2 (build_hash 1 2 2)) } := by
  have h := remove_edge_spec_amended
    { key := (1, 2), nonce := 1,
      signature0 := sigSign 1 (build_hash 1 2 1),
      signature1 := sigSign 2 (build_hash 1 2 1),
      removal_info := none } 2 (by decide) (by decide) (by decide) (by decide)
  simpa using h.1

/-! ## RoutingTableView (`routing.rs`): local edges and round-robin routing

Only the fields touched by the verified operations are modelled; the
persistent store handle and the announcement / route-back / ping caches are
external collaborators of the claims below and are omitted. -/

/-- Error kinds of `find_route` (`FindRouteError` in `routing.rs`). -/
inductive FindRouteError : Type
  | Disconnected : FindRouteError
  | PeerNotFound : FindRouteError
  | AccountNotFound : FindRouteError
  | RouteBackNotFound : FindRouteError
deriving DecidableEq

/-- Model of `RoutingTableView` (fields used by the claims).  `route_nonce`
is a `SizedCache<PeerId, usize>` of capacity
`ROUND_ROBIN_NONCE_CACHE_SIZE` with LRU eviction; it is modelled as an
association list kept in most-recently-used-first order. -/
structure RoutingTableView : Type where
  my_peer_id : Nat
  peer_forwarding : List (Nat × List Nat)
  local_edges_info : List ((Nat × Nat) × EdgeInner)
  route_nonce : List (Nat × Nat)

/-- Constant `ROUND_ROBIN_MAX_NONCE_DIFFERENCE_ALLOWED` of `routing.rs`. -/
def RR_MAX_DIFF : Nat := 10

/-- Model of `RoutingTableView::is_local_edge_newer`.  The code asserts
`my_peer_id ∈ key`; a failed assertion is `none`. -/
def is_local_edge_newer (rt : RoutingTableView) (key : Nat × Nat) (nonce : Nat) :
    Option Bool :=
  if key.1 = rt.my_peer_id ∨ key.2 = rt.my_peer_id then
    some (decide ((((rt.local_edges_info.lookup key).map EdgeInner.nonce).getD 0) < nonce))
  else none

/-- Strict lexicographic order on `(usize, PeerId)` pairs, the derived `Ord`
used by the round-robin selection. -/
def lexLt (a b : Nat × Nat) : Prop :=
  a.1 < b.1 ∨ (a.1 = b.1 ∧ a.2 < b.2)

instance : DecidablePred (fun p : (Nat × Nat) × (Nat × Nat) => lexLt p.1 p.2) :=
  fun p => by unfold lexLt; infer_instance

instance (a b : Nat × Nat) : Decidable (lexLt a b) := by
  unfold lexLt; infer_instance

/-- Running minimum of `Iterator::min` (first minimal element wins ties). -/
def lexMinAux (acc : Nat × Nat) : List (Nat × Nat) → Nat × Nat
  | [] => acc
  | x :: t => lexMinAux (if lexLt x acc then x else acc) t

/-- Running maximum of `Iterator::max` (last maximal element wins ties). -/
def lexMaxAux (acc : Nat × Nat) : List (Nat × Nat) → Nat × Nat
  | [] => acc
  | x :: t => lexMaxAux (if lexLt x acc then acc else x) t

/-- Model of `Iterator::min` on the `(nonce, peer)` pairs. -/
def lexMin? : List (Nat × Nat) → Option (Nat × Nat)
  | [] => none
  | x :: t => some (lexMinAux x t)

/-- Model of `Iterator::max` on the `(nonce, peer)` pairs. -/
def lexMax? : List (Nat × Nat) → Option (Nat × Nat)
  | [] => none
  | x :: t => some (lexMaxAux x t)

/-- Constant `ROUND_ROBIN_NONCE_CACHE_SIZE` of `routing.rs`, the capacity
of the `route_nonce` SizedCache. -/
def RR_CACHE_SIZE : Nat := 10000

/-- Model of `SizedCache::cache_get` (the `cached` crate): return the
stored value and move the key to the most-recently-used position. -/
def cache_get (c : List (Nat × Nat)) (k : Nat) :
    Option Nat × List (Nat × Nat) :=
  match c.lookup k with
  | some v => (some v, (k, v) :: erase c k)
  | none => (none, c)

/-- Model of `SizedCache::cache_set`: store the value at the
most-recently-used position; inserting a new key into a full cache evicts
the least-recently-used entry (the last one). -/
def cache_set (cap : Nat) (c : List (Nat × Nat)) (k : Nat) (v : Nat) :
    List (Nat × Nat) :=
  match c.lookup k with
  | some _ => (k, v) :: erase c k
  | none => if c.length < cap then (k, v) :: c else (k, v) :: c.dropLast

/-- The read loop of `find_route_from_peer_id`: map each candidate to its
`(counter, peer)` pair through `cache_get`, threading the recency
reordering of the cache through the iteration. -/
def readNonces : List (Nat × Nat) → List Nat →
    List (Nat × Nat) × List (Nat × Nat)
  | c, [] => ([], c)
  | c, p :: rest =>
      (((cache_get c p).1.getD 0, p) :: (readNonces (cache_get c p).2 rest).1,
        (readNonces (cache_get c p).2 rest).2)

/-- Model of `RoutingTableView::find_route_from_peer_id`, returning the
result together with the updated view.  Reads go through `cache_get`
(which refreshes recency) and writes through `cache_set` on the
size-capped `route_nonce` cache; the `unwrap`s on the minimum and maximum
are guarded by the emptiness check, mirrored by `getD`. -/
def find_route_from_peer_id (rt : RoutingTableView) (peer_id : Nat) :
    Except FindRouteError Nat × RoutingTableView :=
  match rt.peer_forwarding.lookup peer_id with
  | none => (Except.error FindRouteError.PeerNotFound, rt)
  | some routes =>
    if routes.isEmpty then (Except.error FindRouteError.Disconnected, rt)
    else
      let read := readNonces rt.route_nonce routes
      let min_v := (lexMin? read.1).getD (0, 0)
      let max_v := (lexMax? read.1).getD (0, 0)
      let c1 := if min_v.1 + RR_MAX_DIFF < max_v.1 then
          cache_set RR_CACHE_SIZE read.2 min_v.2 (max_v.1 - RR_MAX_DIFF)
        else read.2
      let next_hop := min_v.2
      let got := cache_get c1 next_hop
      let newrn := cache_set RR_CACHE_SIZE got.2 next_hop
        ((got.1.map (· + 1)).getD 1)
      (Except.ok next_hop, { rt with route_nonce := newrn })

theorem lexMinAux_mem (l : List (Nat × Nat)) :
    ∀ acc, lexMinAux acc l = acc ∨ lexMinAux acc l ∈ l := by
  induction l with
  | nil => intro acc; exact Or.inl rfl
  | cons x t ih =>
      intro acc
      rw [lexMinAux]
      by_cases h : lexLt x acc
      · rw [if_pos h]
        rcases ih x with h2 | h2
        · exact Or.inr (by rw [h2]; exact List.mem_cons_self x t)
        · exact Or.inr (List.mem_cons_of_mem x h2)
      · rw [if_neg h]
        rcases ih acc with h2 | h2
        · exact Or.inl h2
        · exact Or.inr (List.mem_cons_of_mem x h2)

theorem lexMinAux_min (l : List (Nat × Nat)) :
    ∀ acc, ¬ lexLt acc (lexMinAux acc l) ∧
      ∀ y ∈ l, ¬ lexLt y (lexMinAux acc l) := by
  induction l with
  | nil =>
      intro acc
      refine ⟨?_, by simp⟩
      simp [lexMinAux, lexLt]
  | cons x t ih =>
      intro acc
      rw [lexMinAux]
      by_cases h : lexLt x acc
      · rw [if_pos h]
        obtain ⟨h1, h2⟩ := ih x
        refine ⟨?_, ?_⟩
        · simp only [lexLt] at *
          omega
        · intro y hy
          rcases List.mem_cons.1 hy with hyx | hyt
          · subst hyx
            exact h1
          · exact h2 y hyt
      · rw [if_neg h]
        obtain ⟨h1, h2⟩ := ih acc
        refine ⟨h1, ?_⟩
        intro y hy
        rcases List.mem_cons.1 hy with hyx | hyt
        · subst hyx
          simp only [lexLt] at *
          omega
        · exact h2 y hyt

theorem lexMaxAux_mem (l : List (Nat × Nat)) :
    ∀ acc, lexMaxAux acc l = acc ∨ lexMaxAux acc l ∈ l := by
  induction l with
  | nil => intro acc; exact Or.inl rfl
  | cons x t ih =>
      intro acc
      rw [lexMaxAux]
      by_cases h : lexLt x acc
      · rw [if_pos h]
        rcases ih acc with h2 | h2
        · exact Or.inl h2
        · exact Or.inr (List.mem_cons_of_mem x h2)
      · rw [if_neg h]
        rcases ih x with h2 | h2
        · exact Or.inr (by rw [h2]; exact List.mem_cons_self x t)
        · exact Or.inr (List.mem_cons_of_mem x h2)

theorem lexMaxAux_max (l : List (Nat × Nat)) :
    ∀ acc, ¬ lexLt (lexMaxAux acc l) acc ∧
      ∀ y ∈ l, ¬ lexLt (lexMaxAux acc l) y := by
  induction l with
  | nil =>
      intro acc
      refine ⟨?_, by simp⟩
      simp [lexMaxAux, lexLt]
  | cons x t ih =>
      intro acc
      rw [lexMaxAux]
      by_cases h : lexLt x acc
      · rw [if_pos h]
        obtain ⟨h1, h2⟩ := ih acc
        refine ⟨h1, ?_⟩
        intro y hy
        rcases List.mem_cons.1 hy with hyx | hyt
        · subst hyx
          simp only [lexLt] at *
          omega
        · exact h2 y hyt
      · rw [if_neg h]
        obtain ⟨h1, h2⟩ := ih x
        refine ⟨?_, ?_⟩
        · simp only [lexLt] at *
          omega
        · intro y hy
          rcases List.mem_cons.1 hy with hyx | hyt
          · subst hyx
            exact h1
          · exact h2 y hyt

theorem lexMin?_spec (l : List (Nat × Nat)) (h : l ≠ []) :
    ∃ m, lexMin? l = some m ∧ m ∈ l ∧ ∀ y ∈ l, ¬ lexLt y m := by
  cases l with
  | nil => exact absurd rfl h
  | cons x t =>
      refine ⟨lexMinAux x t, rfl, ?_, ?_⟩
      · rcases lexMinAux_mem t x with h2 | h2
        · rw [h2]; exact List.mem_cons_self x t
        · exact List.mem_cons_of_mem x h2
      · intro y hy
        obtain ⟨h1, h2⟩ := lexMinAux_min t x
        rcases List.mem_cons.1 hy with hyx | hyt
        · subst hyx; exact h1
        · exact h2 y hyt

theorem lexMax?_spec (l : List (Nat × Nat)) (h : l ≠ []) :
    ∃ m, lexMax? l = some m ∧ m ∈ l ∧ ∀ y ∈ l, ¬ lexLt m y := by
  cases l with
  | nil => exact absurd rfl h
  | cons x t =>
      refine ⟨lexMaxAux x t, rfl, ?_, ?_⟩
      · rcases lexMaxAux_mem t x with h2 | h2
        · rw [h2]; exact List.mem_cons_self x t
        · exact List.mem_cons_of_mem x h2
      · intro y hy
        obtain ⟨h1, h2⟩ := lexMaxAux_max t x
        rcases List.mem_cons.1 hy with hyx | hyt
        · subst hyx; exact h1
        · exact h2 y hyt

theorem cache_get_fst (c : List (Nat × Nat)) (k : Nat) :
    (cache_get c k).1 = c.lookup k := by
  unfold cache_get
  cases h : c.lookup k with
  | none => rfl
  | some v => rfl

theorem cache_get_lookup (c : List (Nat × Nat)) (k k' : Nat) :
    ((cache_get c k).2).lookup k' = c.lookup k' := by
  unfold cache_get
  cases h : c.lookup k with
  | none => rfl
  | some v =>
      show ((k, v) :: erase c k).lookup k' = c.lookup k'
      rw [lookup_cons]
      by_cases hk : k' = k
      · rw [if_pos hk, hk, h]
      · rw [if_neg hk, lookup_erase, if_neg hk]

theorem lookup_dropLast (c : List (Nat × Nat)) (k : Nat) :
    c.dropLast.lookup k = c.lookup k ∨ c.dropLast.lookup k = none := by
  induction c with
  | nil => exact Or.inl rfl
  | cons x t ih =>
      obtain ⟨a, b⟩ := x
      cases t with
      | nil => exact Or.inr rfl
      | cons y u =>
          have hd : ((a, b) :: y :: u).dropLast = (a, b) :: (y :: u).dropLast :=
            rfl
          rw [hd, lookup_cons, lookup_cons]
          by_cases hk : k = a
          · rw [if_pos hk, if_pos hk]
            exact Or.inl rfl
          · rw [if_neg hk, if_neg hk]
            exact ih

theorem cache_set_lookup_self (cap : Nat) (c : List (Nat × Nat)) (k v : Nat) :
    (cache_set cap c k v).lookup k = some v := by
  unfold cache_set
  cases h : c.lookup k with
  | some w =>
      show ((k, v) :: erase c k).lookup k = some v
      rw [lookup_cons, if_pos rfl]
  | none =>
      show (if c.length < cap then (k, v) :: c
        else (k, v) :: c.dropLast).lookup k = some v
      by_cases hlen : c.length < cap
      · rw [if_pos hlen, lookup_cons, if_pos rfl]
      · rw [if_neg hlen, lookup_cons, if_pos rfl]

theorem cache_set_lookup_other (cap : Nat) (c : List (Nat × Nat))
    (k v k' : Nat) (hne : k' ≠ k) :
    (cache_set cap c k v).lookup k' = c.lookup k' ∨
      (cache_set cap c k v).lookup k' = none := by
  unfold cache_set
  cases h : c.lookup k with
  | some w =>
      left
      show ((k, v) :: erase c k).lookup k' = c.lookup k'
      rw [lookup_cons, if_neg hne, lookup_erase, if_neg hne]
  | none =>
      by_cases hlen : c.length < cap
      · left
        show (if c.length < cap then (k, v) :: c
          else (k, v) :: c.dropLast).lookup k' = c.lookup k'
        rw [if_pos hlen, lookup_cons, if_neg hne]
      · rcases lookup_dropLast c k' with hdl | hdl
        · left
          show (if c.length < cap then (k, v) :: c
            else (k, v) :: c.dropLast).lookup k' = c.lookup k'
          rw [if_neg hlen, lookup_cons, if_neg hne]
          exact hdl
        · right
          show (if c.length < cap then (k, v) :: c
            else (k, v) :: c.dropLast).lookup k' = none
          rw [if_neg hlen, lookup_cons, if_neg hne]
          exact hdl

theorem readNonces_spec (routes : List Nat) : ∀ c : List (Nat × Nat),
    (readNonces c routes).1
      = routes.map (fun p => ((c.lookup p).getD 0, p)) ∧
    ∀ k, ((readNonces c routes).2).lookup k = c.lookup k := by
  induction routes with
  | nil =>
      intro c
      exact ⟨rfl, fun k => rfl⟩
  | cons p rest ih =>
      intro c
      obtain ⟨ih1, ih2⟩ := ih (cache_get c p).2
      constructor
      · show ((cache_get c p).1.getD 0, p)
            :: (readNonces (cache_get c p).2 rest).1
          = ((c.lookup p).getD 0, p)
            :: rest.map (fun q => ((c.lookup q).getD 0, q))
        have hf : (fun q => ((((cache_get c p).2).lookup q).getD 0, q))
            = (fun q : Nat => ((c.lookup q).getD 0, q)) := by
          funext q
          rw [cache_get_lookup]
        rw [ih1, hf, cache_get_fst]
      · intro k
        show ((readNonces (cache_get c p).2 rest).2).lookup k = c.lookup k
        rw [ih2 k, cache_get_lookup]

/-- The value bound to a key other than the one written by the final
`cache_set` of `find_route_from_peer_id` is preserved or evicted. -/
theorem final_cache_frame (cR c1 : List (Nat × Nat)) (p0 v q : Nat)
    (hqne : q ≠ p0) (hc1 : c1.lookup q = cR.lookup q ∨ c1.lookup q = none) :
    (cache_set RR_CACHE_SIZE (cache_get c1 p0).2 p0 v).lookup q
      = cR.lookup q ∨
    (cache_set RR_CACHE_SIZE (cache_get c1 p0).2 p0 v).lookup q = none := by
  rcases cache_set_lookup_other RR_CACHE_SIZE (cache_get c1 p0).2 p0 v q hqne
    with h1 | h1
  · rw [h1, cache_get_lookup]
    exact hc1
  · exact Or.inr h1

/-- Usage counter of a peer in the round-robin cache; a missing entry
counts as `0`, as in `cache_get(..).cloned().unwrap_or(0)`. -/
def counterOf (rt : RoutingTableView) (p : Nat) : Nat :=
  (rt.route_nonce.lookup p).getD 0


/-- Claim C5: round-robin selection in `find_route_from_peer_id`.  When the
forwarding entry of the target is a non-empty list, the call returns `Ok p`
for the candidate `p` with the smallest counter (missing counters count as
0, ties broken by the peer order); if the largest candidate counter exceeds
the smallest by more than `ROUND_ROBIN_MAX_NONCE_DIFFERENCE_ALLOWED = 10`,
the selected counter is first clamped to largest-minus-10 and then
incremented, otherwise it is just incremented (a missing counter becomes
1); every other counter of the size-capped LRU cache is either unchanged
or evicted (absent afterwards, never altered), and all other fields are
unchanged. -/
theorem find_route_round_robin (rt : RoutingTableView) (target : Nat)
    (routes : List Nat)
    (hfwd : rt.peer_forwarding.lookup target = some routes)
    (hne : routes ≠ []) :
    ∃ p rt', find_route_from_peer_id rt target = (Except.ok p, rt') ∧
      p ∈ routes ∧
      (∀ q ∈ routes,
        counterOf rt p < counterOf rt q ∨
          (counterOf rt p = counterOf rt q ∧ p ≤ q)) ∧
      (∃ maxc, (∀ q ∈ routes, counterOf rt q ≤ maxc) ∧
        (∃ q ∈ routes, counterOf rt q = maxc) ∧
        rt'.route_nonce.lookup p =
          some (if counterOf rt p + RR_MAX_DIFF < maxc
            then maxc - RR_MAX_DIFF + 1 else counterOf rt p + 1)) ∧
      (∀ q, q ≠ p →
        rt'.route_nonce.lookup q = rt.route_nonce.lookup q ∨
          rt'.route_nonce.lookup q = none) ∧
      rt'.my_peer_id = rt.my_peer_id ∧
      rt'.peer_forwarding = rt.peer_forwarding ∧
      rt'.local_edges_info = rt.local_edges_info := by
  have hemp : routes.isEmpty = false := by
    cases routes with
    | nil => exact absurd rfl hne
    | cons a t => rfl
  obtain ⟨hr1, hr2⟩ := readNonces_spec routes rt.route_nonce
  have hnpne : (readNonces rt.route_nonce routes).1 ≠ [] := by
    rw [hr1]
    intro hcon
    exact hne (List.map_eq_nil_iff.1 hcon)
  obtain ⟨mn, hmn_eq, hmn_mem, hmn_min⟩ := lexMin?_spec _ hnpne
  obtain ⟨mx, hmx_eq, hmx_mem, hmx_max⟩ := lexMax?_spec _ hnpne
  rw [hr1] at hmn_mem hmx_mem hmn_min hmx_max
  obtain ⟨p0, hp0_mem, hp0_eq⟩ := List.mem_map.1 hmn_mem
  obtain ⟨q0, hq0_mem, hq0_eq⟩ := List.mem_map.1 hmx_mem
  subst hp0_eq
  subst hq0_eq
  have hmins : ∀ q ∈ routes,
      counterOf rt p0 < counterOf rt q ∨
        (counterOf rt p0 = counterOf rt q ∧ p0 ≤ q) := by
    intro q hq
    have hq' := hmn_min _ (List.mem_map_of_mem _ hq)
    simp only [lexLt, not_or, not_and, not_lt] at hq'
    rcases Nat.lt_or_ge (counterOf rt p0) (counterOf rt q) with hlt | hge
    · exact Or.inl hlt
    · have heq : counterOf rt q = counterOf rt p0 := Nat.le_antisymm hge hq'.1
      exact Or.inr ⟨heq.symm, hq'.2 heq⟩
  have hmaxs : ∀ q ∈ routes, counterOf rt q ≤ counterOf rt q0 := by
    intro q hq
    have hq' := hmx_max _ (List.mem_map_of_mem _ hq)
    simp only [lexLt, not_or, not_and, not_lt] at hq'
    exact hq'.1
  by_cases hc : counterOf rt p0 + RR_MAX_DIFF < counterOf rt q0
  · refine ⟨p0,
      { rt with route_nonce := (cache_set RR_CACHE_SIZE
          (cache_get (cache_set RR_CACHE_SIZE
              (readNonces rt.route_nonce routes).2 p0
              ((rt.route_nonce.lookup q0).getD 0 - RR_MAX_DIFF)) p0).2 p0
          ((rt.route_nonce.lookup q0).getD 0 - RR_MAX_DIFF + 1)) },
      ?_, hp0_mem, hmins,
      ⟨counterOf rt q0, hmaxs, ⟨q0, hq0_mem, rfl⟩, ?_⟩, ?_, rfl, rfl, rfl⟩
    · have hg1 : (cache_get (cache_set RR_CACHE_SIZE
          (readNonces rt.route_nonce routes).2 p0
          ((rt.route_nonce.lookup q0).getD 0 - RR_MAX_DIFF)) p0).1
        = some ((rt.route_nonce.lookup q0).getD 0 - RR_MAX_DIFF) := by
        rw [cache_get_fst, cache_set_lookup_self]
      rw [find_route_from_peer_id, hfwd]
      simp only [hemp, Bool.false_eq_true, if_false, hmn_eq, hmx_eq,
        Option.getD_some,
        if_pos (show ((rt.route_nonce.lookup p0).getD 0) + RR_MAX_DIFF
          < ((rt.route_nonce.lookup q0).getD 0) from hc), hg1,
        Option.map_some', Option.getD_some]
    · rw [if_pos hc]
      simp [cache_set_lookup_self, counterOf]
    · intro q hqne
      refine final_cache_frame rt.route_nonce _ p0 _ q hqne ?_
      rcases cache_set_lookup_other RR_CACHE_SIZE
          (readNonces rt.route_nonce routes).2 p0
          ((rt.route_nonce.lookup q0).getD 0 - RR_MAX_DIFF) q hqne
        with h1 | h1
      · rw [h1, hr2 q]
        exact Or.inl rfl
      · exact Or.inr h1
  · refine ⟨p0,
      { rt with route_nonce := (cache_set RR_CACHE_SIZE
          (cache_get (readNonces rt.route_nonce routes).2 p0).2 p0
          (((rt.route_nonce.lookup p0).map (· + 1)).getD 1)) },
      ?_, hp0_mem, hmins,
      ⟨counterOf rt q0, hmaxs, ⟨q0, hq0_mem, rfl⟩, ?_⟩, ?_, rfl, rfl, rfl⟩
    · have hg1 : (cache_get (readNonces rt.route_nonce routes).2 p0).1
          = rt.route_nonce.lookup p0 := by
        rw [cache_get_fst, hr2 p0]
      rw [find_route_from_peer_id, hfwd]
      simp only [hemp, Bool.false_eq_true, if_false, hmn_eq, hmx_eq,
        Option.getD_some,
        if_neg (show ¬ (((rt.route_nonce.lookup p0).getD 0) + RR_MAX_DIFF
          < ((rt.route_nonce.lookup q0).getD 0)) from hc), hg1]
    · rw [if_neg hc]
      simp only [cache_set_lookup_self]
      cases hl : rt.route_nonce.lookup p0 with
      | none => simp [counterOf, hl]
      | some n => simp [counterOf, hl]
    · intro q hqne
      exact final_cache_frame rt.route_nonce _ p0 _ q hqne (Or.inl (hr2 q))

/-- Concrete routing table view used as C5 witness: target 7 forwards to
peers 1, 2, 3 with counters 5, 0, 20. -/
def rtvW : RoutingTableView :=
  { my_peer_id := 0,
    peer_forwarding := [(7, [1, 2, 3])],
    local_edges_info := [],
    route_nonce := [(1, 5), (2, 0), (3, 20)] }

/-- Witness for C5 at `rtvW`: the round-robin theorem applies at target 7. -/
theorem find_route_round_robin_witness :
    ∃ p rt', find_route_from_peer_id rtvW 7 = (Except.ok p, rt') ∧
      p ∈ [1, 2, 3] ∧
      (∀ q ∈ [1, 2, 3],
        counterOf rtvW p < counterOf rtvW q ∨
          (counterOf rtvW p = counterOf rtvW q ∧ p ≤ q)) ∧
      (∃ maxc, (∀ q ∈ [1, 2, 3], counterOf rtvW q ≤ maxc) ∧
        (∃ q ∈ [1, 2, 3], counterOf rtvW q = maxc) ∧
        rt'.route_nonce.lookup p =
          some (if counterOf rtvW p + RR_MAX_DIFF < maxc
            then maxc - RR_MAX_DIFF + 1 else counterOf rtvW p + 1)) ∧
      (∀ q, q ≠ p →
        rt'.route_nonce.lookup q = rtvW.route_nonce.lookup q ∨
          rt'.route_nonce.lookup q = none) ∧
      rt'.my_peer_id = rtvW.my_peer_id ∧
      rt'.peer_forwarding = rtvW.peer_forwarding ∧
      rt'.local_edges_info = rtvW.local_edges_info :=
  find_route_round_robin rtvW 7 [1, 2, 3] rfl (by decide)

/-! ## Claim C8: `is_local_edge_newer` -/

/-- Empty routing table view owned by peer 1, used to refute C8 as stated. -/
def rtvEmpty : RoutingTableView :=
  { my_peer_id := 1, peer_forwarding := [], local_edges_info := [], route_nonce := [] }

/-- Claim C8, counterexample: with no entry for the key and `nonce = 0`,
the code returns `false` (it computes `0 < 0`), while the claim says a
missing entry alone makes the result `true`. -/
theorem is_local_edge_newer_claim_cex :
    is_local_edge_newer rtvEmpty (1, 2) 0 = some false ∧
    rtvEmpty.local_edges_info.lookup (1, 2) = none := by
  constructor
  · rfl
  · rfl

/-- Claim C8 (amended): under the precondition `my_peer_id ∈ key`,
`is_local_edge_newer key nonce` returns true iff the nonce of the existing
entry for the key, taken as `0` when the entry is absent, is strictly less
than `nonce`; equivalently, iff either there is no entry and `nonce > 0`,
or the existing entry's nonce is strictly less than `nonce`. -/
theorem is_local_edge_newer_amended (rt : RoutingTableView) (key : Nat × Nat)
    (nonce : Nat) (h : key.1 = rt.my_peer_id ∨ key.2 = rt.my_peer_id) :
    ∃ b, is_local_edge_newer rt key nonce = some b ∧
      (b = true ↔ ((rt.local_edges_info.lookup key = none ∧ 0 < nonce) ∨
        (∃ e, rt.local_edges_info.lookup key = some e ∧ e.nonce < nonce))) := by
  refine ⟨_, by rw [is_local_edge_newer, if_pos h], ?_⟩
  cases hl : rt.local_edges_info.lookup key with
  | none => simp [hl]
  | some e => simp [hl]

/-- Concrete view used as C8 witness: a local edge `(1,2)` with nonce 3. -/
def rtvEdge : RoutingTableView :=
  { my_peer_id := 1, peer_forwarding := [], route_nonce := [],
    local_edges_info :=
      [((1, 2), { key := (1, 2), nonce := 3,
                  signature0 := none, signature1 := none,
                  removal_info := none })] }

/-- Witness for C8 (amended) at `rtvEdge` with nonce 4. -/
theorem is_local_edge_newer_amended_witness :
    ∃ b, is_local_edge_newer rtvEdge (1, 2) 4 = some b ∧
      (b = true ↔ ((rtvEdge.local_edges_info.lookup (1, 2) = none ∧ 0 < 4) ∨
        (∃ e, rtvEdge.local_edges_info.lookup (1, 2) = some e ∧ e.nonce < 4))) :=
  is_local_edge_newer_amended rtvEdge (1, 2) 4 (Or.inl rfl)

/-! ## Graph (`routing.rs`): integer-indexed adjacency and id management

`Vec` fields become `List`s.  The `unused` free list is only used as a
stack (`push`/`pop`), modelled with cons as push and head as pop.  Rust
panics (failed `assert!`, out-of-bounds indexing) are `none`. -/

/-- Model of `Graph` in `routing.rs`. -/
structure Graph : Type where
  my_peer_id : Nat
  source_id : Nat
  p2id : List (Nat × Nat)
  id2p : List Nat
  used : List Bool
  unused : List Nat
  adjacency : List (List Nat)
  total_active_edges : Nat

/-- Model of `Graph::new(source)`. -/
def Graph.new (source : Nat) : Graph :=
  { my_peer_id := source, source_id := 0,
    p2id := [(source, 0)], id2p := [source], used := [true],
    unused := [], adjacency := [[]], total_active_edges := 0 }

/-- Model of `Graph::contains_edge`; the indexing `adjacency[id0]` can
panic, everything else is total. -/
def Graph.contains_edge (g : Graph) (peer0 peer1 : Nat) : Option Bool :=
  match g.p2id.lookup peer0, g.p2id.lookup peer1 with
  | some id0, some id1 => (g.adjacency.get? id0).map (fun l => decide (id1 ∈ l))
  | _, _ => some false

/-- Model of `Graph::get_id`: the existing id, or an allocation from the
free list (with its two `assert!`s and three indexed accesses), or a fresh
append. -/
def Graph.get_id (g : Graph) (peer : Nat) : Option (Nat × Graph) :=
  match g.p2id.lookup peer with
  | some v => some (v, g)
  | none =>
    match g.unused with
    | v :: rest =>
        match g.used.get? v, g.adjacency.get? v with
        | some u, some adjv =>
            if u then none
            else if ¬ adjv.isEmpty then none
            else if v < g.id2p.length then
              some (v, { g with
                unused := rest,
                id2p := g.id2p.set v peer,
                used := g.used.set v true,
                p2id := upsert g.p2id peer v })
            else none
        | _, _ => none
    | [] =>
        some (g.id2p.length,
          { g with
            id2p := g.id2p ++ [peer],
            used := g.used ++ [true],
            adjacency := g.adjacency ++ [[]],
            p2id := upsert g.p2id peer g.id2p.length })

/-- Model of `Graph::remove_if_unused`. -/
def Graph.remove_if_unused (g : Graph) (id : Nat) : Option Graph :=
  match g.adjacency.get? id with
  | none => none
  | some entry =>
      if entry.isEmpty ∧ id ≠ g.source_id then
        match g.used.get? id, g.id2p.get? id with
        | some _, some p =>
            some { g with
              used := g.used.set id false,
              unused := id :: g.unused,
              p2id := erase g.p2id p }
        | _, _ => none
      else some g

/-- Model of `Graph::add_edge` with its `assert_ne!(peer0, peer1)`. -/
def Graph.add_edge (g : Graph) (peer0 peer1 : Nat) : Option Graph :=
  if peer0 = peer1 then none
  else do
    let c ← g.contains_edge peer0 peer1
    if c then some g
    else do
      let (id0, g1) ← g.get_id peer0
      let (id1, g2) ← g1.get_id peer1
      let adj0 ← g2.adjacency.get? id0
      let g3 := { g2 with adjacency := g2.adjacency.set id0 (adj0 ++ [id1]) }
      let adj1 ← g3.adjacency.get? id1
      some { g3 with
        adjacency := g3.adjacency.set id1 (adj1 ++ [id0]),
        total_active_edges := g3.total_active_edges + 1 }

/-- Model of `Graph::remove_edge` with its `assert_ne!(peer0, peer1)`.  The
`u64` decrement of `total_active_edges` wraps in Rust; it is the truncated
`Nat` subtraction here, which agrees on every state where the edge count is
positive (in particular whenever `contains_edge` just returned true on a
well-formed state). -/
def Graph.remove_edge (g : Graph) (peer0 peer1 : Nat) : Option Graph :=
  if peer0 = peer1 then none
  else do
    let c ← g.contains_edge peer0 peer1
    if ¬ c then some g
    else do
      let (id0, g1) ← g.get_id peer0
      let (id1, g2) ← g1.get_id peer1
      let adj0 ← g2.adjacency.get? id0
      let g3 := { g2 with adjacency := g2.adjacency.set id0 (adj0.filter (· ≠ id1)) }
      let adj1 ← g3.adjacency.get? id1
      let g4 := { g3 with adjacency := g3.adjacency.set id1 (adj1.filter (· ≠ id0)) }
      let g5 ← g4.remove_if_unused id0
      let g6 ← g5.remove_if_unused id1
      some { g6 with total_active_edges := g6.total_active_edges - 1 }

/-- Graph states reachable from `Graph::new` by `add_edge` / `remove_edge`
calls that do not panic. -/
inductive Reachable : Graph → Prop
  | new (source : Nat) : Reachable (Graph.new source)
  | add {g g' : Graph} {p q : Nat} :
      Reachable g → Graph.add_edge g p q = some g' → Reachable g'
  | rem {g g' : Graph} {p q : Nat} :
      Reachable g → Graph.remove_edge g p q = some g' → Reachable g'

theorem getD_set {α : Type} (l : List α) (i k : Nat) (x d : α) :
    (l.set i x).getD k d = if k = i ∧ k < l.length then x else l.getD k d := by
  rw [List.getD_eq_getElem?_getD, List.getD_eq_getElem?_getD, List.getElem?_set]
  by_cases hk : i = k
  · subst hk
    by_cases hlt : i < l.length
    · simp [hlt]
    · simp [hlt, List.getElem?_eq_none (Nat.le_of_not_lt hlt)]
  · have hk2 : ¬ (k = i ∧ k < l.length) := fun hc => hk hc.1.symm
    simp [hk, hk2]

theorem getD_append_one {α : Type} (l : List α) (x d : α) (k : Nat) :
    (l ++ [x]).getD k d = if k = l.length then x else l.getD k d := by
  rw [List.getD_eq_getElem?_getD, List.getD_eq_getElem?_getD, List.getElem?_append]
  by_cases hk : k = l.length
  · subst hk
    simp
  · by_cases hlt : k < l.length
    · simp [hlt, hk]
    · have h1 : l.length ≤ k := Nat.le_of_not_lt hlt
      have h2 : 1 ≤ k - l.length := by omega
      simp [hlt, hk, List.getElem?_eq_none h1,
        List.getElem?_eq_none (show ([x] : List α).length ≤ k - l.length by simpa using h2)]

/-- Well-formedness of a graph state, with a list `S` of freshly allocated
ids that are allowed to be `used` while their adjacency list is still
empty (only non-empty transiently inside `add_edge` / `remove_edge`). -/
structure GWFx (g : Graph) (S : List Nat) : Prop where
  src : g.source_id = 0
  npos : 0 < g.id2p.length
  ulen : g.used.length = g.id2p.length
  alen : g.adjacency.length = g.id2p.length
  u0 : g.used.getD 0 false = true
  alt : ∀ i j, j ∈ g.adjacency.getD i [] → j < g.id2p.length
  asym : ∀ i j, j ∈ g.adjacency.getD i [] → i ∈ g.adjacency.getD j []
  airr : ∀ i, i ∉ g.adjacency.getD i []
  anodup : ∀ i, (g.adjacency.getD i []).Nodup
  uiff : ∀ i, i < g.id2p.length →
    (g.used.getD i false = true ↔ (i = 0 ∨ g.adjacency.getD i [] ≠ [] ∨ i ∈ S))
  pspec : ∀ p i, g.p2id.lookup p = some i →
    i < g.id2p.length ∧ g.used.getD i false = true ∧ g.id2p.getD i 0 = p
  ispec : ∀ i, i < g.id2p.length → g.used.getD i false = true →
    g.p2id.lookup (g.id2p.getD i 0) = some i
  uspec : ∀ v ∈ g.unused, v < g.id2p.length ∧ g.used.getD v false = false ∧
    g.adjacency.getD v [] = [] ∧ v ≠ 0
  unodup : g.unused.Nodup

/-- Well-formedness of a quiescent graph state. -/
def GWF (g : Graph) : Prop := GWFx g []

theorem GWF_new (source : Nat) : GWF (Graph.new source) := by
  refine ⟨rfl, by simp [Graph.new], by simp [Graph.new], by simp [Graph.new],
    by simp [Graph.new], ?_, ?_, ?_, ?_, ?_, ?_, ?_, ?_, ?_⟩
  · intro i j hj
    simp [Graph.new, List.getD] at hj
  · intro i j hj
    simp [Graph.new, List.getD] at hj
  · intro i hi
    simp [Graph.new, List.getD] at hi
  · intro i
    simp [Graph.new, List.getD]
  · intro i hi
    simp [Graph.new] at hi
    subst hi
    simp [Graph.new, List.getD]
  · intro p i hp
    simp [Graph.new, lookup_cons] at hp
    by_cases hps : p = source
    · subst hps
      simp at hp
      subst hp
      simp [Graph.new, List.getD]
    · simp [hps, List.lookup] at hp
  · intro i hi hu
    simp [Graph.new] at hi
    subst hi
    simp [Graph.new, List.getD, lookup_cons]
  · intro v hv
    simp [Graph.new] at hv
  · simp [Graph.new]

theorem get?_of_getD {α : Type} (l : List α) (k : Nat) (d : α) (h : k < l.length) :
    l.get? k = some (l.getD k d) := by
  rw [List.get?_eq_getElem?, List.getElem?_eq_getElem h,
    List.getD_eq_getElem?_getD, List.getElem?_eq_getElem h]
  rfl

theorem getD_oob {α : Type} (l : List α) (k : Nat) (d : α) (h : l.length ≤ k) :
    l.getD k d = d := by
  rw [List.getD_eq_getElem?_getD, List.getElem?_eq_none h]
  rfl

theorem GWFx_cons_used {g : Graph} {S : List Nat} {v : Nat} (hw : GWFx g S)
    (hv : g.used.getD v false = true) : GWFx g (v :: S) := by
  refine ⟨hw.src, hw.npos, hw.ulen, hw.alen, hw.u0, hw.alt, hw.asym, hw.airr,
    hw.anodup, ?_, hw.pspec, hw.ispec, ?_, hw.unodup⟩
  · intro i hi
    constructor
    · intro hu
      rcases (hw.uiff i hi).1 hu with h | h | h
      · exact Or.inl h
      · exact Or.inr (Or.inl h)
      · exact Or.inr (Or.inr (List.mem_cons_of_mem _ h))
    · rintro (h | h | h)
      · exact (hw.uiff i hi).2 (Or.inl h)
      · exact (hw.uiff i hi).2 (Or.inr (Or.inl h))
      · rcases List.mem_cons.1 h with h2 | h2
        · subst h2; exact hv
        · exact (hw.uiff i hi).2 (Or.inr (Or.inr h2))
  · intro w hwu
    exact hw.uspec w hwu

/-- Post-state description of `Graph::get_id`. -/
structure GetIdPost (g g' : Graph) (p i : Nat) : Prop where
  lt : i < g'.id2p.length
  lself : g'.p2id.lookup p = some i
  lother : ∀ q, q ≠ p → g'.p2id.lookup q = g.p2id.lookup q
  adjE : ∀ k, g'.adjacency.getD k [] = g.adjacency.getD k []
  uother : ∀ k, k ≠ i → g'.used.getD k false = g.used.getD k false
  uself : g'.used.getD i false = true
  iother : ∀ k, k ≠ i → k < g.id2p.length → g'.id2p.getD k 0 = g.id2p.getD k 0
  nmono : g.id2p.length ≤ g'.id2p.length
  srcE : g'.source_id = g.source_id
  myE : g'.my_peer_id = g.my_peer_id
  totE : g'.total_active_edges = g.total_active_edges
  usub : ∀ v ∈ g'.unused, v ∈ g.unused
  fresh : g.p2id.lookup p = none → g.adjacency.getD i [] = []
  occ : ∀ j, g.p2id.lookup p = some j → i = j ∧ g' = g

theorem getD_set_self {α : Type} (l : List α) (i : Nat) (x d : α) (h : i < l.length) :
    (l.set i x).getD i d = x := by
  rw [getD_set, if_pos ⟨rfl, h⟩]

theorem getD_set_other {α : Type} (l : List α) (i k : Nat) (x d : α) (h : k ≠ i) :
    (l.set i x).getD k d = l.getD k d := by
  rw [getD_set, if_neg (fun hc => h hc.1)]

theorem getD_append_self {α : Type} (l : List α) (x d : α) :
    (l ++ [x]).getD l.length d = x := by
  rw [getD_append_one, if_pos rfl]

theorem getD_append_other {α : Type} (l : List α) (x d : α) (k : Nat)
    (h : k ≠ l.length) :
    (l ++ [x]).getD k d = l.getD k d := by
  rw [getD_append_one, if_neg h]

theorem uiff_transfer {g g' : Graph} {S : List Nat} {v : Nat}
    (hw : GWFx g S) (i : Nat) (hi : i < g.id2p.length) (hiv : i ≠ v)
    (hu : g'.used.getD i false = g.used.getD i false)
    (ha : g'.adjacency.getD i [] = g.adjacency.getD i []) :
    g'.used.getD i false = true ↔
      (i = 0 ∨ g'.adjacency.getD i [] ≠ [] ∨ i ∈ v :: S) := by
  rw [hu, ha]
  constructor
  · intro h
    rcases (hw.uiff i hi).1 h with h2 | h2 | h2
    · exact Or.inl h2
    · exact Or.inr (Or.inl h2)
    · exact Or.inr (Or.inr (List.mem_cons_of_mem _ h2))
  · rintro (h2 | h2 | h2)
    · exact (hw.uiff i hi).2 (Or.inl h2)
    · exact (hw.uiff i hi).2 (Or.inr (Or.inl h2))
    · rcases List.mem_cons.1 h2 with h3 | h3
      · exact absurd h3 hiv
      · exact (hw.uiff i hi).2 (Or.inr (Or.inr h3))

theorem get_id_spec {g : Graph} {S : List Nat} (hw : GWFx g S) (p : Nat) :
    ∃ i g', g.get_id p = some (i, g') ∧ GWFx g' (i :: S) ∧ GetIdPost g g' p i := by
  cases hlp : g.p2id.lookup p with
  | some v =>
      refine ⟨v, g, by rw [Graph.get_id, hlp], ?_, ?_⟩
      · exact GWFx_cons_used hw (hw.pspec p v hlp).2.1
      · exact ⟨(hw.pspec p v hlp).1, hlp, fun q _ => rfl, fun k => rfl,
          fun k _ => rfl, (hw.pspec p v hlp).2.1, fun k _ _ => rfl, Nat.le_refl _,
          rfl, rfl, rfl, fun w h => h, fun hc => absurd hc (by simp [hlp]),
          fun j hj => ⟨(Option.some_inj.1 (hlp.symm.trans hj)).symm ▸ rfl, rfl⟩⟩
  | none =>
      cases hun : g.unused with
      | cons v rest =>
          obtain ⟨hvlt, hvused, hvadj, hv0⟩ :=
            hw.uspec v (by rw [hun]; exact List.mem_cons_self v rest)
          have hvlt_u : v < g.used.length := by rw [hw.ulen]; exact hvlt
          have hvlt_a : v < g.adjacency.length := by rw [hw.alen]; exact hvlt
          have hget_u : g.used.get? v = some false := by
            rw [get?_of_getD g.used v false hvlt_u, hvused]
          have hget_a : g.adjacency.get? v = some [] := by
            rw [get?_of_getD g.adjacency v [] hvlt_a, hvadj]
          have heval : g.get_id p = some (v, { g with
              unused := rest,
              id2p := g.id2p.set v p,
              used := g.used.set v true,
              p2id := upsert g.p2id p v }) := by
            simp only [Graph.get_id, hlp, hun, hget_u, hget_a]
            simp [hvlt]
          have hvnr : v ∉ rest := by
            have h1 := hw.unodup
            rw [hun] at h1
            exact (List.nodup_cons.1 h1).1
          refine ⟨v, _, heval, ?_, ?_⟩
          · refine ⟨hw.src, ?_, ?_, ?_, ?_, ?_, hw.asym, hw.airr,
              hw.anodup, ?_, ?_, ?_, ?_, ?_⟩
            · show 0 < (g.id2p.set v p).length
              rw [List.length_set]
              exact hw.npos
            · show (g.used.set v true).length = (g.id2p.set v p).length
              rw [List.length_set, List.length_set]
              exact hw.ulen
            · show g.adjacency.length = (g.id2p.set v p).length
              rw [List.length_set]
              exact hw.alen
            · show (g.used.set v true).getD 0 false = true
              rw [getD_set_other _ _ _ _ _ (Ne.symm hv0)]
              exact hw.u0
            · intro i j hj
              show j < (g.id2p.set v p).length
              rw [List.length_set]
              exact hw.alt i j hj
            · intro i hi
              rw [show ({ g with
                  unused := rest,
                  id2p := g.id2p.set v p,
                  used := g.used.set v true,
                  p2id := upsert g.p2id p v } : Graph).id2p.length
                = g.id2p.length from List.length_set g.id2p v p] at hi
              by_cases hiv : i = v
              · subst hiv
                show (g.used.set i true).getD i false = true ↔ _
                rw [getD_set_self _ _ _ _ hvlt_u]
                simp
              · exact uiff_transfer hw i hi hiv
                  (getD_set_other _ _ _ _ _ hiv) rfl
            · intro q i hq
              rw [show ({ g with
                  unused := rest,
                  id2p := g.id2p.set v p,
                  used := g.used.set v true,
                  p2id := upsert g.p2id p v } : Graph).p2id = upsert g.p2id p v from rfl,
                lookup_upsert] at hq
              show i < (g.id2p.set v p).length ∧
                (g.used.set v true).getD i false = true ∧ (g.id2p.set v p).getD i 0 = q
              rw [List.length_set]
              by_cases hqp : q = p
              · rw [if_pos hqp] at hq
                have hiv := Option.some_inj.1 hq
                subst hiv
                subst hqp
                exact ⟨hvlt, by rw [getD_set_self _ _ _ _ hvlt_u],
                  by rw [getD_set_self _ _ _ _ hvlt]⟩
              · rw [if_neg hqp] at hq
                obtain ⟨hilt, hiu, hip⟩ := hw.pspec q i hq
                have hiv : i ≠ v := fun hc => by
                  rw [hc, hvused] at hiu
                  cases hiu
                exact ⟨hilt, by rw [getD_set_other _ _ _ _ _ hiv]; exact hiu,
                  by rw [getD_set_other _ _ _ _ _ hiv]; exact hip⟩
            · intro i hi hu
              rw [show ({ g with
                  unused := rest,
                  id2p := g.id2p.set v p,
                  used := g.used.set v true,
                  p2id := upsert g.p2id p v } : Graph).id2p.length
                = g.id2p.length from List.length_set g.id2p v p] at hi
              show (upsert g.p2id p v).lookup ((g.id2p.set v p).getD i 0) = some i
              by_cases hiv : i = v
              · subst hiv
                rw [getD_set_self _ _ _ _ hvlt, lookup_upsert, if_pos rfl]
              · rw [getD_set_other _ _ _ _ _ hiv]
                have hu' : g.used.getD i false = true := by
                  rw [show ({ g with
                      unused := rest,
                      id2p := g.id2p.set v p,
                      used := g.used.set v true,
                      p2id := upsert g.p2id p v } : Graph).used = g.used.set v true
                    from rfl, getD_set_other _ _ _ _ _ hiv] at hu
                  exact hu
                have hik := hw.ispec i hi hu'
                have hnp : g.id2p.getD i 0 ≠ p := fun hc => by
                  rw [hc, hlp] at hik
                  cases hik
                rw [lookup_upsert, if_neg hnp]
                exact hik
            · intro w hwu
              have hwr : w ∈ g.unused := by
                rw [hun]
                exact List.mem_cons_of_mem v hwu
              obtain ⟨h1, h2, h3, h4⟩ := hw.uspec w hwr
              have hwv : w ≠ v := fun hc => hvnr (hc ▸ hwu)
              refine ⟨?_, ?_, h3, h4⟩
              · show w < (g.id2p.set v p).length
                rw [List.length_set]
                exact h1
              · show (g.used.set v true).getD w false = false
                rw [getD_set_other _ _ _ _ _ hwv]
                exact h2
            · show rest.Nodup
              have h1 := hw.unodup
              rw [hun] at h1
              exact (List.nodup_cons.1 h1).2
          · refine ⟨?_, ?_, ?_, fun k => rfl, ?_, ?_, ?_, ?_, rfl, rfl, rfl,
              ?_, fun _ => hvadj, ?_⟩
            · show v < (g.id2p.set v p).length
              rw [List.length_set]
              exact hvlt
            · show (upsert g.p2id p v).lookup p = some v
              rw [lookup_upsert, if_pos rfl]
            · intro q hq
              show (upsert g.p2id p v).lookup q = g.p2id.lookup q
              rw [lookup_upsert, if_neg hq]
            · intro k hk
              show (g.used.set v true).getD k false = g.used.getD k false
              rw [getD_set_other _ _ _ _ _ hk]
            · show (g.used.set v true).getD v false = true
              rw [getD_set_self _ _ _ _ hvlt_u]
            · intro k hk _
              show (g.id2p.set v p).getD k 0 = g.id2p.getD k 0
              rw [getD_set_other _ _ _ _ _ hk]
            · show g.id2p.length ≤ (g.id2p.set v p).length
              rw [List.length_set]
            · intro w hwu
              rw [hun]
              exact List.mem_cons_of_mem v hwu
            · intro j hj
              rw [hlp] at hj
              cases hj
      | nil =>
          have heval : g.get_id p = some (g.id2p.length, { g with
              id2p := g.id2p ++ [p],
              used := g.used ++ [true],
              adjacency := g.adjacency ++ [[]],
              p2id := upsert g.p2id p g.id2p.length }) := by
            simp only [Graph.get_id, hlp, hun]
          have hadjn : ∀ k, (g.adjacency ++ [[]]).getD k [] = g.adjacency.getD k [] := by
            intro k
            by_cases hk : k = g.adjacency.length
            · subst hk
              rw [getD_append_self, getD_oob _ _ _ (Nat.le_refl _)]
            · rw [getD_append_other _ _ _ _ hk]
          have hulen2 : (g.used ++ [true]).length = g.id2p.length + 1 := by
            rw [List.length_append, hw.ulen]
            rfl
          have hilen2 : (g.id2p ++ [p]).length = g.id2p.length + 1 := by
            rw [List.length_append]
            rfl
          refine ⟨g.id2p.length, _, heval, ?_, ?_⟩
          · refine ⟨hw.src, ?_, ?_, ?_, ?_, ?_, ?_, ?_, ?_, ?_, ?_, ?_, ?_, ?_⟩
            · show 0 < (g.id2p ++ [p]).length
              rw [hilen2]
              omega
            · show (g.used ++ [true]).length = (g.id2p ++ [p]).length
              rw [hulen2, hilen2]
            · show (g.adjacency ++ [[]]).length = (g.id2p ++ [p]).length
              rw [List.length_append, hw.alen, hilen2]
              rfl
            · show (g.used ++ [true]).getD 0 false = true
              rw [getD_append_other _ _ _ _ (by
                rw [hw.ulen]
                have hnp := hw.npos
                omega)]
              exact hw.u0
            · intro i j hj
              rw [show ({ g with
                  id2p := g.id2p ++ [p],
                  used := g.used ++ [true],
                  adjacency := g.adjacency ++ [[]],
                  p2id := upsert g.p2id p g.id2p.length } : Graph).adjacency
                = g.adjacency ++ [[]] from rfl, hadjn] at hj
              show j < (g.id2p ++ [p]).length
              rw [hilen2]
              have := hw.alt i j hj
              omega
            · intro i j hj
              rw [show ({ g with
                  id2p := g.id2p ++ [p],
                  used := g.used ++ [true],
                  adjacency := g.adjacency ++ [[]],
                  p2id := upsert g.p2id p g.id2p.length } : Graph).adjacency
                = g.adjacency ++ [[]] from rfl, hadjn] at hj
              show i ∈ (g.adjacency ++ [[]]).getD j []
              rw [hadjn]
              exact hw.asym i j hj
            · intro i
              show i ∉ (g.adjacency ++ [[]]).getD i []
              rw [hadjn]
              exact hw.airr i
            · intro i
              show ((g.adjacency ++ [[]]).getD i []).Nodup
              rw [hadjn]
              exact hw.anodup i
            · intro i hi
              rw [show ({ g with
                  id2p := g.id2p ++ [p],
                  used := g.used ++ [true],
                  adjacency := g.adjacency ++ [[]],
                  p2id := upsert g.p2id p g.id2p.length } : Graph).id2p
                = g.id2p ++ [p] from rfl, hilen2] at hi
              by_cases hin : i = g.id2p.length
              · subst hin
                show (g.used ++ [true]).getD g.id2p.length false = true ↔ _
                rw [show g.id2p.length = g.used.length from hw.ulen.symm, getD_append_self]
                simp
              · have hi' : i < g.id2p.length := by omega
                refine uiff_transfer hw i hi' hin ?_ (hadjn i)
                show (g.used ++ [true]).getD i false = g.used.getD i false
                rw [getD_append_other _ _ _ _ (by rw [hw.ulen]; exact hin)]
            · intro q i hq
              rw [show ({ g with
                  id2p := g.id2p ++ [p],
                  used := g.used ++ [true],
                  adjacency := g.adjacency ++ [[]],
                  p2id := upsert g.p2id p g.id2p.length } : Graph).p2id
                = upsert g.p2id p g.id2p.length from rfl, lookup_upsert] at hq
              show i < (g.id2p ++ [p]).length ∧
                (g.used ++ [true]).getD i false = true ∧ (g.id2p ++ [p]).getD i 0 = q
              rw [hilen2]
              by_cases hqp : q = p
              · rw [if_pos hqp] at hq
                have hin := Option.some_inj.1 hq
                subst hin
                subst hqp
                refine ⟨by omega, ?_, ?_⟩
                · rw [show g.id2p.length = g.used.length from hw.ulen.symm, getD_append_self]
                · rw [getD_append_self]
              · rw [if_neg hqp] at hq
                obtain ⟨hilt, hiu, hip⟩ := hw.pspec q i hq
                refine ⟨by omega, ?_, ?_⟩
                · rw [getD_append_other _ _ _ _ (by rw [hw.ulen]; omega)]
                  exact hiu
                · rw [getD_append_other _ _ _ _ (by omega)]
                  exact hip
            · intro i hi hu
              rw [show ({ g with
                  id2p := g.id2p ++ [p],
                  used := g.used ++ [true],
                  adjacency := g.adjacency ++ [[]],
                  p2id := upsert g.p2id p g.id2p.length } : Graph).id2p
                = g.id2p ++ [p] from rfl, hilen2] at hi
              show (upsert g.p2id p g.id2p.length).lookup ((g.id2p ++ [p]).getD i 0)
                = some i
              by_cases hin : i = g.id2p.length
              · subst hin
                rw [getD_append_self, lookup_upsert, if_pos rfl]
              · have hi' : i < g.id2p.length := by omega
                rw [getD_append_other _ _ _ _ hin]
                have hu' : g.used.getD i false = true := by
                  rw [show ({ g with
                      id2p := g.id2p ++ [p],
                      used := g.used ++ [true],
                      adjacency := g.adjacency ++ [[]],
                      p2id := upsert g.p2id p g.id2p.length } : Graph).used
                    = g.used ++ [true] from rfl,
                    getD_append_other _ _ _ _ (by rw [hw.ulen]; exact hin)] at hu
                  exact hu
                have hik := hw.ispec i hi' hu'
                have hnp : g.id2p.getD i 0 ≠ p := fun hc => by
                  rw [hc, hlp] at hik
                  cases hik
                rw [lookup_upsert, if_neg hnp]
                exact hik
            · intro w hwu
              rw [show ({ g with
                  id2p := g.id2p ++ [p],
                  used := g.used ++ [true],
                  adjacency := g.adjacency ++ [[]],
                  p2id := upsert g.p2id p g.id2p.length } : Graph).unused
                = g.unused from rfl, hun] at hwu
              cases hwu
            · show g.unused.Nodup
              exact hw.unodup
          · refine ⟨?_, ?_, ?_, hadjn, ?_, ?_, ?_, ?_, rfl, rfl, rfl, ?_, ?_, ?_⟩
            · show g.id2p.length < (g.id2p ++ [p]).length
              rw [hilen2]
              omega
            · show (upsert g.p2id p g.id2p.length).lookup p = some g.id2p.length
              rw [lookup_upsert, if_pos rfl]
            · intro q hq
              show (upsert g.p2id p g.id2p.length).lookup q = g.p2id.lookup q
              rw [lookup_upsert, if_neg hq]
            · intro k hk
              show (g.used ++ [true]).getD k false = g.used.getD k false
              rw [getD_append_other _ _ _ _ (by rw [hw.ulen]; exact hk)]
            · show (g.used ++ [true]).getD g.id2p.length false = true
              rw [show g.id2p.length = g.used.length from hw.ulen.symm, getD_append_self]
            · intro k hk _
              show (g.id2p ++ [p]).getD k 0 = g.id2p.getD k 0
              rw [getD_append_other _ _ _ _ hk]
            · show g.id2p.length ≤ (g.id2p ++ [p]).length
              rw [hilen2]
              omega
            · intro w hwu
              rw [show ({ g with
                  id2p := g.id2p ++ [p],
                  used := g.used ++ [true],
                  adjacency := g.adjacency ++ [[]],
                  p2id := upsert g.p2id p g.id2p.length } : Graph).unused
                = g.unused from rfl, hun] at hwu
              cases hwu
            · intro _
              exact getD_oob _ _ _ (by rw [hw.alen])
            · intro j hj
              rw [hlp] at hj
              cases hj

theorem nodup_append_one {α : Type} {l : List α} {x : α} (hl : l.Nodup)
    (hx : x ∉ l) : (l ++ [x]).Nodup := by
  rw [List.nodup_append]
  exact ⟨hl, List.nodup_singleton x, by simpa using hx⟩

theorem contains_edge_some {g : Graph} {S : List Nat} (hw : GWFx g S) (p q : Nat) :
    ∃ c, g.contains_edge p q = some c ∧
      (c = true ↔ ∃ i j, g.p2id.lookup p = some i ∧ g.p2id.lookup q = some j ∧
        j ∈ g.adjacency.getD i []) := by
  cases hlp : g.p2id.lookup p with
  | none =>
      refine ⟨false, ?_, ?_⟩
      · rw [Graph.contains_edge, hlp]
      · simp [hlp]
  | some i =>
      cases hlq : g.p2id.lookup q with
      | none =>
          refine ⟨false, ?_, ?_⟩
          · rw [Graph.contains_edge, hlp, hlq]
          · simp [hlq]
      | some j =>
          have hia : i < g.adjacency.length := by
            rw [hw.alen]
            exact (hw.pspec p i hlp).1
          refine ⟨decide (j ∈ g.adjacency.getD i []), ?_, ?_⟩
          · simp only [Graph.contains_edge, hlp, hlq, get?_of_getD _ _ [] hia,
              Option.map_some']
          · simp only [decide_eq_true_eq]
            constructor
            · intro h
              exact ⟨i, j, rfl, rfl, h⟩
            · rintro ⟨i2, j2, hi2, hj2, hmem⟩
              cases hi2
              cases hj2
              exact hmem

theorem add_edge_wf {g : Graph} (hw : GWF g) {p q : Nat} (hpq : p ≠ q) :
    ∃ g', g.add_edge p q = some g' ∧ GWF g' := by
  obtain ⟨c, hc, hciff⟩ := contains_edge_some hw p q
  cases c with
  | true =>
      refine ⟨g, ?_, hw⟩
      simp only [Graph.add_edge, if_neg hpq, hc, Option.bind_eq_bind,
        Option.some_bind, if_true]
  | false =>
      obtain ⟨i0, g1, h1eq, hw1, post1⟩ := get_id_spec hw p
      obtain ⟨i1, g2, h2eq, hw2, post2⟩ := get_id_spec hw1 q
      have hlp2 : g2.p2id.lookup p = some i0 := by
        rw [post2.lother p (Ne.symm (fun h => hpq h.symm))]
        exact post1.lself
      have hlq2 : g2.p2id.lookup q = some i1 := post2.lself
      have hne : i0 ≠ i1 := by
        intro hcon
        have h1 := (hw2.pspec p i0 hlp2).2.2
        have h2 := (hw2.pspec q i1 hlq2).2.2
        rw [hcon] at h1
        exact hpq (h1.symm.trans h2)
      have hi0lt : i0 < g2.id2p.length := (hw2.pspec p i0 hlp2).1
      have hi1lt : i1 < g2.id2p.length := (hw2.pspec q i1 hlq2).1
      have hi0a : i0 < g2.adjacency.length := by rw [hw2.alen]; exact hi0lt
      have hi1a : i1 < g2.adjacency.length := by rw [hw2.alen]; exact hi1lt
      have hAg : ∀ k, g2.adjacency.getD k [] = g.adjacency.getD k [] := by
        intro k
        rw [post2.adjE, post1.adjE]
      have hno : i1 ∉ g2.adjacency.getD i0 [] := by
        cases hq0 : g.p2id.lookup q with
        | none =>
            have hq1 : g1.p2id.lookup q = none := by
              rw [post1.lother q (fun h => hpq h.symm)]
              exact hq0
            have hempty2 : g2.adjacency.getD i1 [] = [] := by
              rw [post2.adjE]
              exact post2.fresh hq1
            intro hmem
            have hmem2 := hw2.asym i0 i1 hmem
            rw [hempty2] at hmem2
            cases hmem2
        | some j =>
            have hq1 : g1.p2id.lookup q = some j := by
              rw [post1.lother q (fun h => hpq h.symm)]
              exact hq0
            obtain ⟨hj1, hg2g1⟩ := post2.occ j hq1
            cases hp0 : g.p2id.lookup p with
            | none =>
                have hempty : g.adjacency.getD i0 [] = [] := post1.fresh hp0
                rw [hAg, hempty]
                intro hmem
                cases hmem
            | some i =>
                obtain ⟨hi0i, hg1g⟩ := post1.occ i hp0
                intro hmem
                have hex : ∃ i2 j2, g.p2id.lookup p = some i2 ∧
                    g.p2id.lookup q = some j2 ∧ j2 ∈ g.adjacency.getD i2 [] := by
                  refine ⟨i, j, hp0, hq0, ?_⟩
                  rw [← hi0i, ← hj1, ← hAg]
                  exact hmem
                have hcf := hciff.2 hex
                cases hcf
      have hno2 : i0 ∉ g2.adjacency.getD i1 [] := fun hmem => hno (hw2.asym i1 i0 hmem)
      have hget0 : g2.adjacency.get? i0 = some (g2.adjacency.getD i0 []) :=
        get?_of_getD _ _ [] hi0a
      have hget1 : (g2.adjacency.set i0 (g2.adjacency.getD i0 [] ++ [i1])).get? i1
          = some (g2.adjacency.getD i1 []) := by
        rw [get?_of_getD _ _ [] (by rw [List.length_set]; exact hi1a),
          getD_set_other _ _ _ _ _ (Ne.symm hne)]
      refine ⟨{ g2 with
          adjacency := (g2.adjacency.set i0 (g2.adjacency.getD i0 [] ++ [i1])).set i1
            (g2.adjacency.getD i1 [] ++ [i0]),
          total_active_edges := g2.total_active_edges + 1 }, ?_, ?_⟩
      · simp only [Graph.add_edge, if_neg hpq, hc, Option.bind_eq_bind,
          Option.some_bind, Bool.false_eq_true, if_false, h1eq, h2eq, hget0, hget1]
      · set AF := ((g2.adjacency.set i0 (g2.adjacency.getD i0 [] ++ [i1])).set i1
          (g2.adjacency.getD i1 [] ++ [i0])) with hAF
        have hAFlen : AF.length = g2.adjacency.length := by
          rw [hAF, List.length_set, List.length_set]
        have hAF1 : AF.getD i1 [] = g2.adjacency.getD i1 [] ++ [i0] := by
          rw [hAF, getD_set_self _ _ _ _ (by rw [List.length_set]; exact hi1a)]
        have hAF0 : AF.getD i0 [] = g2.adjacency.getD i0 [] ++ [i1] := by
          rw [hAF, getD_set_other _ _ _ _ _ hne, getD_set_self _ _ _ _ hi0a]
        have hAFo : ∀ k, k ≠ i0 → k ≠ i1 → AF.getD k [] = g2.adjacency.getD k [] := by
          intro k hk0 hk1
          rw [hAF, getD_set_other _ _ _ _ _ hk1, getD_set_other _ _ _ _ _ hk0]
        have hu2self0 : g2.used.getD i0 false = true := (hw2.pspec p i0 hlp2).2.1
        have hu2self1 : g2.used.getD i1 false = true := (hw2.pspec q i1 hlq2).2.1
        refine ⟨hw2.src, hw2.npos, hw2.ulen, ?_, hw2.u0, ?_, ?_, ?_, ?_, ?_,
          ?_, ?_, ?_, hw2.unodup⟩
        · show AF.length = g2.id2p.length
          rw [hAFlen, hw2.alen]
        · intro k j hj
          show j < g2.id2p.length
          by_cases hk1 : k = i1
          · rw [hk1, hAF1] at hj
            rcases List.mem_append.1 hj with h | h
            · exact hw2.alt _ _ h
            · simp at h
              rw [h]
              exact hi0lt
          · by_cases hk0 : k = i0
            · rw [hk0, hAF0] at hj
              rcases List.mem_append.1 hj with h | h
              · exact hw2.alt _ _ h
              · simp at h
                rw [h]
                exact hi1lt
            · rw [hAFo k hk0 hk1] at hj
              exact hw2.alt _ _ hj
        · intro k j hj
          show k ∈ AF.getD j []
          have hstep : ∀ a b, b ∈ g2.adjacency.getD a [] → b ∈ AF.getD a [] := by
            intro a b hb
            by_cases ha1 : a = i1
            · rw [ha1, hAF1]
              rw [ha1] at hb
              exact List.mem_append.2 (Or.inl hb)
            · by_cases ha0 : a = i0
              · rw [ha0, hAF0]
                rw [ha0] at hb
                exact List.mem_append.2 (Or.inl hb)
              · rw [hAFo a ha0 ha1]
                exact hb
          by_cases hk1 : k = i1
          · rw [hk1, hAF1] at hj
            rcases List.mem_append.1 hj with h | h
            · rw [hk1]
              exact hstep j i1 (hw2.asym i1 j h)
            · simp at h
              rw [hk1, h, hAF0]
              exact List.mem_append.2 (Or.inr (by simp))
          · by_cases hk0 : k = i0
            · rw [hk0, hAF0] at hj
              rcases List.mem_append.1 hj with h | h
              · rw [hk0]
                exact hstep j i0 (hw2.asym i0 j h)
              · simp at h
                rw [hk0, h, hAF1]
                exact List.mem_append.2 (Or.inr (by simp))
            · rw [hAFo k hk0 hk1] at hj
              exact hstep j k (hw2.asym k j hj)
        · intro k
          by_cases hk1 : k = i1
          · rw [hk1, hAF1]
            intro hmem
            rcases List.mem_append.1 hmem with h | h
            · exact hw2.airr _ h
            · simp at h
              exact hne h.symm
          · by_cases hk0 : k = i0
            · rw [hk0, hAF0]
              intro hmem
              rcases List.mem_append.1 hmem with h | h
              · exact hw2.airr _ h
              · simp at h
                exact hne h
            · rw [hAFo k hk0 hk1]
              exact hw2.airr k
        · intro k
          by_cases hk1 : k = i1
          · rw [hk1, hAF1]
            exact nodup_append_one (hw2.anodup _) hno2
          · by_cases hk0 : k = i0
            · rw [hk0, hAF0]
              exact nodup_append_one (hw2.anodup _) hno
            · rw [hAFo k hk0 hk1]
              exact hw2.anodup k
        · intro k hk
          show g2.used.getD k false = true ↔ (k = 0 ∨ AF.getD k [] ≠ [] ∨ k ∈ [])
          by_cases hk1 : k = i1
          · rw [hk1, hAF1]
            simp only [List.mem_nil_iff, or_false]
            constructor
            · intro _
              exact Or.inr (by simp)
            · intro _
              exact hu2self1
          · by_cases hk0 : k = i0
            · rw [hk0, hAF0]
              simp only [List.mem_nil_iff, or_false]
              constructor
              · intro _
                exact Or.inr (by simp)
              · intro _
                exact hu2self0
            · rw [hAFo k hk0 hk1]
              constructor
              · intro hu
                rcases (hw2.uiff k hk).1 hu with h | h | h
                · exact Or.inl h
                · exact Or.inr (Or.inl h)
                · rcases List.mem_cons.1 h with h2 | h2
                  · exact absurd h2 hk1
                  · rcases List.mem_cons.1 h2 with h3 | h3
                    · exact absurd h3 hk0
                    · cases h3
              · rintro (h | h | h)
                · exact (hw2.uiff k hk).2 (Or.inl h)
                · exact (hw2.uiff k hk).2 (Or.inr (Or.inl h))
                · cases h
        · intro r i hr
          exact hw2.pspec r i hr
        · intro i hi hu
          exact hw2.ispec i hi hu
        · intro v hv
          obtain ⟨h1, h2, h3, h4⟩ := hw2.uspec v hv
          have hv0 : v ≠ i0 := fun hcon => by
            rw [hcon, hu2self0] at h2
            cases h2
          have hv1 : v ≠ i1 := fun hcon => by
            rw [hcon, hu2self1] at h2
            cases h2
          exact ⟨h1, h2, by rw [hAFo v hv0 hv1]; exact h3, h4⟩

theorem GWFx_total {g : Graph} {S : List Nat} (hw : GWFx g S) (t : Nat) :
    GWFx { g with total_active_edges := t } S :=
  ⟨hw.src, hw.npos, hw.ulen, hw.alen, hw.u0, hw.alt, hw.asym, hw.airr, hw.anodup,
    hw.uiff, hw.pspec, hw.ispec, hw.uspec, hw.unodup⟩

theorem remove_if_unused_spec {g : Graph} {S : List Nat} {i : Nat}
    (hw : GWFx g (i :: S)) (hin : i < g.id2p.length) (hiS : i ∉ S) :
    ∃ g', g.remove_if_unused i = some g' ∧ GWFx g' S ∧
      g'.id2p.length = g.id2p.length ∧
      g'.adjacency = g.adjacency ∧
      g'.source_id = g.source_id ∧ g'.my_peer_id = g.my_peer_id ∧
      g'.total_active_edges = g.total_active_edges := by
  have hia : i < g.adjacency.length := by rw [hw.alen]; exact hin
  have hiu : i < g.used.length := by rw [hw.ulen]; exact hin
  have hget_a : g.adjacency.get? i = some (g.adjacency.getD i []) :=
    get?_of_getD _ _ [] hia
  have hused_i : g.used.getD i false = true :=
    (hw.uiff i hin).2 (Or.inr (Or.inr (List.mem_cons_self i S)))
  by_cases hcond : (g.adjacency.getD i []).isEmpty = true ∧ i ≠ g.source_id
  · have hadj_empty : g.adjacency.getD i [] = [] := by
      cases h : g.adjacency.getD i [] with
      | nil => rfl
      | cons a t =>
          rw [h] at hcond
          cases hcond.1
    have hi0 : i ≠ 0 := by
      have := hcond.2
      rw [hw.src] at this
      exact this
    have hget_u : g.used.get? i = some (g.used.getD i false) :=
      get?_of_getD _ _ false hiu
    have hget_i : g.id2p.get? i = some (g.id2p.getD i 0) :=
      get?_of_getD _ _ 0 hin
    have heval : g.remove_if_unused i = some { g with
        used := g.used.set i false,
        unused := i :: g.unused,
        p2id := erase g.p2id (g.id2p.getD i 0) } := by
      simp only [Graph.remove_if_unused, hget_a, if_pos hcond, hget_u, hget_i]
    refine ⟨_, heval, ?_, rfl, rfl, rfl, rfl, rfl⟩
    · have hother : ∀ k, k ≠ i → (g.used.set i false).getD k false = g.used.getD k false :=
        fun k hk => getD_set_other _ _ _ _ _ hk
      have hself : (g.used.set i false).getD i false = false :=
        getD_set_self _ _ _ _ hiu
      refine ⟨hw.src, hw.npos, ?_, hw.alen, ?_, hw.alt, hw.asym, hw.airr,
        hw.anodup, ?_, ?_, ?_, ?_, ?_⟩
      · show (g.used.set i false).length = g.id2p.length
        rw [List.length_set]
        exact hw.ulen
      · show (g.used.set i false).getD 0 false = true
        rw [hother 0 (Ne.symm hi0)]
        exact hw.u0
      · intro k hk
        show (g.used.set i false).getD k false = true ↔
          (k = 0 ∨ g.adjacency.getD k [] ≠ [] ∨ k ∈ S)
        by_cases hki : k = i
        · rw [hki, hself]
          constructor
          · intro h
            cases h
          · rintro (h | h | h)
            · exact absurd h hi0
            · exact absurd hadj_empty h
            · exact absurd h hiS
        · rw [hother k hki]
          constructor
          · intro hu
            rcases (hw.uiff k hk).1 hu with h | h | h
            · exact Or.inl h
            · exact Or.inr (Or.inl h)
            · rcases List.mem_cons.1 h with h2 | h2
              · exact absurd h2 hki
              · exact Or.inr (Or.inr h2)
          · rintro (h | h | h)
            · exact (hw.uiff k hk).2 (Or.inl h)
            · exact (hw.uiff k hk).2 (Or.inr (Or.inl h))
            · exact (hw.uiff k hk).2 (Or.inr (Or.inr (List.mem_cons_of_mem _ h)))
      · intro q j hq
        show j < g.id2p.length ∧ (g.used.set i false).getD j false = true ∧
          g.id2p.getD j 0 = q
        rw [lookup_erase] at hq
        by_cases hqe : q = g.id2p.getD i 0
        · rw [if_pos hqe] at hq
          cases hq
        · rw [if_neg hqe] at hq
          obtain ⟨h1, h2, h3⟩ := hw.pspec q j hq
          have hji : j ≠ i := by
            intro hc
            rw [hc] at h3
            exact hqe h3.symm
          exact ⟨h1, by rw [hother j hji]; exact h2, h3⟩
      · intro k hk hu
        show (erase g.p2id (g.id2p.getD i 0)).lookup (g.id2p.getD k 0) = some k
        have hki : k ≠ i := by
          intro hc
          rw [hc, hself] at hu
          cases hu
        rw [hother k hki] at hu
        have hik := hw.ispec k hk hu
        have hne2 : g.id2p.getD k 0 ≠ g.id2p.getD i 0 := by
          intro hc
          have hii := hw.ispec i hin hused_i
          rw [hc, hii] at hik
          exact hki (Option.some_inj.1 hik.symm)
        rw [lookup_erase, if_neg hne2]
        exact hik
      · intro v hv
        rcases List.mem_cons.1 hv with h | h
        · rw [h]
          exact ⟨hin, hself, hadj_empty, hi0⟩
        · obtain ⟨h1, h2, h3, h4⟩ := hw.uspec v h
          have hvi : v ≠ i := by
            intro hc
            rw [hc, hused_i] at h2
            cases h2
          exact ⟨h1, by rw [hother v hvi]; exact h2, h3, h4⟩
      · show (i :: g.unused).Nodup
        rw [List.nodup_cons]
        refine ⟨?_, hw.unodup⟩
        intro hmem
        have := (hw.uspec i hmem).2.1
        rw [hused_i] at this
        cases this
  · have heval : g.remove_if_unused i = some g := by
      simp only [Graph.remove_if_unused, hget_a, if_neg hcond]
    refine ⟨g, heval, ?_, rfl, rfl, rfl, rfl, rfl⟩
    have hcond' : ¬ (g.adjacency.getD i [] = [] ∧ i ≠ 0) := by
      intro hcc
      exact hcond ⟨by rw [hcc.1]; rfl, by rw [hw.src]; exact hcc.2⟩
    refine ⟨hw.src, hw.npos, hw.ulen, hw.alen, hw.u0, hw.alt, hw.asym, hw.airr,
      hw.anodup, ?_, hw.pspec, hw.ispec, ?_, hw.unodup⟩
    · intro k hk
      constructor
      · intro hu
        rcases (hw.uiff k hk).1 hu with h | h | h
        · exact Or.inl h
        · exact Or.inr (Or.inl h)
        · rcases List.mem_cons.1 h with h2 | h2
          · by_cases hke : g.adjacency.getD k [] = []
            · left
              by_contra hk0
              exact hcond' ⟨by rw [← h2]; exact hke, by rw [← h2]; intro hc; exact hk0 (h2 ▸ hc)⟩
            · exact Or.inr (Or.inl hke)
          · exact Or.inr (Or.inr h2)
      · rintro (h | h | h)
        · exact (hw.uiff k hk).2 (Or.inl h)
        · exact (hw.uiff k hk).2 (Or.inr (Or.inl h))
        · exact (hw.uiff k hk).2 (Or.inr (Or.inr (List.mem_cons_of_mem _ h)))
    · exact hw.uspec

theorem remove_edge_wf {g : Graph} (hw : GWF g) {p q : Nat} (hpq : p ≠ q) :
    ∃ g', g.remove_edge p q = some g' ∧ GWF g' := by
  obtain ⟨c, hc, hciff⟩ := contains_edge_some hw p q
  cases c with
  | false =>
      refine ⟨g, ?_, hw⟩
      simp only [Graph.remove_edge, if_neg hpq, hc, Option.bind_eq_bind,
        Option.some_bind, Bool.false_eq_true, not_false_iff, if_true]
  | true =>
      obtain ⟨i, j, hpl, hql, hmem⟩ := hciff.1 rfl
      have h1eq : g.get_id p = some (i, g) := by
        simp only [Graph.get_id, hpl]
      have h2eq : g.get_id q = some (j, g) := by
        simp only [Graph.get_id, hql]
      have hilt : i < g.id2p.length := (hw.pspec p i hpl).1
      have hjlt : j < g.id2p.length := (hw.pspec q j hql).1
      have hia : i < g.adjacency.length := by rw [hw.alen]; exact hilt
      have hja : j < g.adjacency.length := by rw [hw.alen]; exact hjlt
      have hij : i ≠ j := by
        intro hcon
        have h1 := (hw.pspec p i hpl).2.2
        have h2 := (hw.pspec q j hql).2.2
        rw [hcon] at h1
        exact hpq (h1.symm.trans h2)
      have hui : g.used.getD i false = true := (hw.pspec p i hpl).2.1
      have huj : g.used.getD j false = true := (hw.pspec q j hql).2.1
      have hmem2 : i ∈ g.adjacency.getD j [] := hw.asym i j hmem
      have hget0 : g.adjacency.get? i = some (g.adjacency.getD i []) :=
        get?_of_getD _ _ [] hia
      have hget1 : (g.adjacency.set i ((g.adjacency.getD i []).filter (· ≠ j))).get? j
          = some (g.adjacency.getD j []) := by
        rw [get?_of_getD _ _ [] (by rw [List.length_set]; exact hja),
          getD_set_other _ _ _ _ _ (Ne.symm hij)]
      set AF := ((g.adjacency.set i ((g.adjacency.getD i []).filter (· ≠ j))).set j
        ((g.adjacency.getD j []).filter (· ≠ i))) with hAF
      have hAFlen : AF.length = g.adjacency.length := by
        rw [hAF, List.length_set, List.length_set]
      have hAFj : AF.getD j [] = (g.adjacency.getD j []).filter (· ≠ i) := by
        rw [hAF, getD_set_self _ _ _ _ (by rw [List.length_set]; exact hja)]
      have hAFi : AF.getD i [] = (g.adjacency.getD i []).filter (· ≠ j) := by
        rw [hAF, getD_set_other _ _ _ _ _ hij, getD_set_self _ _ _ _ hia]
      have hAFo : ∀ k, k ≠ i → k ≠ j → AF.getD k [] = g.adjacency.getD k [] := by
        intro k hk0 hk1
        rw [hAF, getD_set_other _ _ _ _ _ hk1, getD_set_other _ _ _ _ _ hk0]
      have hmf : ∀ (l : List Nat) (a b : Nat), a ∈ l.filter (· ≠ b) ↔
          (a ∈ l ∧ a ≠ b) := by
        intro l a b
        rw [List.mem_filter]
        simp
      have hw4 : GWFx { g with adjacency := AF } [i, j] := by
        refine ⟨hw.src, hw.npos, hw.ulen, ?_, hw.u0, ?_, ?_, ?_, ?_, ?_,
          hw.pspec, hw.ispec, ?_, hw.unodup⟩
        · show AF.length = g.id2p.length
          rw [hAFlen, hw.alen]
        · intro k b hb
          show b < g.id2p.length
          by_cases hkj : k = j
          · rw [hkj, hAFj, hmf] at hb
            exact hw.alt _ _ hb.1
          · by_cases hki : k = i
            · rw [hki, hAFi, hmf] at hb
              exact hw.alt _ _ hb.1
            · rw [hAFo k hki hkj] at hb
              exact hw.alt _ _ hb
        · intro k b hb
          show k ∈ AF.getD b []
          by_cases hkj : k = j
          · rw [hkj, hAFj, hmf] at hb
            have hs := hw.asym j b hb.1
            by_cases hbi : b = i
            · exact absurd hbi hb.2
            · by_cases hbj : b = j
              · exact absurd hb.1 (hbj ▸ hw.airr j)
              · rw [hkj, hAFo b hbi hbj]
                exact hs
          · by_cases hki : k = i
            · rw [hki, hAFi, hmf] at hb
              have hs := hw.asym i b hb.1
              by_cases hbj : b = j
              · exact absurd hbj hb.2
              · by_cases hbi : b = i
                · exact absurd hb.1 (hbi ▸ hw.airr i)
                · rw [hki, hAFo b hbi hbj]
                  exact hs
            · rw [hAFo k hki hkj] at hb
              have hs := hw.asym k b hb
              by_cases hbj : b = j
              · rw [hbj, hAFj, hmf]
                exact ⟨hbj ▸ hs, hki⟩
              · by_cases hbi : b = i
                · rw [hbi, hAFi, hmf]
                  exact ⟨hbi ▸ hs, hkj⟩
                · rw [hAFo b hbi hbj]
                  exact hs
        · intro k
          by_cases hkj : k = j
          · rw [hkj, hAFj, hmf]
            intro hcon
            exact hw.airr j hcon.1
          · by_cases hki : k = i
            · rw [hki, hAFi, hmf]
              intro hcon
              exact hw.airr i hcon.1
            · rw [hAFo k hki hkj]
              exact hw.airr k
        · intro k
          by_cases hkj : k = j
          · rw [hkj, hAFj]
            exact (hw.anodup j).filter _
          · by_cases hki : k = i
            · rw [hki, hAFi]
              exact (hw.anodup i).filter _
            · rw [hAFo k hki hkj]
              exact hw.anodup k
        · intro k hk
          show g.used.getD k false = true ↔ (k = 0 ∨ AF.getD k [] ≠ [] ∨ k ∈ [i, j])
          by_cases hki : k = i
          · rw [hki]
            constructor
            · intro _
              exact Or.inr (Or.inr (by simp))
            · intro _
              exact hui
          · by_cases hkj : k = j
            · rw [hkj]
              constructor
              · intro _
                exact Or.inr (Or.inr (by simp))
              · intro _
                exact huj
            · rw [hAFo k hki hkj]
              constructor
              · intro hu
                rcases (hw.uiff k hk).1 hu with h | h | h
                · exact Or.inl h
                · exact Or.inr (Or.inl h)
                · cases h
              · rintro (h | h | h)
                · exact (hw.uiff k hk).2 (Or.inl h)
                · exact (hw.uiff k hk).2 (Or.inr (Or.inl h))
                · rcases List.mem_cons.1 h with h2 | h2
                  · exact absurd h2 hki
                  · rcases List.mem_cons.1 h2 with h3 | h3
                    · exact absurd h3 hkj
                    · cases h3
        · intro v hv
          obtain ⟨h1, h2, h3, h4⟩ := hw.uspec v hv
          have hvi : v ≠ i := fun hcon => by
            rw [hcon, hui] at h2
            cases h2
          have hvj : v ≠ j := fun hcon => by
            rw [hcon, huj] at h2
            cases h2
          exact ⟨h1, h2, by rw [hAFo v hvi hvj]; exact h3, h4⟩
      obtain ⟨g5, hr1, hw5, hlen5, hadj5, hsrc5, hmy5, htot5⟩ :=
        remove_if_unused_spec (S := [j]) (i := i) hw4 (by
          show i < g.id2p.length
          exact hilt) (by simp [hij])
      obtain ⟨g6, hr2, hw6, hlen6, hadj6, hsrc6, hmy6, htot6⟩ :=
        remove_if_unused_spec (S := []) (i := j) hw5 (by
          rw [hlen5]
          show j < g.id2p.length
          exact hjlt) (by simp)
      refine ⟨{ g6 with total_active_edges := g6.total_active_edges - 1 }, ?_,
        GWFx_total hw6 _⟩
      simp only [Graph.remove_edge, if_neg hpq, hc, Option.bind_eq_bind,
        Option.some_bind, not_true, Bool.true_eq_false, if_false, h1eq, h2eq,
        hget0, hget1, hr1, hr2]

theorem reachable_wf {g : Graph} (h : Reachable g) : GWF g := by
  induction h with
  | new source => exact GWF_new source
  | add hr heq ih =>
      rename_i g1 g2 p q
      by_cases hpq : p = q
      · rw [Graph.add_edge, if_pos hpq] at heq
        cases heq
      · obtain ⟨g'', heq2, hw2⟩ := add_edge_wf ih hpq
        rw [heq] at heq2
        exact (Option.some_inj.1 heq2) ▸ hw2
  | rem hr heq ih =>
      rename_i g1 g2 p q
      by_cases hpq : p = q
      · rw [Graph.remove_edge, if_pos hpq] at heq
        cases heq
      · obtain ⟨g'', heq2, hw2⟩ := remove_edge_wf ih hpq
        rw [heq] at heq2
        exact (Option.some_inj.1 heq2) ▸ hw2

/-- Claim C10: `Graph::add_edge` and `Graph::remove_edge` require
`peer0 ≠ peer1`.  With two equal peers either call hits the
`assert_ne!` (modelled as `none`); with distinct peers, on every graph
state reachable by `add_edge`/`remove_edge` calls, no assertion and no
indexed access in either operation fails. -/
theorem graph_edge_ops_assert :
    (∀ (g : Graph) (p : Nat),
      Graph.add_edge g p p = none ∧ Graph.remove_edge g p p = none) ∧
    (∀ (g : Graph) (p q : Nat), Reachable g → p ≠ q →
      (Graph.add_edge g p q).isSome = true ∧
      (Graph.remove_edge g p q).isSome = true) := by
  constructor
  · intro g p
    constructor
    · rw [Graph.add_edge, if_pos rfl]
    · rw [Graph.remove_edge, if_pos rfl]
  · intro g p q hr hpq
    have hw := reachable_wf hr
    obtain ⟨g1, h1, -⟩ := add_edge_wf hw hpq
    obtain ⟨g2, h2, -⟩ := remove_edge_wf hw hpq
    rw [h1, h2]
    exact ⟨rfl, rfl⟩

/-- Witness for C10 at the freshly created graph with source 0. -/
theorem graph_edge_ops_assert_witness :
    (Graph.add_edge (Graph.new 0) 1 1 = none ∧
      Graph.remove_edge (Graph.new 0) 1 1 = none) ∧
    ((Graph.add_edge (Graph.new 0) 0 1).isSome = true ∧
      (Graph.remove_edge (Graph.new 0) 0 1).isSome = true) :=
  ⟨graph_edge_ops_assert.1 (Graph.new 0) 1,
    graph_edge_ops_assert.2 (Graph.new 0) 0 1 (Reachable.new 0) (by decide)⟩

/-! ## Bit-parallel multi-source BFS (`Graph::calculate_distance`)

The queue is a `List` with `push_back` as append and `pop_front` as head.
The main loop takes a fuel argument: the fuel chosen by
`calculate_distance` strictly dominates the loop's termination measure on
every input the function can produce, so the fuel-exhaustion branch is
never taken there.  Out-of-range indexed writes (impossible on well-formed
states) are modelled by `List.set`, which leaves the list unchanged. -/

/-- Constant `MAX_NUM_PEERS` of `routing.rs`. -/
def MAX_NUM_PEERS : Nat := 128

/-- Seeding loop of `calculate_distance`: for each enumerated source
neighbor `(id, neighbor)`, push the neighbor, set its distance to 1 and its
route bitmap to `1 << id`. -/
def seedFold : List (Nat × Nat) → List Int → List Nat → List Nat →
    (List Int × List Nat × List Nat)
  | [], dist, routes, queue => (dist, routes, queue)
  | (idx, nbr) :: rest, dist, routes, queue =>
      seedFold rest (dist.set nbr 1) (routes.set nbr (1 <<< idx)) (queue ++ [nbr])

/-- Inner loop of the BFS over the neighbors of the dequeued node `cur`
with distance `cur_d`: discover unvisited neighbors and merge route
bitmaps along shortest-path edges. -/
def relax (cur : Nat) (cur_d : Int) : List Nat → List Int → List Nat → List Nat →
    (List Int × List Nat × List Nat)
  | [], dist, routes, queue => (dist, routes, queue)
  | w :: rest, dist, routes, queue =>
      if dist.getD w (-1) = -1 then
        if (dist.set w (cur_d + 1)).getD w (-1) = cur_d + 1 then
          relax cur cur_d rest (dist.set w (cur_d + 1))
            (routes.set w (routes.getD w 0 ||| routes.getD cur 0)) (queue ++ [w])
        else
          relax cur cur_d rest (dist.set w (cur_d + 1)) routes (queue ++ [w])
      else
        if dist.getD w (-1) = cur_d + 1 then
          relax cur cur_d rest dist
            (routes.set w (routes.getD w 0 ||| routes.getD cur 0)) queue
        else
          relax cur cur_d rest dist routes queue

/-- Main BFS loop of `calculate_distance`. -/
def bfsLoop (adj : List (List Nat)) : Nat → List Nat → List Int → List Nat →
    (List Int × List Nat)
  | 0, _, dist, routes => (dist, routes)
  | fuel + 1, queue, dist, routes =>
      match queue with
      | [] => (dist, routes)
      | u :: rest =>
          let cur_d := dist.getD u (-1)
          let step := relax u cur_d (adj.getD u []) dist routes rest
          bfsLoop adj fuel step.2.2 step.1 step.2.1

/-- Next-hop list assembled by `compute_result` for one destination from
its route bitmap: the source neighbors (first `MAX_NUM_PEERS` only) whose
bit is set, in enumeration order. -/
def peerSet (g : Graph) (route : Nat) : List Nat :=
  ((g.adjacency.getD g.source_id []).enum.take MAX_NUM_PEERS).filterMap
    (fun pr => if route.testBit pr.1 then some (g.id2p.getD pr.2 0) else none)

/-- Model of `Graph::compute_result` (the `unreachable_nodes` counter only
feeds a log line and is dropped). -/
def compute_result (g : Graph) (routes : List Nat) (dist : List Int) :
    List (Nat × List Nat) :=
  routes.enum.filterMap (fun kv =>
    if kv.1 = g.source_id ∨ dist.getD kv.1 (-1) = -1 ∨ kv.2 = 0 ∨
        g.used.getD kv.1 false = false then none
    else some (g.id2p.getD kv.1 0, peerSet g kv.2))

/-- Model of `Graph::calculate_distance`. -/
def calculate_distance (g : Graph) : List (Nat × List Nat) :=
  let n := g.id2p.length
  let dist0 := (List.replicate n (-1 : Int)).set g.source_id 0
  let routes0 := List.replicate n (0 : Nat)
  let nbrs := g.adjacency.getD g.source_id []
  let seeded := seedFold (nbrs.enum.take MAX_NUM_PEERS) dist0 routes0 []
  let final := bfsLoop g.adjacency (3 * n + 1) seeded.2.2 seeded.1 seeded.2.1
  compute_result g final.2 final.1

/-- Walks of a given length in the adjacency structure. -/
def pathLen (adj : List (List Nat)) : Nat → Nat → Nat → Prop
  | u, v, 0 => u = v
  | u, v, k + 1 => ∃ w ∈ adj.getD u [], pathLen adj w v k

theorem pathLen_snoc {adj : List (List Nat)} {u v w : Nat} {k : Nat}
    (hp : pathLen adj u v k) (hw : w ∈ adj.getD v []) :
    pathLen adj u w (k + 1) := by
  induction k generalizing u with
  | zero =>
      cases hp
      exact ⟨w, hw, rfl⟩
  | succ k ih =>
      obtain ⟨z, hz, hp2⟩ := hp
      exact ⟨z, hz, ih hp2⟩

theorem countP_set_decrease (l : List Int) (x : Nat) (v : Int)
    (hx : x < l.length) (hold : l.getD x (-1) = -1) (hv : v ≠ -1) :
    (l.set x v).countP (fun d => decide (d = -1)) + 1
      = l.countP (fun d => decide (d = -1)) := by
  induction l generalizing x with
  | nil => cases hx
  | cons a t ih =>
      cases x with
      | zero =>
          rw [List.getD_cons_zero] at hold
          rw [List.set_cons_zero, List.countP_cons, List.countP_cons, hold]
          simp [hv]
      | succ x =>
          rw [List.getD_cons_succ] at hold
          rw [List.set_cons_succ, List.countP_cons, List.countP_cons,
            ← ih x (by simpa using hx) hold]
          omega

theorem seedFold_spec (pairs : List (Nat × Nat)) :
    ∀ (dist : List Int) (routes : List Nat) (queue : List Nat),
    (pairs.map Prod.snd).Nodup →
    (∀ pr ∈ pairs, pr.2 < dist.length ∧ pr.2 < routes.length) →
    ∃ dist' routes',
      seedFold pairs dist routes queue = (dist', routes', queue ++ pairs.map Prod.snd) ∧
      dist'.length = dist.length ∧ routes'.length = routes.length ∧
      (∀ x, x ∉ pairs.map Prod.snd →
        dist'.getD x (-1) = dist.getD x (-1) ∧ routes'.getD x 0 = routes.getD x 0) ∧
      (∀ pr ∈ pairs, dist'.getD pr.2 (-1) = 1 ∧ routes'.getD pr.2 0 = 1 <<< pr.1) := by
  induction pairs with
  | nil =>
      intro dist routes queue _ _
      exact ⟨dist, routes, by rw [seedFold]; simp, rfl, rfl,
        fun x _ => ⟨rfl, rfl⟩, by simp⟩
  | cons hd rest ih =>
      intro dist routes queue hnd hb
      obtain ⟨idx, nbr⟩ := hd
      have hnbr_nr : nbr ∉ rest.map Prod.snd := by
        have := hnd
        rw [List.map_cons, List.nodup_cons] at this
        exact this.1
      have hnd' : (rest.map Prod.snd).Nodup := by
        have := hnd
        rw [List.map_cons, List.nodup_cons] at this
        exact this.2
      have hb' : ∀ pr ∈ rest, pr.2 < (dist.set nbr 1).length ∧
          pr.2 < (routes.set nbr (1 <<< idx)).length := by
        intro pr hpr
        rw [List.length_set, List.length_set]
        exact hb pr (List.mem_cons_of_mem _ hpr)
      obtain ⟨dist', routes', heq, hdl, hrl, hout, hin⟩ :=
        ih (dist.set nbr 1) (routes.set nbr (1 <<< idx)) (queue ++ [nbr]) hnd' hb'
      have hblt := hb (idx, nbr) (List.mem_cons_self _ _)
      refine ⟨dist', routes', ?_, ?_, ?_, ?_, ?_⟩
      · rw [seedFold, heq, List.map_cons]
        simp
      · rw [hdl, List.length_set]
      · rw [hrl, List.length_set]
      · intro x hx
        rw [List.map_cons, List.mem_cons] at hx
        push_neg at hx
        obtain ⟨h1, h2⟩ := hout x hx.2
        rw [h1, h2, getD_set_other _ _ _ _ _ hx.1, getD_set_other _ _ _ _ _ hx.1]
        exact ⟨rfl, rfl⟩
      · intro pr hpr
        rcases List.mem_cons.1 hpr with h | h
        · rw [h]
          obtain ⟨h1, h2⟩ := hout nbr hnbr_nr
          rw [show ((idx, nbr) : Nat × Nat).2 = nbr from rfl,
            show ((idx, nbr) : Nat × Nat).1 = idx from rfl, h1, h2,
            getD_set_self _ _ _ _ hblt.1, getD_set_self _ _ _ _ hblt.2]
          exact ⟨rfl, rfl⟩
        · exact hin pr h

theorem relax_spec (cur : Nat) (D : Int) (hD : 0 ≤ D) (nbrs : List Nat) :
    ∀ (dist : List Int) (routes : List Nat) (queue : List Nat),
    cur ∉ nbrs → nbrs.Nodup →
    (∀ w ∈ nbrs, w < dist.length) → (∀ w ∈ nbrs, w < routes.length) →
    ∃ dist' routes',
      relax cur D nbrs dist routes queue =
        (dist', routes', queue ++ nbrs.filter (fun w => dist.getD w (-1) = -1)) ∧
      dist'.length = dist.length ∧ routes'.length = routes.length ∧
      (∀ x, x ∉ nbrs → dist'.getD x (-1) = dist.getD x (-1)) ∧
      (∀ x ∈ nbrs, dist'.getD x (-1) =
        if dist.getD x (-1) = -1 then D + 1 else dist.getD x (-1)) ∧
      (∀ x, x ∉ nbrs → routes'.getD x 0 = routes.getD x 0) ∧
      (∀ x ∈ nbrs, routes'.getD x 0 =
        if (if dist.getD x (-1) = -1 then D + 1 else dist.getD x (-1)) = D + 1
        then routes.getD x 0 ||| routes.getD cur 0 else routes.getD x 0) ∧
      dist'.countP (fun d => decide (d = -1)) +
        (nbrs.filter (fun w => dist.getD w (-1) = -1)).length
        = dist.countP (fun d => decide (d = -1)) := by
  induction nbrs with
  | nil =>
      intro dist routes queue _ _ _ _
      exact ⟨dist, routes, by rw [relax]; simp, rfl, rfl, fun x _ => rfl,
        by simp, fun x _ => rfl, by simp, by simp⟩
  | cons w rest ih =>
      intro dist routes queue hcur hnd hdl hrl
      have hcur_w : cur ≠ w := fun hc => hcur (hc ▸ List.mem_cons_self w rest)
      have hcur' : cur ∉ rest := fun hc => hcur (List.mem_cons_of_mem _ hc)
      have hw_r : w ∉ rest := (List.nodup_cons.1 hnd).1
      have hnd' : rest.Nodup := (List.nodup_cons.1 hnd).2
      have hwd : w < dist.length := (hdl w (List.mem_cons_self w rest))
      have hwr : w < routes.length := (hrl w (List.mem_cons_self w rest))
      by_cases hvw : dist.getD w (-1) = -1
      · have hd2w : (dist.set w (D + 1)).getD w (-1) = D + 1 :=
          getD_set_self _ _ _ _ hwd
        have hd2o : ∀ x, x ≠ w → (dist.set w (D + 1)).getD x (-1) = dist.getD x (-1) :=
          fun x hx => getD_set_other _ _ _ _ _ hx
        have heval : relax cur D (w :: rest) dist routes queue =
            relax cur D rest (dist.set w (D + 1))
              (routes.set w (routes.getD w 0 ||| routes.getD cur 0)) (queue ++ [w]) := by
          rw [relax, if_pos hvw, if_pos hd2w]
        obtain ⟨dist', routes', heq, hdl', hrl', hdout, hdin, hrout, hrin, hcnt⟩ :=
          ih (dist.set w (D + 1)) (routes.set w (routes.getD w 0 ||| routes.getD cur 0))
            (queue ++ [w]) hcur' hnd'
            (fun x hx => by rw [List.length_set]; exact hdl x (List.mem_cons_of_mem _ hx))
            (fun x hx => by rw [List.length_set]; exact hrl x (List.mem_cons_of_mem _ hx))
        have hfilter_eq : rest.filter
              (fun x => decide ((dist.set w (D + 1)).getD x (-1) = -1))
            = rest.filter (fun x => decide (dist.getD x (-1) = -1)) := by
          apply List.filter_congr
          intro x hx
          rw [hd2o x (fun hc => hw_r (hc ▸ hx))]
        have hfilter_cons : (w :: rest).filter (fun x => decide (dist.getD x (-1) = -1))
            = w :: rest.filter (fun x => decide (dist.getD x (-1) = -1)) := by
          rw [List.filter_cons, if_pos (by simp only [decide_eq_true_eq]; exact hvw)]
        refine ⟨dist', routes', ?_, ?_, ?_, ?_, ?_, ?_, ?_, ?_⟩
        · rw [heval, heq, hfilter_eq, hfilter_cons]
          simp
        · rw [hdl', List.length_set]
        · rw [hrl', List.length_set]
        · intro x hx
          rw [List.mem_cons] at hx
          push_neg at hx
          rw [hdout x hx.2, hd2o x hx.1]
        · intro x hx
          rcases List.mem_cons.1 hx with h | h
          · rw [h, hdout w hw_r, hd2w, hvw, if_pos rfl]
          · rw [hdin x h, hd2o x (fun hc => hw_r (hc ▸ h))]
        · intro x hx
          rw [List.mem_cons] at hx
          push_neg at hx
          rw [hrout x hx.2, getD_set_other _ _ _ _ _ hx.1]
        · intro x hx
          rcases List.mem_cons.1 hx with h | h
          · rw [h, hrout w hw_r, getD_set_self _ _ _ _ hwr, hvw]
            simp
          · have hxw : x ≠ w := fun hc => hw_r (hc ▸ h)
            rw [hrin x h, hd2o x hxw, getD_set_other _ _ _ _ _ hxw,
              getD_set_other _ _ _ _ _ hcur_w]
        · rw [hfilter_eq] at hcnt
          rw [hfilter_cons]
          have hdec := countP_set_decrease dist w (D + 1) hwd hvw (by omega)
          simp only [List.length_cons]
          omega
      · have heval_pre : relax cur D (w :: rest) dist routes queue =
            relax cur D rest dist
              (if dist.getD w (-1) = D + 1 then
                routes.set w (routes.getD w 0 ||| routes.getD cur 0) else routes)
              queue := by
          rw [relax, if_neg hvw]
          by_cases hm : dist.getD w (-1) = D + 1
          · rw [if_pos hm, if_pos hm]
          · rw [if_neg hm, if_neg hm]
        have hfilter_cons : (w :: rest).filter (fun x => decide (dist.getD x (-1) = -1))
            = rest.filter (fun x => decide (dist.getD x (-1) = -1)) := by
          rw [List.filter_cons, if_neg (by simp only [decide_eq_true_eq]; exact hvw)]
        set routes2 := (if dist.getD w (-1) = D + 1 then
            routes.set w (routes.getD w 0 ||| routes.getD cur 0) else routes) with hroutes2
        have hr2len : routes2.length = routes.length := by
          rw [hroutes2]
          by_cases hm : dist.getD w (-1) = D + 1
          · rw [if_pos hm, List.length_set]
          · rw [if_neg hm]
        have hr2o : ∀ x, x ≠ w → routes2.getD x 0 = routes.getD x 0 := by
          intro x hx
          rw [hroutes2]
          by_cases hm : dist.getD w (-1) = D + 1
          · rw [if_pos hm, getD_set_other _ _ _ _ _ hx]
          · rw [if_neg hm]
        have hr2w : routes2.getD w 0 =
            if dist.getD w (-1) = D + 1
            then routes.getD w 0 ||| routes.getD cur 0 else routes.getD w 0 := by
          rw [hroutes2]
          by_cases hm : dist.getD w (-1) = D + 1
          · rw [if_pos hm, if_pos hm, getD_set_self _ _ _ _ hwr]
          · rw [if_neg hm, if_neg hm]
        obtain ⟨dist', routes', heq, hdl', hrl', hdout, hdin, hrout, hrin, hcnt⟩ :=
          ih dist routes2 queue hcur' hnd'
            (fun x hx => hdl x (List.mem_cons_of_mem _ hx))
            (fun x hx => by rw [hr2len]; exact hrl x (List.mem_cons_of_mem _ hx))
        refine ⟨dist', routes', ?_, hdl', by rw [hrl', hr2len], ?_, ?_, ?_, ?_, ?_⟩
        · rw [heval_pre, heq, hfilter_cons]
        · intro x hx
          rw [List.mem_cons] at hx
          push_neg at hx
          exact hdout x hx.2
        · intro x hx
          rcases List.mem_cons.1 hx with h | h
          · rw [h, hdout w hw_r, if_neg hvw]
          · exact hdin x h
        · intro x hx
          rw [List.mem_cons] at hx
          push_neg at hx
          rw [hrout x hx.2, hr2o x hx.1]
        · intro x hx
          rcases List.mem_cons.1 hx with h | h
          · rw [h, hrout w hw_r, hr2w, if_neg hvw]
          · rw [hrin x h, hr2o x (fun hc => hw_r (hc ▸ h)),
              hr2o cur hcur_w]
        · rw [hfilter_cons]
          exact hcnt

/-! ## Adjacency well-formedness facts used by the BFS -/

/-- The adjacency facts the BFS argument needs, packaged over the bare
adjacency structure: in-range symmetric irreflexive duplicate-free
neighbor lists. -/
def AdjWF (adj : List (List Nat)) : Prop :=
  ∀ u, (∀ w ∈ adj.getD u [], w < adj.length ∧ u ∈ adj.getD w []) ∧
    u ∉ adj.getD u [] ∧ (adj.getD u []).Nodup

theorem GWF_adjWF {g : Graph} (h : GWF g) : AdjWF g.adjacency := by
  intro u
  refine ⟨fun w hw => ⟨?_, h.asym u w hw⟩, h.airr u, h.anodup u⟩
  have := h.alt u w hw
  rw [h.alen]
  exact this

theorem testBit_one_shiftLeft (n i : Nat) : (1 <<< n).testBit i = decide (n = i) := by
  rw [Nat.shiftLeft_eq, one_mul, Nat.testBit_two_pow]

theorem exists_testBit_of_ne_zero {n : Nat} (h : n ≠ 0) : ∃ i, n.testBit i = true := by
  by_contra hc
  push_neg at hc
  exact h (Nat.eq_of_testBit_eq (fun i => by simp [hc i]))

theorem or_ne_zero_right (a : Nat) {b : Nat} (h : b ≠ 0) : a ||| b ≠ 0 := by
  intro hc
  obtain ⟨i, hi⟩ := exists_testBit_of_ne_zero h
  have hbit : (a ||| b).testBit i = true := by
    rw [Nat.testBit_or, hi, Bool.or_true]
  rw [hc] at hbit
  simp at hbit

/-- Decidability of bounded-length walks. -/
def pathLenDec (adj : List (List Nat)) : (k : Nat) → (u v : Nat) →
    Decidable (pathLen adj u v k)
  | 0, u, v => decidable_of_iff (u = v) Iff.rfl
  | k + 1, u, v =>
      letI : DecidablePred (fun w => pathLen adj w v k) :=
        fun w => pathLenDec adj k w v
      decidable_of_iff (∃ w ∈ adj.getD u [], pathLen adj w v k) Iff.rfl

instance (adj : List (List Nat)) (u v k : Nat) : Decidable (pathLen adj u v k) :=
  pathLenDec adj k u v

/-- A walk of positive length decomposes at its last edge. -/
theorem pathLen_decomp {adj : List (List Nat)} {u v : Nat} {k : Nat}
    (hp : pathLen adj u v (k + 1)) :
    ∃ w, pathLen adj u w k ∧ v ∈ adj.getD w [] := by
  induction k generalizing u with
  | zero =>
      obtain ⟨w, hw, hp0⟩ := hp
      cases hp0
      exact ⟨u, rfl, hw⟩
  | succ k ih =>
      obtain ⟨w, hw, hp2⟩ := hp
      obtain ⟨z, hz, hzadj⟩ := ih hp2
      exact ⟨z, ⟨w, hw, hz⟩, hzadj⟩

/-- Loop invariant of the bit-parallel BFS, over the raw loop state.
`dist` records layer distances (source 0, discovered nodes their BFS
layer, `-1` undiscovered), the queue holds the pending frontier split
into at most two consecutive layers, and `routes` carries for every
discovered non-source node a non-empty bitmap whose set bits index source
neighbors that start a walk of the matching length to the node. -/
structure BFSInv (adj : List (List Nat)) (src : Nat) (dist : List Int)
    (routes : List Nat) (queue : List Nat) : Prop where
  dlen : dist.length = adj.length
  rlen : routes.length = adj.length
  dsrc : dist.getD src (-1) = 0
  dneg : ∀ u, dist.getD u (-1) < 0 → dist.getD u (-1) = -1
  dzero : ∀ u, dist.getD u (-1) = 0 → u = src
  sound : ∀ u, 0 ≤ dist.getD u (-1) →
    ∃ k : Nat, (k : Int) = dist.getD u (-1) ∧ pathLen adj src u k
  qpos : ∀ v ∈ queue, 1 ≤ dist.getD v (-1)
  layer : ∃ d : Int, 0 ≤ d ∧ ∃ q1 q2, queue = q1 ++ q2 ∧
      (∀ v ∈ q1, dist.getD v (-1) = d) ∧
      (∀ v ∈ q2, dist.getD v (-1) = d + 1) ∧
      (∀ u, dist.getD u (-1) ≤ d + 1) ∧
      (∀ u, dist.getD u (-1) = d + 1 → u ∈ q2)
  relaxed : ∀ u, 0 ≤ dist.getD u (-1) → u ∉ queue →
      ∀ w ∈ adj.getD u [], 0 ≤ dist.getD w (-1) ∧
        dist.getD w (-1) ≤ dist.getD u (-1) + 1
  rzero : ∀ u, dist.getD u (-1) ≤ 0 → routes.getD u 0 = 0
  rpos : ∀ u, 1 ≤ dist.getD u (-1) → routes.getD u 0 ≠ 0
  rbits : ∀ u, 1 ≤ dist.getD u (-1) → ∀ i, (routes.getD u 0).testBit i = true →
      ∃ nbr, (adj.getD src []).get? i = some nbr ∧
        ∃ k : Nat, (k : Int) + 1 = dist.getD u (-1) ∧ pathLen adj nbr u k

theorem bfsLoop_inv (adj : List (List Nat)) (src : Nat) (hadj : AdjWF adj) :
    ∀ (fuel : Nat) (dist : List Int) (routes : List Nat) (queue : List Nat),
    BFSInv adj src dist routes queue →
    2 * dist.countP (fun d => decide (d = -1)) + queue.length < fuel →
    ∃ distF routesF,
      bfsLoop adj fuel queue dist routes = (distF, routesF) ∧
      BFSInv adj src distF routesF [] ∧
      (∀ u i, (routes.getD u 0).testBit i = true →
        (routesF.getD u 0).testBit i = true) := by
  intro fuel
  induction fuel with
  | zero =>
      intro dist routes queue _ hm
      exact absurd hm (Nat.not_lt_zero _)
  | succ fuel ih =>
      intro dist routes queue hinv hm
      cases queue with
      | nil =>
          exact ⟨dist, routes, by rw [bfsLoop], hinv, fun u i h => h⟩
      | cons cur rest =>
          have hD1 : (1 : Int) ≤ dist.getD cur (-1) :=
            hinv.qpos cur (List.mem_cons_self _ _)
          obtain ⟨hnbound, hnirr, hnnodup⟩ := hadj cur
          obtain ⟨dist2, routes2, heq, hdl2, hrl2, hdout, hdin, hrout, hrin, hcnt⟩ :=
            relax_spec cur (dist.getD cur (-1)) (by omega) (adj.getD cur [])
              dist routes rest hnirr hnnodup
              (fun w hw => by rw [hinv.dlen]; exact (hnbound w hw).1)
              (fun w hw => by rw [hinv.rlen]; exact (hnbound w hw).1)
          have hstep : bfsLoop adj (fuel + 1) (cur :: rest) dist routes
              = bfsLoop adj fuel
                  (rest ++ (adj.getD cur []).filter
                    (fun w => decide (dist.getD w (-1) = -1)))
                  dist2 routes2 := by
            simp only [bfsLoop]
            rw [heq]
          have hkeep : ∀ x, 0 ≤ dist.getD x (-1) →
              dist2.getD x (-1) = dist.getD x (-1) := by
            intro x hx
            by_cases hxn : x ∈ adj.getD cur []
            · rw [hdin x hxn, if_neg (by omega)]
            · exact hdout x hxn
          have hd2cases : ∀ x, dist2.getD x (-1) = dist.getD x (-1) ∨
              (x ∈ (adj.getD cur []).filter
                  (fun w => decide (dist.getD w (-1) = -1)) ∧
                dist.getD x (-1) = -1 ∧
                dist2.getD x (-1) = dist.getD cur (-1) + 1) := by
            intro x
            by_cases hxn : x ∈ adj.getD cur []
            · by_cases hv : dist.getD x (-1) = -1
              · exact Or.inr ⟨List.mem_filter.2 ⟨hxn, decide_eq_true hv⟩, hv,
                  by rw [hdin x hxn, if_pos hv]⟩
              · exact Or.inl (by rw [hdin x hxn, if_neg hv])
            · exact Or.inl (hdout x hxn)
          have hnewmem : ∀ x ∈ (adj.getD cur []).filter
              (fun w => decide (dist.getD w (-1) = -1)),
              x ∈ adj.getD cur [] ∧ dist.getD x (-1) = -1 ∧
                dist2.getD x (-1) = dist.getD cur (-1) + 1 := by
            intro x hx
            obtain ⟨hxn, hv⟩ := List.mem_filter.1 hx
            have hv' : dist.getD x (-1) = -1 := of_decide_eq_true hv
            exact ⟨hxn, hv', by rw [hdin x hxn, if_pos hv']⟩
          obtain ⟨d, hd0, q1, q2, hqeq, hq1, hq2, hmax, hatt⟩ := hinv.layer
          have hDub : ∀ u, dist.getD u (-1) ≤ dist.getD cur (-1) + 1 := by
            intro u
            have hcu : dist.getD cur (-1) = d ∨ dist.getD cur (-1) = d + 1 := by
              cases q1 with
              | nil =>
                  right
                  rw [List.nil_append] at hqeq
                  exact hq2 cur (by rw [← hqeq]; exact List.mem_cons_self _ _)
              | cons a q1t =>
                  left
                  have ha : a = cur := by
                    have := hqeq
                    rw [List.cons_append] at this
                    exact (List.cons.injEq _ _ _ _ ▸ this).1.symm
                  rw [← ha]
                  exact hq1 a (List.mem_cons_self _ _)
            have := hmax u
            omega
          have hpres : BFSInv adj src dist2 routes2
              (rest ++ (adj.getD cur []).filter
                (fun w => decide (dist.getD w (-1) = -1))) := by
            refine ⟨by rw [hdl2, hinv.dlen], by rw [hrl2, hinv.rlen], ?_, ?_, ?_,
              ?_, ?_, ?_, ?_, ?_, ?_, ?_⟩
            · rw [hkeep src (by rw [hinv.dsrc]), hinv.dsrc]
            · intro u hu
              rcases hd2cases u with h | ⟨_, _, h⟩
              · rw [h] at hu ⊢
                exact hinv.dneg u hu
              · rw [h] at hu
                omega
            · intro u hu
              rcases hd2cases u with h | ⟨_, _, h⟩
              · rw [h] at hu
                exact hinv.dzero u hu
              · rw [h] at hu
                omega
            · intro u hu
              rcases hd2cases u with h | ⟨hmem, hold, h⟩
              · rw [h] at hu ⊢
                exact hinv.sound u hu
              · obtain ⟨k, hk, hp⟩ := hinv.sound cur (by omega)
                have hun : u ∈ adj.getD cur [] := (hnewmem u hmem).1
                refine ⟨k + 1, ?_, pathLen_snoc hp hun⟩
                rw [h]
                push_cast
                omega
            · intro v hv
              rcases List.mem_append.1 hv with h | h
              · have h1 := hinv.qpos v (List.mem_cons_of_mem _ h)
                rw [hkeep v (by omega)]
                exact h1
              · rw [(hnewmem v h).2.2]
                omega
            · cases q1 with
              | cons a q1t =>
                  have ha : a = cur := by
                    have := hqeq
                    rw [List.cons_append] at this
                    exact (List.cons.injEq _ _ _ _ ▸ this).1.symm
                  have hrest : rest = q1t ++ q2 := by
                    have := hqeq
                    rw [List.cons_append] at this
                    exact (List.cons.injEq _ _ _ _ ▸ this).2
                  have hcurd : dist.getD cur (-1) = d := by
                    rw [← ha]
                    exact hq1 a (List.mem_cons_self _ _)
                  refine ⟨d, hd0, q1t, q2 ++ (adj.getD cur []).filter
                    (fun w => decide (dist.getD w (-1) = -1)),
                    by rw [hrest, List.append_assoc], ?_, ?_, ?_, ?_⟩
                  · intro v hv
                    have h1 := hq1 v (List.mem_cons_of_mem a hv)
                    rw [hkeep v (by omega)]
                    exact h1
                  · intro v hv
                    rcases List.mem_append.1 hv with h | h
                    · have h1 := hq2 v h
                      rw [hkeep v (by omega)]
                      exact h1
                    · rw [(hnewmem v h).2.2, hcurd]
                  · intro u
                    rcases hd2cases u with h | ⟨_, _, h⟩
                    · rw [h]
                      exact hmax u
                    · rw [h, hcurd]
                  · intro u hu
                    rcases hd2cases u with h | ⟨hmem, _, _⟩
                    · rw [h] at hu
                      exact List.mem_append.2 (Or.inl (hatt u hu))
                    · exact List.mem_append.2 (Or.inr hmem)
              | nil =>
                  have hq2eq : q2 = cur :: rest := by
                    rw [hqeq, List.nil_append]
                  have hcurd : dist.getD cur (-1) = d + 1 :=
                    hq2 cur (by rw [hq2eq]; exact List.mem_cons_self _ _)
                  refine ⟨d + 1, by omega, rest, (adj.getD cur []).filter
                    (fun w => decide (dist.getD w (-1) = -1)), rfl, ?_, ?_, ?_, ?_⟩
                  · intro v hv
                    have h1 := hq2 v (by rw [hq2eq]; exact List.mem_cons_of_mem _ hv)
                    rw [hkeep v (by omega)]
                    exact h1
                  · intro v hv
                    rw [(hnewmem v hv).2.2, hcurd]
                  · intro u
                    rcases hd2cases u with h | ⟨_, _, h⟩
                    · have := hmax u
                      rw [h]
                      omega
                    · rw [h, hcurd]
                  · intro u hu
                    rcases hd2cases u with h | ⟨hmem, _, _⟩
                    · rw [h] at hu
                      have := hmax u
                      omega
                    · exact hmem
            · intro u hu hnq w hw
              by_cases hucur : u = cur
              · subst hucur
                have hu2 : dist2.getD u (-1) = dist.getD u (-1) :=
                  hkeep u (by omega)
                rw [hu2]
                rw [hdin w hw]
                by_cases hv : dist.getD w (-1) = -1
                · rw [if_pos hv]
                  omega
                · rw [if_neg hv]
                  have h1 := hinv.dneg w
                  have h2 := hDub w
                  omega
              · have hu2 : dist2.getD u (-1) = dist.getD u (-1) := by
                  rcases hd2cases u with h | ⟨hmem, _, _⟩
                  · exact h
                  · exact absurd (List.mem_append.2 (Or.inr hmem)) hnq
                have hnr : u ∉ rest := fun hc =>
                  hnq (List.mem_append.2 (Or.inl hc))
                have hnold : u ∉ cur :: rest := by
                  intro hc
                  rcases List.mem_cons.1 hc with h | h
                  · exact hucur h
                  · exact hnr h
                rw [hu2] at hu ⊢
                obtain ⟨hw0, hwb⟩ := hinv.relaxed u hu hnold w hw
                rw [hkeep w hw0]
                exact ⟨hw0, hwb⟩
            · intro u hu
              rcases hd2cases u with h | ⟨_, _, h⟩
              · rw [h] at hu
                have hz := hinv.rzero u hu
                by_cases hxn : u ∈ adj.getD cur []
                · rw [hrin u hxn]
                  have hne : dist.getD u (-1) ≠ -1 := by
                    intro hc
                    have h2 := hdin u hxn
                    rw [if_pos hc, h, hc] at h2
                    omega
                  rw [if_neg (by rw [if_neg hne]; omega)]
                  exact hz
                · rw [hrout u hxn]
                  exact hz
              · rw [h] at hu
                omega
            · intro u hu
              by_cases hxn : u ∈ adj.getD cur []
              · rw [hrin u hxn]
                by_cases hc : (if dist.getD u (-1) = -1 then dist.getD cur (-1) + 1
                    else dist.getD u (-1)) = dist.getD cur (-1) + 1
                · rw [if_pos hc]
                  exact or_ne_zero_right _ (hinv.rpos cur hD1)
                · rw [if_neg hc]
                  have hne : dist.getD u (-1) ≠ -1 := by
                    intro hv
                    rw [if_pos hv] at hc
                    exact hc rfl
                  have hu2 : dist2.getD u (-1) = dist.getD u (-1) := by
                    rw [hdin u hxn, if_neg hne]
                  rw [hu2] at hu
                  exact hinv.rpos u hu
              · have hu2 : dist2.getD u (-1) = dist.getD u (-1) := hdout u hxn
                rw [hrout u hxn]
                rw [hu2] at hu
                exact hinv.rpos u hu
            · intro u hu i hbit
              by_cases hxn : u ∈ adj.getD cur []
              · by_cases hc : (if dist.getD u (-1) = -1 then dist.getD cur (-1) + 1
                    else dist.getD u (-1)) = dist.getD cur (-1) + 1
                · have hu2 : dist2.getD u (-1) = dist.getD cur (-1) + 1 := by
                    rw [hdin u hxn]
                    exact hc
                  rw [hrin u hxn, if_pos hc, Nat.testBit_or] at hbit
                  rcases Bool.or_eq_true_iff.1 hbit with hb | hb
                  · have hne : dist.getD u (-1) ≠ -1 := by
                      intro hv
                      have := hinv.rzero u (by omega)
                      rw [this] at hb
                      simp [Nat.zero_testBit] at hb
                    have holdd : dist.getD u (-1) = dist.getD cur (-1) + 1 := by
                      rw [if_neg hne] at hc
                      exact hc
                    obtain ⟨nbr, hget, k, hk, hp⟩ :=
                      hinv.rbits u (by omega) i hb
                    exact ⟨nbr, hget, k, by rw [hu2, ← holdd]; exact hk, hp⟩
                  · obtain ⟨nbr, hget, k, hk, hp⟩ := hinv.rbits cur hD1 i hb
                    refine ⟨nbr, hget, k + 1, ?_, pathLen_snoc hp hxn⟩
                    rw [hu2]
                    push_cast
                    omega
                · have hne : dist.getD u (-1) ≠ -1 := by
                    intro hv
                    rw [if_pos hv] at hc
                    exact hc rfl
                  have hu2 : dist2.getD u (-1) = dist.getD u (-1) := by
                    rw [hdin u hxn, if_neg hne]
                  rw [hrin u hxn, if_neg hc] at hbit
                  rw [hu2] at hu
                  obtain ⟨nbr, hget, k, hk, hp⟩ := hinv.rbits u hu i hbit
                  exact ⟨nbr, hget, k, by rw [hu2]; exact hk, hp⟩
              · have hu2 : dist2.getD u (-1) = dist.getD u (-1) := hdout u hxn
                rw [hrout u hxn] at hbit
                rw [hu2] at hu
                obtain ⟨nbr, hget, k, hk, hp⟩ := hinv.rbits u hu i hbit
                exact ⟨nbr, hget, k, by rw [hu2]; exact hk, hp⟩
          have hmeas : 2 * dist2.countP (fun d => decide (d = -1)) +
              (rest ++ (adj.getD cur []).filter
                (fun w => decide (dist.getD w (-1) = -1))).length < fuel := by
            rw [List.length_append]
            simp only [List.length_cons] at hm
            omega
          obtain ⟨distF, routesF, hF, hinvF, hmono⟩ :=
            ih dist2 routes2 _ hpres hmeas
          refine ⟨distF, routesF, by rw [hstep, hF], hinvF, ?_⟩
          intro u i hbit
          apply hmono
          by_cases hxn : u ∈ adj.getD cur []
          · rw [hrin u hxn]
            by_cases hc : (if dist.getD u (-1) = -1 then dist.getD cur (-1) + 1
                else dist.getD u (-1)) = dist.getD cur (-1) + 1
            · rw [if_pos hc, Nat.testBit_or, hbit]
              rfl
            · rw [if_neg hc]
              exact hbit
          · rw [hrout u hxn]
            exact hbit

theorem getD_replicate {α : Type} (n i : Nat) (d : α) :
    (List.replicate n d).getD i d = d := by
  rcases lt_or_le i n with h | h
  · rw [List.getD_eq_getElem?_getD, List.getElem?_eq_getElem (by simpa using h)]
    simp
  · rw [List.getD_eq_getElem?_getD, List.getElem?_eq_none (by simpa using h)]
    rfl

theorem one_shiftLeft_ne_zero (i : Nat) : (1 <<< i) ≠ 0 := by
  rw [Nat.shiftLeft_eq, one_mul]
  exact Nat.pos_iff_ne_zero.1 (Nat.pos_pow_of_pos i (by omega))

theorem length_le_of_nodup_bounded {l : List Nat} {n : Nat}
    (hn : l.Nodup) (hb : ∀ x ∈ l, x < n) : l.length ≤ n := by
  classical
  have h1 : l.toFinset.card = l.length := List.toFinset_card_of_nodup hn
  have h2 : l.toFinset ⊆ Finset.range n := by
    intro x hx
    simp only [List.mem_toFinset] at hx
    simpa using hb x hx
  have := Finset.card_le_card h2
  simpa [h1] using this

/-- The seeding phase establishes the loop invariant, the fuel chosen by
`calculate_distance` dominates the termination measure, and the loop then
runs to an empty queue: the returned map is `compute_result` of a final
state satisfying `BFSInv`, in which every source neighbor still carries
its seeded enumeration bit. -/
theorem calculate_distance_split (g : Graph) (hw : GWF g)
    (hfan : (g.adjacency.getD g.source_id []).length ≤ MAX_NUM_PEERS) :
    ∃ distF routesF,
      calculate_distance g = compute_result g routesF distF ∧
      BFSInv g.adjacency g.source_id distF routesF [] ∧
      distF.length = g.id2p.length ∧ routesF.length = g.id2p.length ∧
      (∀ i v, (g.adjacency.getD g.source_id []).get? i = some v →
        (routesF.getD v 0).testBit i = true) := by
  have hsrclt : g.source_id < g.id2p.length := by
    rw [hw.src]
    exact hw.npos
  have htake : (g.adjacency.getD g.source_id []).enum.take MAX_NUM_PEERS
      = (g.adjacency.getD g.source_id []).enum :=
    List.take_of_length_le (by rw [List.enum_length]; exact hfan)
  have hd0len : ((List.replicate g.id2p.length (-1 : Int)).set g.source_id 0).length
      = g.id2p.length := by
    rw [List.length_set, List.length_replicate]
  have hd0src : ((List.replicate g.id2p.length (-1 : Int)).set g.source_id 0).getD
      g.source_id (-1) = 0 :=
    getD_set_self _ _ _ _ (by rw [List.length_replicate]; exact hsrclt)
  have hd0other : ∀ x, x ≠ g.source_id →
      ((List.replicate g.id2p.length (-1 : Int)).set g.source_id 0).getD x (-1)
        = -1 := by
    intro x hx
    rw [getD_set_other _ _ _ _ _ hx, getD_replicate]
  have hr0 : ∀ x, (List.replicate g.id2p.length (0 : Nat)).getD x 0 = 0 := by
    intro x
    rw [getD_replicate]
  have hmemsnd : ∀ pr ∈ (g.adjacency.getD g.source_id []).enum,
      pr.2 ∈ g.adjacency.getD g.source_id [] := by
    intro pr hpr
    rw [← List.enum_map_snd (g.adjacency.getD g.source_id [])]
    exact List.mem_map_of_mem _ hpr
  obtain ⟨dist1, routes1, hseedeq, hdl1, hrl1, hout1, hin1⟩ :=
    seedFold_spec ((g.adjacency.getD g.source_id []).enum)
      ((List.replicate g.id2p.length (-1 : Int)).set g.source_id 0)
      (List.replicate g.id2p.length (0 : Nat)) []
      (by rw [List.enum_map_snd]; exact hw.anodup g.source_id)
      (by
        intro pr hpr
        have h2 := hw.alt g.source_id pr.2 (hmemsnd pr hpr)
        constructor
        · rw [hd0len]
          exact h2
        · rw [List.length_replicate]
          exact h2)
  have hnoseed : ∀ x, x ∉ g.adjacency.getD g.source_id [] →
      dist1.getD x (-1) = ((List.replicate g.id2p.length (-1 : Int)).set
        g.source_id 0).getD x (-1) ∧
      routes1.getD x 0 = (List.replicate g.id2p.length (0 : Nat)).getD x 0 := by
    intro x hx
    exact hout1 x (by rw [List.enum_map_snd]; exact hx)
  have hsnn : g.source_id ∉ g.adjacency.getD g.source_id [] := hw.airr g.source_id
  have hd1src : dist1.getD g.source_id (-1) = 0 := by
    rw [(hnoseed _ hsnn).1, hd0src]
  have hseedmem : ∀ x ∈ g.adjacency.getD g.source_id [],
      dist1.getD x (-1) = 1 ∧
      ∃ i, (g.adjacency.getD g.source_id []).get? i = some x ∧
        routes1.getD x 0 = 1 <<< i := by
    intro x hx
    obtain ⟨i, hi⟩ := List.mem_iff_getElem?.1 hx
    have henum : (i, x) ∈ (g.adjacency.getD g.source_id []).enum :=
      List.mem_enum_iff_getElem?.2 hi
    obtain ⟨h1, h2⟩ := hin1 (i, x) henum
    exact ⟨h1, i, by rw [List.get?_eq_getElem?]; exact hi, h2⟩
  have hbitv : ∀ i v, (g.adjacency.getD g.source_id []).get? i = some v →
      routes1.getD v 0 = 1 <<< i := by
    intro i v hv
    rw [List.get?_eq_getElem?] at hv
    exact (hin1 (i, v) (List.mem_enum_iff_getElem?.2 hv)).2
  have hd1non : ∀ x, x ∉ g.adjacency.getD g.source_id [] → x ≠ g.source_id →
      dist1.getD x (-1) = -1 := by
    intro x hx hxs
    rw [(hnoseed x hx).1, hd0other x hxs]
  have hinv1 : BFSInv g.adjacency g.source_id dist1 routes1
      (g.adjacency.getD g.source_id []) := by
    refine ⟨by rw [hdl1, hd0len, hw.alen], by rw [hrl1, List.length_replicate, hw.alen],
      hd1src, ?_, ?_, ?_, ?_, ?_, ?_, ?_, ?_, ?_⟩
    · intro u hu
      by_cases hx : u ∈ g.adjacency.getD g.source_id []
      · rw [(hseedmem u hx).1] at hu
        omega
      · by_cases hxs : u = g.source_id
        · rw [hxs, hd1src] at hu
          omega
        · exact hd1non u hx hxs
    · intro u hu
      by_cases hx : u ∈ g.adjacency.getD g.source_id []
      · rw [(hseedmem u hx).1] at hu
        omega
      · by_cases hxs : u = g.source_id
        · exact hxs
        · rw [hd1non u hx hxs] at hu
          omega
    · intro u hu
      by_cases hx : u ∈ g.adjacency.getD g.source_id []
      · refine ⟨1, ?_, u, hx, rfl⟩
        rw [(hseedmem u hx).1]
        rfl
      · by_cases hxs : u = g.source_id
        · refine ⟨0, ?_, ?_⟩
          · rw [hxs, hd1src]
            rfl
          · rw [hxs]
            rfl
        · rw [hd1non u hx hxs] at hu
          omega
    · intro v hv
      rw [(hseedmem v hv).1]
    · refine ⟨0, le_refl _, [], g.adjacency.getD g.source_id [],
        (List.nil_append _).symm, ?_, ?_, ?_, ?_⟩
      · intro v hv
        cases hv
      · intro v hv
        rw [(hseedmem v hv).1]
        omega
      · intro u
        by_cases hx : u ∈ g.adjacency.getD g.source_id []
        · rw [(hseedmem u hx).1]
          omega
        · by_cases hxs : u = g.source_id
          · rw [hxs, hd1src]
            omega
          · rw [hd1non u hx hxs]
            omega
      · intro u hu
        by_contra hx
        by_cases hxs : u = g.source_id
        · rw [hxs, hd1src] at hu
          omega
        · rw [hd1non u hx hxs] at hu
          omega
    · intro u hu hq w hw2
      have hus : u = g.source_id := by
        by_cases hx : u ∈ g.adjacency.getD g.source_id []
        · exact absurd hx hq
        · by_cases hxs : u = g.source_id
          · exact hxs
          · rw [hd1non u hx hxs] at hu
            omega
      rw [hus] at hw2 ⊢
      rw [(hseedmem w hw2).1, hd1src]
      omega
    · intro u hu
      by_cases hx : u ∈ g.adjacency.getD g.source_id []
      · rw [(hseedmem u hx).1] at hu
        omega
      · rw [(hnoseed u hx).2, hr0]
    · intro u hu
      by_cases hx : u ∈ g.adjacency.getD g.source_id []
      · obtain ⟨-, i, -, hr⟩ := hseedmem u hx
        rw [hr]
        exact one_shiftLeft_ne_zero i
      · by_cases hxs : u = g.source_id
        · rw [hxs, hd1src] at hu
          omega
        · rw [hd1non u hx hxs] at hu
          omega
    · intro u hu i hbit
      by_cases hx : u ∈ g.adjacency.getD g.source_id []
      · obtain ⟨hd1, i0, hget, hr⟩ := hseedmem u hx
        rw [hr, testBit_one_shiftLeft] at hbit
        have hii : i0 = i := of_decide_eq_true hbit
        refine ⟨u, by rw [← hii]; exact hget, 0, ?_, rfl⟩
        rw [hd1]
        rfl
      · by_cases hxs : u = g.source_id
        · rw [hxs, hd1src] at hu
          omega
        · rw [hd1non u hx hxs] at hu
          omega
  have hnlen : (g.adjacency.getD g.source_id []).length ≤ g.id2p.length :=
    length_le_of_nodup_bounded (hw.anodup g.source_id)
      (fun x hx => hw.alt g.source_id x hx)
  have hcnt1 : dist1.countP (fun d => decide (d = -1)) ≤ g.id2p.length := by
    have h1 := List.countP_le_length (l := dist1) (p := fun d => decide (d = -1))
    rw [hdl1, hd0len] at h1
    exact h1
  obtain ⟨distF, routesF, hloopeq, hinvF, hmono⟩ :=
    bfsLoop_inv g.adjacency g.source_id (GWF_adjWF hw)
      (3 * g.id2p.length + 1) dist1 routes1 (g.adjacency.getD g.source_id [])
      hinv1 (by omega)
  have hseedeq2 : seedFold ((g.adjacency.getD g.source_id []).enum.take
        MAX_NUM_PEERS)
      ((List.replicate g.id2p.length (-1 : Int)).set g.source_id 0)
      (List.replicate g.id2p.length (0 : Nat)) []
      = (dist1, routes1, g.adjacency.getD g.source_id []) := by
    rw [htake, hseedeq, List.nil_append, List.enum_map_snd]
  refine ⟨distF, routesF, ?_, hinvF, by rw [hinvF.dlen, hw.alen],
    by rw [hinvF.rlen, hw.alen], ?_⟩
  · show compute_result g
        (bfsLoop g.adjacency (3 * g.id2p.length + 1)
          (seedFold ((g.adjacency.getD g.source_id []).enum.take MAX_NUM_PEERS)
            ((List.replicate g.id2p.length (-1 : Int)).set g.source_id 0)
            (List.replicate g.id2p.length (0 : Nat)) []).2.2
          (seedFold ((g.adjacency.getD g.source_id []).enum.take MAX_NUM_PEERS)
            ((List.replicate g.id2p.length (-1 : Int)).set g.source_id 0)
            (List.replicate g.id2p.length (0 : Nat)) []).1
          (seedFold ((g.adjacency.getD g.source_id []).enum.take MAX_NUM_PEERS)
            ((List.replicate g.id2p.length (-1 : Int)).set g.source_id 0)
            (List.replicate g.id2p.length (0 : Nat)) []).2.1).2
        (bfsLoop g.adjacency (3 * g.id2p.length + 1)
          (seedFold ((g.adjacency.getD g.source_id []).enum.take MAX_NUM_PEERS)
            ((List.replicate g.id2p.length (-1 : Int)).set g.source_id 0)
            (List.replicate g.id2p.length (0 : Nat)) []).2.2
          (seedFold ((g.adjacency.getD g.source_id []).enum.take MAX_NUM_PEERS)
            ((List.replicate g.id2p.length (-1 : Int)).set g.source_id 0)
            (List.replicate g.id2p.length (0 : Nat)) []).1
          (seedFold ((g.adjacency.getD g.source_id []).enum.take MAX_NUM_PEERS)
            ((List.replicate g.id2p.length (-1 : Int)).set g.source_id 0)
            (List.replicate g.id2p.length (0 : Nat)) []).2.1).1
      = compute_result g routesF distF
    rw [hseedeq2]
    show compute_result g
        (bfsLoop g.adjacency (3 * g.id2p.length + 1)
          (g.adjacency.getD g.source_id []) dist1 routes1).2
        (bfsLoop g.adjacency (3 * g.id2p.length + 1)
          (g.adjacency.getD g.source_id []) dist1 routes1).1
      = compute_result g routesF distF
    rw [hloopeq]
  · intro i v hv
    exact hmono v i (by rw [hbitv i v hv, testBit_one_shiftLeft]; simp)

/-- At loop exit every node reachable by a walk of length `k` is
discovered with layer distance at most `k` (completeness plus
minimality of the recorded distances). -/
theorem bfs_final_complete {adj : List (List Nat)} {src : Nat}
    {dist : List Int} {routes : List Nat}
    (hinv : BFSInv adj src dist routes []) :
    ∀ (k : Nat) (u : Nat), pathLen adj src u k →
      0 ≤ dist.getD u (-1) ∧ dist.getD u (-1) ≤ (k : Int) := by
  intro k
  induction k with
  | zero =>
      intro u hp
      cases hp
      rw [hinv.dsrc]
      exact ⟨le_refl _, by omega⟩
  | succ k ih =>
      intro u hp
      obtain ⟨w, hw, hmem⟩ := pathLen_decomp hp
      obtain ⟨h0, hle⟩ := ih w hw
      obtain ⟨h0u, hleu⟩ := hinv.relaxed w h0 (List.not_mem_nil w) u hmem
      refine ⟨h0u, ?_⟩
      push_cast
      omega

/-- `d` is the exact shortest walk length from `src` to `u`. -/
def isShortest (adj : List (List Nat)) (src u d : Nat) : Prop :=
  pathLen adj src u d ∧ ∀ k, pathLen adj src u k → d ≤ k

theorem relax_lengths (cur : Nat) (D : Int) :
    ∀ (nbrs : List Nat) (dist : List Int) (routes queue : List Nat),
    (relax cur D nbrs dist routes queue).1.length = dist.length ∧
    (relax cur D nbrs dist routes queue).2.1.length = routes.length := by
  intro nbrs
  induction nbrs with
  | nil =>
      intro dist routes queue
      rw [relax]
      exact ⟨rfl, rfl⟩
  | cons w rest ih =>
      intro dist routes queue
      rw [relax]
      split_ifs with h1 h2 h3
      · obtain ⟨ha, hb⟩ := ih (dist.set w (D + 1))
          (routes.set w (routes.getD w 0 ||| routes.getD cur 0)) (queue ++ [w])
        rw [ha, hb, List.length_set, List.length_set]
        exact ⟨rfl, rfl⟩
      · obtain ⟨ha, hb⟩ := ih (dist.set w (D + 1)) routes (queue ++ [w])
        rw [ha, hb, List.length_set]
        exact ⟨rfl, rfl⟩
      · obtain ⟨ha, hb⟩ := ih dist
          (routes.set w (routes.getD w 0 ||| routes.getD cur 0)) queue
        rw [ha, hb, List.length_set]
        exact ⟨rfl, rfl⟩
      · exact ih dist routes queue

theorem bfsLoop_lengths (adj : List (List Nat)) :
    ∀ (fuel : Nat) (queue : List Nat) (dist : List Int) (routes : List Nat),
    (bfsLoop adj fuel queue dist routes).1.length = dist.length ∧
    (bfsLoop adj fuel queue dist routes).2.length = routes.length := by
  intro fuel
  induction fuel with
  | zero =>
      intro queue dist routes
      rw [bfsLoop]
      exact ⟨rfl, rfl⟩
  | succ fuel ih =>
      intro queue dist routes
      cases queue with
      | nil =>
          rw [bfsLoop]
          exact ⟨rfl, rfl⟩
      | cons cur rest =>
          simp only [bfsLoop]
          obtain ⟨ha, hb⟩ := ih
            (relax cur (dist.getD cur (-1)) (adj.getD cur []) dist routes rest).2.2
            (relax cur (dist.getD cur (-1)) (adj.getD cur []) dist routes rest).1
            (relax cur (dist.getD cur (-1)) (adj.getD cur []) dist routes rest).2.1
          obtain ⟨hc, hd⟩ := relax_lengths cur (dist.getD cur (-1))
            (adj.getD cur []) dist routes rest
          rw [ha, hb, hc, hd]
          exact ⟨rfl, rfl⟩

theorem get?_lt_of_some {α : Type} {l : List α} {i : Nat} {x : α}
    (h : l.get? i = some x) : i < l.length := by
  by_contra hc
  push_neg at hc
  rw [List.get?_eq_none.2 hc] at h
  cases h

theorem getD_of_get? {α : Type} {l : List α} {i : Nat} {x : α} (d : α)
    (h : l.get? i = some x) : l.getD i d = x := by
  have hlt := get?_lt_of_some h
  have h2 := get?_of_getD l i d hlt
  rw [h] at h2
  exact (Option.some.injEq _ _ ▸ h2).symm

theorem getD_mem_enum {l : List Nat} {i : Nat} (d : Nat) (h : i < l.length) :
    (i, l.getD i d) ∈ l.enum := by
  have hlen : i < l.enum.length := by simpa using h
  have h2 : l.enum[i] = (i, l[i]) := by simp
  have h3 : l.getD i d = l[i] := by
    rw [List.getD_eq_getElem?_getD, List.getElem?_eq_getElem h]
    rfl
  rw [h3]
  exact h2 ▸ List.getElem_mem _

theorem getD_mem_enum_take {l : List Nat} {k i : Nat} (d : Nat)
    (hik : i < k) (hil : i < l.length) : (i, l.getD i d) ∈ l.enum.take k := by
  have hlen : i < (l.enum.take k).length := by
    simp only [List.length_take, List.enum_length]
    omega
  have h2 : (l.enum.take k)[i] = (i, l[i]) := by
    rw [List.getElem_take]
    simp
  have h3 : l.getD i d = l[i] := by
    rw [List.getD_eq_getElem?_getD, List.getElem?_eq_getElem hil]
    rfl
  rw [h3]
  exact h2 ▸ List.getElem_mem _

theorem enum_get?_of_mem {l : List Nat} {kv : Nat × Nat} (h : kv ∈ l.enum) :
    l.get? kv.1 = some kv.2 := by
  have h2 := List.mem_enum_iff_getElem?.1 h
  rw [List.get?_eq_getElem?]
  exact h2

theorem lookup_filterMap_none {α : Type} (f : Nat × Nat → Option (Nat × α))
    (key : Nat) :
    ∀ L : List (Nat × Nat),
    (∀ kv ∈ L, ∀ x, f kv = some x → x.1 ≠ key) →
    (L.filterMap f).lookup key = none := by
  intro L
  induction L with
  | nil => intro _; rfl
  | cons kv rest ih =>
      intro h
      rw [List.filterMap_cons]
      cases hfk : f kv with
      | none => exact ih (fun kv2 h2 => h kv2 (List.mem_cons_of_mem _ h2))
      | some x =>
          obtain ⟨k1, v1⟩ := x
          have hne : k1 ≠ key := h kv (List.mem_cons_self _ _) (k1, v1) hfk
          rw [lookup_cons, if_neg (fun hc => hne hc.symm)]
          exact ih (fun kv2 h2 => h kv2 (List.mem_cons_of_mem _ h2))

theorem lookup_filterMap_first {α : Type} (f : Nat × Nat → Option (Nat × α))
    (key : Nat) (kv0 : Nat × Nat) (val : α) :
    ∀ L : List (Nat × Nat), kv0 ∈ L → f kv0 = some (key, val) →
    (∀ kv ∈ L, ∀ x, f kv = some x → x.1 = key → kv = kv0) →
    (L.filterMap f).lookup key = some val := by
  intro L
  induction L with
  | nil => intro hmem; cases hmem
  | cons kv rest ih =>
      intro hmem hf huniq
      by_cases hkv : kv = kv0
      · rw [List.filterMap_cons, hkv, hf, lookup_cons, if_pos rfl]
      · have hmem2 : kv0 ∈ rest := by
          rcases List.mem_cons.1 hmem with h | h
          · exact absurd h.symm hkv
          · exact h
        rw [List.filterMap_cons]
        cases hfk : f kv with
        | none =>
            exact ih hmem2 hf (fun kv2 h2 => huniq kv2 (List.mem_cons_of_mem _ h2))
        | some x =>
            obtain ⟨k1, v1⟩ := x
            have hne : k1 ≠ key := by
              intro hc
              exact hkv (huniq kv (List.mem_cons_self _ _) (k1, v1) hfk hc)
            rw [lookup_cons, if_neg (fun hc => hne hc.symm)]
            exact ih hmem2 hf (fun kv2 h2 => huniq kv2 (List.mem_cons_of_mem _ h2))

theorem mem_peerSet_iff (g : Graph) (r m : Nat) :
    m ∈ peerSet g r ↔
      ∃ pr ∈ (g.adjacency.getD g.source_id []).enum.take MAX_NUM_PEERS,
        r.testBit pr.1 = true ∧ m = g.id2p.getD pr.2 0 := by
  simp only [peerSet, List.mem_filterMap]
  constructor
  · rintro ⟨pr, hpr, hf⟩
    by_cases hb : r.testBit pr.1 = true
    · rw [if_pos hb] at hf
      injection hf with hf
      exact ⟨pr, hpr, hb, hf.symm⟩
    · rw [if_neg hb] at hf
      cases hf
  · rintro ⟨pr, hpr, hb, hm⟩
    exact ⟨pr, hpr, by rw [if_pos hb, hm]⟩

theorem compute_result_entry {g : Graph} {routes : List Nat} {dist : List Int}
    {kv : Nat × List Nat} (h : kv ∈ compute_result g routes dist) :
    ∃ i r, kv = (g.id2p.getD i 0, peerSet g r) := by
  simp only [compute_result, List.mem_filterMap] at h
  obtain ⟨a, _, hf⟩ := h
  by_cases hc : a.1 = g.source_id ∨ dist.getD a.1 (-1) = -1 ∨ a.2 = 0 ∨
      g.used.getD a.1 false = false
  · rw [if_pos hc] at hf
    cases hf
  · rw [if_neg hc] at hf
    injection hf with hf
    exact ⟨a.1, a.2, hf.symm⟩

theorem compute_result_lookup_some (g : Graph) (hw : GWF g) (routes : List Nat)
    (dist : List Int) (u : Nat) (hlen : routes.length = g.id2p.length)
    (hu : u < g.id2p.length) (hused : g.used.getD u false = true)
    (hnsrc : u ≠ g.source_id) (hdist : dist.getD u (-1) ≠ -1)
    (hroute : routes.getD u 0 ≠ 0) :
    (compute_result g routes dist).lookup (g.id2p.getD u 0)
      = some (peerSet g (routes.getD u 0)) := by
  apply lookup_filterMap_first _ _ (u, routes.getD u 0)
  · exact getD_mem_enum 0 (by rw [hlen]; exact hu)
  · rw [if_neg]
    push_neg
    exact ⟨hnsrc, hdist, hroute, by rw [hused]; simp⟩
  · rintro ⟨i, r⟩ hkv x hfx hx1
    have hget := enum_get?_of_mem hkv
    have hlt : i < routes.length := get?_lt_of_some hget
    have hltn : i < g.id2p.length := by rw [← hlen]; exact hlt
    by_cases hcond : i = g.source_id ∨ dist.getD i (-1) = -1 ∨ r = 0 ∨
        g.used.getD i false = false
    · rw [if_pos hcond] at hfx
      cases hfx
    · rw [if_neg hcond] at hfx
      push_neg at hcond
      obtain ⟨h1, h2, h3, h4⟩ := hcond
      have husedi : g.used.getD i false = true := by
        cases hb : g.used.getD i false
        · exact absurd hb h4
        · rfl
      injection hfx with hfx
      rw [← hfx] at hx1
      have hx2 : g.id2p.getD i 0 = g.id2p.getD u 0 := hx1
      have hget2 : routes.get? i = some r := hget
      have hik := hw.ispec i hltn husedi
      have hiu := hw.ispec u hu hused
      rw [hx2, hiu] at hik
      injection hik with hik
      have hik2 : i = u := hik.symm
      subst hik2
      have hr : r = routes.getD i 0 := (getD_of_get? 0 hget2).symm
      rw [hr]
  
theorem compute_result_lookup_none (g : Graph) (hw : GWF g) (routes : List Nat)
    (dist : List Int) (u : Nat) (hlen : routes.length = g.id2p.length)
    (hu : u < g.id2p.length) (hused : g.used.getD u false = true)
    (hskip : u = g.source_id ∨ dist.getD u (-1) = -1 ∨ routes.getD u 0 = 0) :
    (compute_result g routes dist).lookup (g.id2p.getD u 0) = none := by
  apply lookup_filterMap_none
  rintro ⟨i, r⟩ hkv x hfx
  have hget := enum_get?_of_mem hkv
  have hlt : i < routes.length := get?_lt_of_some hget
  have hltn : i < g.id2p.length := by rw [← hlen]; exact hlt
  by_cases hcond : i = g.source_id ∨ dist.getD i (-1) = -1 ∨ r = 0 ∨
      g.used.getD i false = false
  · rw [if_pos hcond] at hfx
    cases hfx
  · rw [if_neg hcond] at hfx
    push_neg at hcond
    obtain ⟨h1, h2, h3, h4⟩ := hcond
    have husedi : g.used.getD i false = true := by
      cases hb : g.used.getD i false
      · exact absurd hb h4
      · rfl
    injection hfx with hfx
    rw [← hfx]
    intro hx1
    have hx2 : g.id2p.getD i 0 = g.id2p.getD u 0 := hx1
    have hget2 : routes.get? i = some r := hget
    have hik := hw.ispec i hltn husedi
    have hiu := hw.ispec u hu hused
    rw [hx2, hiu] at hik
    injection hik with hik
    have hik2 : i = u := hik.symm
    subst hik2
    have hr : r = routes.getD i 0 := (getD_of_get? 0 hget2).symm
    rcases hskip with h | h | h
    · exact h1 h
    · exact h2 h
    · rw [hr] at h3
      exact h3 h

/-- Fold a list of peer pairs through `Graph.add_edge`. -/
def addEdges : Graph → List (Nat × Nat) → Option Graph
  | g, [] => some g
  | g, e :: es => (Graph.add_edge g e.1 e.2).bind (fun g2 => addEdges g2 es)

theorem addEdges_reachable :
    ∀ (es : List (Nat × Nat)) (g : Graph), Reachable g →
    (∀ e ∈ es, e.1 ≠ e.2) →
    ∃ g2, addEdges g es = some g2 ∧ Reachable g2 := by
  intro es
  induction es with
  | nil =>
      intro g hr _
      exact ⟨g, rfl, hr⟩
  | cons e rest ih =>
      intro g hr hne
      obtain ⟨g1, ha, -⟩ :=
        add_edge_wf (reachable_wf hr) (hne e (List.mem_cons_self _ _))
      have hr1 : Reachable g1 := Reachable.add hr ha
      obtain ⟨g2, hb, hr2⟩ := ih g1 hr1
        (fun e2 h2 => hne e2 (List.mem_cons_of_mem _ h2))
      refine ⟨g2, ?_, hr2⟩
      rw [addEdges, ha, Option.some_bind]
      exact hb

/-- The diamond graph of scenario S1: edges 0-1, 0-2, 1-3, 2-3. -/
def gS1 : Graph :=
  (addEdges (Graph.new 0) [(0, 1), (0, 2), (1, 3), (2, 3)]).getD (Graph.new 0)

theorem gS1_reachable : Reachable gS1 := by
  obtain ⟨g2, he, hr⟩ := addEdges_reachable [(0, 1), (0, 2), (1, 3), (2, 3)]
    (Graph.new 0) (Reachable.new 0) (by decide)
  show Reachable ((addEdges (Graph.new 0) [(0, 1), (0, 2), (1, 3), (2, 3)]).getD
    (Graph.new 0))
  rw [he]
  exact hr

/-- Star with `n` rays out of peer 0. -/
def starEdges (n : Nat) : List (Nat × Nat) :=
  (List.range n).map (fun k => (0, k + 1))

theorem starEdges_ne (n : Nat) : ∀ e ∈ starEdges n, e.1 ≠ e.2 := by
  intro e he
  simp only [starEdges, List.mem_map, List.mem_range] at he
  obtain ⟨k, -, hk⟩ := he
  rw [← hk]
  simp

/-- The 129-ray star: the source has 129 direct neighbors, one more than
`MAX_NUM_PEERS`. -/
def star129 : Graph :=
  (addEdges (Graph.new 0) (starEdges 129)).getD (Graph.new 0)

theorem star129_reachable : Reachable star129 := by
  obtain ⟨g2, he, hr⟩ := addEdges_reachable (starEdges 129)
    (Graph.new 0) (Reachable.new 0) (starEdges_ne 129)
  show Reachable ((addEdges (Graph.new 0) (starEdges 129)).getD (Graph.new 0))
  rw [he]
  exact hr

/-- Statement of the amended C1 contract at `g`: (a) every used non-source
node joined to the source by some walk appears in the result, keyed by its
peer, with a non-empty next-hop list whose members are all source
neighbors beginning a shortest walk to the node; (b) used nodes with no
walk from the source are absent; (c) every direct source neighbor appears
and its list contains the neighbor itself. -/
def C1Concl (g : Graph) : Prop :=
  (∀ u, u < g.id2p.length → g.used.getD u false = true → u ≠ g.source_id →
    (∃ k, pathLen g.adjacency g.source_id u k) →
    ∃ l, (calculate_distance g).lookup (g.id2p.getD u 0) = some l ∧ l ≠ [] ∧
      ∃ d : Nat, isShortest g.adjacency g.source_id u d ∧ 1 ≤ d ∧
        ∀ m ∈ l, ∃ v ∈ g.adjacency.getD g.source_id [],
          m = g.id2p.getD v 0 ∧ pathLen g.adjacency v u (d - 1)) ∧
  (∀ u, u < g.id2p.length → g.used.getD u false = true →
    (¬ ∃ k, pathLen g.adjacency g.source_id u k) →
    (calculate_distance g).lookup (g.id2p.getD u 0) = none) ∧
  (∀ v ∈ g.adjacency.getD g.source_id [],
    ∃ l, (calculate_distance g).lookup (g.id2p.getD v 0) = some l ∧
      g.id2p.getD v 0 ∈ l)

/-- C1 (amended): on every reachable graph state whose source has at most
`MAX_NUM_PEERS` direct neighbors, `calculate_distance` returns a map in
which every used peer other than the source that is joined to the source
by some walk appears with a non-empty list of direct source neighbors,
each of which starts a shortest walk to the peer; peers with no walk from
the source are absent; and every direct neighbor of the source maps to a
list containing itself.  (The cap hypothesis is needed:
`calculate_distance_claim_cex` refutes the uncapped claim.) -/
theorem calculate_distance_correct (g : Graph) (hr : Reachable g)
    (hfan : (g.adjacency.getD g.source_id []).length ≤ MAX_NUM_PEERS) :
    C1Concl g := by
  have hw := reachable_wf hr
  obtain ⟨distF, routesF, hcd, hinvF, hdlen, hrlen, hseedbit⟩ :=
    calculate_distance_split g hw hfan
  have hcompl := bfs_final_complete hinvF
  refine ⟨?_, ?_, ?_⟩
  · intro u hu hused hnsrc hex
    obtain ⟨k, hk⟩ := hex
    obtain ⟨h0, hle⟩ := hcompl k u hk
    have hne0 : distF.getD u (-1) ≠ 0 := fun hc => hnsrc (hinvF.dzero u hc)
    have hd1 : (1 : Int) ≤ distF.getD u (-1) := by omega
    have hroute := hinvF.rpos u hd1
    refine ⟨peerSet g (routesF.getD u 0), ?_, ?_, ?_⟩
    · rw [hcd]
      exact compute_result_lookup_some g hw routesF distF u hrlen hu hused
        hnsrc (by omega) hroute
    · obtain ⟨i, hbit⟩ := exists_testBit_of_ne_zero hroute
      obtain ⟨nbr, hget, -⟩ := hinvF.rbits u hd1 i hbit
      have hilt : i < (g.adjacency.getD g.source_id []).length :=
        get?_lt_of_some hget
      apply List.ne_nil_of_mem
        (a := g.id2p.getD ((g.adjacency.getD g.source_id []).getD i 0) 0)
      rw [mem_peerSet_iff]
      exact ⟨(i, (g.adjacency.getD g.source_id []).getD i 0),
        getD_mem_enum_take 0 (lt_of_lt_of_le hilt hfan) hilt, hbit, rfl⟩
    · refine ⟨(distF.getD u (-1)).toNat, ⟨?_, ?_⟩, ?_, ?_⟩
      · obtain ⟨ks, hks, hpk⟩ := hinvF.sound u h0
        have hks2 : ks = (distF.getD u (-1)).toNat := by omega
        rw [← hks2]
        exact hpk
      · intro k2 hk2
        obtain ⟨-, hle2⟩ := hcompl k2 u hk2
        omega
      · omega
      · intro m hm
        rw [mem_peerSet_iff] at hm
        obtain ⟨pr, hprmem, hprbit, hm⟩ := hm
        have hpr_enum := List.mem_of_mem_take hprmem
        have hget := enum_get?_of_mem hpr_enum
        obtain ⟨nbr2, hget2, k3, hk3, hp3⟩ := hinvF.rbits u hd1 pr.1 hprbit
        rw [hget] at hget2
        injection hget2 with hget2
        have hvmem : pr.2 ∈ g.adjacency.getD g.source_id [] := by
          apply List.mem_iff_getElem?.2
          refine ⟨pr.1, ?_⟩
          rw [← List.get?_eq_getElem?]
          exact hget
        refine ⟨pr.2, hvmem, hm, ?_⟩
        have hk3eq : k3 = (distF.getD u (-1)).toNat - 1 := by omega
        rw [← hk3eq]
        rw [← hget2] at hp3
        exact hp3
  · intro u hu hused hnr
    rw [hcd]
    apply compute_result_lookup_none g hw routesF distF u hrlen hu hused
    right
    left
    by_contra hne
    have hdn := hinvF.dneg u
    have h0 : (0 : Int) ≤ distF.getD u (-1) := by omega
    obtain ⟨ks, -, hpk⟩ := hinvF.sound u h0
    exact hnr ⟨ks, hpk⟩
  · intro v hv
    have hvlt : v < g.id2p.length := hw.alt g.source_id v hv
    have hvs : v ≠ g.source_id := by
      intro hc
      rw [hc] at hv
      exact hw.airr g.source_id hv
    have hadjv : g.adjacency.getD v [] ≠ [] :=
      List.ne_nil_of_mem (hw.asym g.source_id v hv)
    have husedv : g.used.getD v false = true :=
      (hw.uiff v hvlt).2 (Or.inr (Or.inl hadjv))
    have hpath : pathLen g.adjacency g.source_id v 1 := ⟨v, hv, rfl⟩
    obtain ⟨h0, hle⟩ := hcompl 1 v hpath
    have hne0 : distF.getD v (-1) ≠ 0 := fun hc => hvs (hinvF.dzero v hc)
    have hd1 : (1 : Int) ≤ distF.getD v (-1) := by omega
    have hroute := hinvF.rpos v hd1
    refine ⟨peerSet g (routesF.getD v 0), ?_, ?_⟩
    · rw [hcd]
      exact compute_result_lookup_some g hw routesF distF v hrlen hvlt husedv
        hvs (by omega) hroute
    · obtain ⟨i, hi⟩ := List.mem_iff_getElem?.1 hv
      have hi2 : (g.adjacency.getD g.source_id []).get? i = some v := by
        rw [List.get?_eq_getElem?]
        exact hi
      have hbit := hseedbit i v hi2
      have hilt : i < (g.adjacency.getD g.source_id []).length :=
        get?_lt_of_some hi2
      have hgd : (g.adjacency.getD g.source_id []).getD i 0 = v :=
        getD_of_get? 0 hi2
      rw [mem_peerSet_iff]
      refine ⟨(i, v), ?_, hbit, rfl⟩
      rw [← hgd]
      exact getD_mem_enum_take 0 (lt_of_lt_of_le hilt hfan) hilt

/-- A node whose only edge reaches the source directly is never
discovered by the loop: the source never enters the queue, so the only
edge that could reach the node is never relaxed. -/
theorem bfsLoop_avoid (adj : List (List Nat)) (src v : Nat) (hadj : AdjWF adj)
    (honly : adj.getD v [] = [src]) :
    ∀ (fuel : Nat) (queue : List Nat) (dist : List Int) (routes : List Nat),
    dist.length = adj.length → routes.length = adj.length →
    dist.getD src (-1) ≠ -1 → dist.getD v (-1) = -1 →
    v ∉ queue → src ∉ queue → (∀ u ∈ queue, 0 ≤ dist.getD u (-1)) →
    (bfsLoop adj fuel queue dist routes).1.getD v (-1) = -1 := by
  intro fuel
  induction fuel with
  | zero =>
      intro queue dist routes _ _ _ hv _ _ _
      rw [bfsLoop]
      exact hv
  | succ fuel ih =>
      intro queue dist routes hdl hrl hsrc hv hvq hsq hq0
      cases queue with
      | nil =>
          rw [bfsLoop]
          exact hv
      | cons cur rest =>
          have hcur0 := hq0 cur (List.mem_cons_self _ _)
          have hcurs : cur ≠ src := fun hc => hsq (hc ▸ List.mem_cons_self _ _)
          obtain ⟨hnb, hnirr, hnnd⟩ := hadj cur
          obtain ⟨dist2, routes2, heq, hdl2, hrl2, hdout, hdin, hrout, hrin, -⟩ :=
            relax_spec cur (dist.getD cur (-1)) hcur0 (adj.getD cur [])
              dist routes rest hnirr hnnd
              (fun w hw => by rw [hdl]; exact (hnb w hw).1)
              (fun w hw => by rw [hrl]; exact (hnb w hw).1)
          have hstep : bfsLoop adj (fuel + 1) (cur :: rest) dist routes
              = bfsLoop adj fuel
                  (rest ++ (adj.getD cur []).filter
                    (fun w => decide (dist.getD w (-1) = -1)))
                  dist2 routes2 := by
            simp only [bfsLoop]
            rw [heq]
          have hvn : v ∉ adj.getD cur [] := by
            intro hc
            have h2 := (hadj cur).1 v hc
            rw [honly] at h2
            have h3 : cur = src := by
              rcases List.mem_cons.1 h2.2 with h | h
              · exact h
              · cases h
            exact hcurs h3
          rw [hstep]
          apply ih
          · rw [hdl2, hdl]
          · rw [hrl2, hrl]
          · by_cases hs : src ∈ adj.getD cur []
            · rw [hdin src hs, if_neg hsrc]
              exact hsrc
            · rw [hdout src hs]
              exact hsrc
          · rw [hdout v hvn]
            exact hv
          · intro hc
            rcases List.mem_append.1 hc with h | h
            · exact hvq (List.mem_cons_of_mem _ h)
            · exact hvn (List.mem_filter.1 h).1
          · intro hc
            rcases List.mem_append.1 hc with h | h
            · exact hsq (List.mem_cons_of_mem _ h)
            · exact hsrc (of_decide_eq_true (List.mem_filter.1 h).2)
          · intro u hu
            rcases List.mem_append.1 hu with h | h
            · have h0 := hq0 u (List.mem_cons_of_mem _ h)
              by_cases hun : u ∈ adj.getD cur []
              · rw [hdin u hun]
                by_cases hneg : dist.getD u (-1) = -1
                · rw [if_pos hneg]
                  omega
                · rw [if_neg hneg]
                  exact h0
              · rw [hdout u hun]
                exact h0
            · obtain ⟨hmem, hneg⟩ := List.mem_filter.1 h
              rw [hdin u hmem, if_pos (of_decide_eq_true hneg)]
              omega

/-- A source neighbor sitting at enumeration position `MAX_NUM_PEERS` or
later, whose only edge is the one back to the source, is silently absent
from the result of `calculate_distance`: the seeding loop never reaches
it and the main loop cannot discover it. -/
theorem calculate_distance_overflow (g : Graph) (hw : GWF g) (i v : Nat)
    (hi : MAX_NUM_PEERS ≤ i)
    (hv : (g.adjacency.getD g.source_id []).get? i = some v)
    (honly : g.adjacency.getD v [] = [g.source_id]) :
    (calculate_distance g).lookup (g.id2p.getD v 0) = none := by
  have hvmem : v ∈ g.adjacency.getD g.source_id [] := by
    apply List.mem_iff_getElem?.2
    exact ⟨i, by rw [← List.get?_eq_getElem?]; exact hv⟩
  have hvlt : v < g.id2p.length := hw.alt g.source_id v hvmem
  have hvs : v ≠ g.source_id := by
    intro hc
    rw [hc] at hvmem
    exact hw.airr g.source_id hvmem
  have husedv : g.used.getD v false = true :=
    (hw.uiff v hvlt).2 (Or.inr (Or.inl (List.ne_nil_of_mem
      (hw.asym g.source_id v hvmem))))
  have hsrclt : g.source_id < g.id2p.length := by
    rw [hw.src]
    exact hw.npos
  have hd0src : ((List.replicate g.id2p.length (-1 : Int)).set g.source_id 0).getD
      g.source_id (-1) = 0 :=
    getD_set_self _ _ _ _ (by rw [List.length_replicate]; exact hsrclt)
  have hd0other : ∀ x, x ≠ g.source_id →
      ((List.replicate g.id2p.length (-1 : Int)).set g.source_id 0).getD x (-1)
        = -1 := by
    intro x hx
    rw [getD_set_other _ _ _ _ _ hx, getD_replicate]
  have hsndtake : ((g.adjacency.getD g.source_id []).enum.take
      MAX_NUM_PEERS).map Prod.snd
      = (g.adjacency.getD g.source_id []).take MAX_NUM_PEERS := by
    rw [List.map_take, List.enum_map_snd]
  obtain ⟨dist1, routes1, hseedeq, hdl1, hrl1, hout1, hin1⟩ :=
    seedFold_spec ((g.adjacency.getD g.source_id []).enum.take MAX_NUM_PEERS)
      ((List.replicate g.id2p.length (-1 : Int)).set g.source_id 0)
      (List.replicate g.id2p.length (0 : Nat)) []
      (by
        rw [hsndtake]
        exact (hw.anodup g.source_id).sublist (List.take_sublist _ _))
      (by
        intro pr hpr
        have hmem : pr.2 ∈ g.adjacency.getD g.source_id [] := by
          rw [← List.enum_map_snd (g.adjacency.getD g.source_id [])]
          exact List.mem_map_of_mem _ (List.mem_of_mem_take hpr)
        have h2 := hw.alt g.source_id pr.2 hmem
        constructor
        · rw [List.length_set, List.length_replicate]
          exact h2
        · rw [List.length_replicate]
          exact h2)
  have hseedeq2 : seedFold ((g.adjacency.getD g.source_id []).enum.take
        MAX_NUM_PEERS)
      ((List.replicate g.id2p.length (-1 : Int)).set g.source_id 0)
      (List.replicate g.id2p.length (0 : Nat)) []
      = (dist1, routes1,
        ((g.adjacency.getD g.source_id []).enum.take MAX_NUM_PEERS).map
          Prod.snd) := by
    rw [hseedeq, List.nil_append]
  have hvnotseed : v ∉ ((g.adjacency.getD g.source_id []).enum.take
      MAX_NUM_PEERS).map Prod.snd := by
    rw [hsndtake]
    intro hc
    obtain ⟨j, hj⟩ := List.mem_iff_getElem?.1 hc
    have hjlt : j < MAX_NUM_PEERS := by
      have := get?_lt_of_some (by rw [List.get?_eq_getElem?]; exact hj)
      have h2 : ((g.adjacency.getD g.source_id []).take MAX_NUM_PEERS).length
          ≤ MAX_NUM_PEERS := by
        rw [List.length_take]
        omega
      omega
    have hj2 : (g.adjacency.getD g.source_id [])[j]? = some v := by
      rw [← List.getElem?_take_of_lt hjlt]
      exact hj
    have hvi : (g.adjacency.getD g.source_id [])[i]? = some v := by
      rw [← List.get?_eq_getElem?]
      exact hv
    have hilt : i < (g.adjacency.getD g.source_id []).length := get?_lt_of_some hv
    have hij : i = j :=
      List.getElem?_inj hilt (hw.anodup g.source_id) (by rw [hvi, hj2])
    omega
  have hsrcnotseed : g.source_id ∉ ((g.adjacency.getD g.source_id []).enum.take
      MAX_NUM_PEERS).map Prod.snd := by
    rw [hsndtake]
    intro hc
    exact hw.airr g.source_id (List.mem_of_mem_take hc)
  have havoid := bfsLoop_avoid g.adjacency g.source_id v (GWF_adjWF hw) honly
    (3 * g.id2p.length + 1)
    (((g.adjacency.getD g.source_id []).enum.take MAX_NUM_PEERS).map Prod.snd)
    dist1 routes1
    (by rw [hdl1, List.length_set, List.length_replicate, hw.alen])
    (by rw [hrl1, List.length_replicate, hw.alen])
    (by
      rw [(hout1 g.source_id hsrcnotseed).1, hd0src]
      omega)
    (by rw [(hout1 v hvnotseed).1, hd0other v hvs])
    hvnotseed
    hsrcnotseed
    (by
      intro u hu
      obtain ⟨pr, hpr, hpru⟩ := List.mem_map.1 hu
      rw [← hpru, (hin1 pr hpr).1]
      omega)
  have hlens := bfsLoop_lengths g.adjacency (3 * g.id2p.length + 1)
    (((g.adjacency.getD g.source_id []).enum.take MAX_NUM_PEERS).map Prod.snd)
    dist1 routes1
  have hcd : calculate_distance g = compute_result g
      (bfsLoop g.adjacency (3 * g.id2p.length + 1)
        (((g.adjacency.getD g.source_id []).enum.take MAX_NUM_PEERS).map
          Prod.snd) dist1 routes1).2
      (bfsLoop g.adjacency (3 * g.id2p.length + 1)
        (((g.adjacency.getD g.source_id []).enum.take MAX_NUM_PEERS).map
          Prod.snd) dist1 routes1).1 := by
    show compute_result g
        (bfsLoop g.adjacency (3 * g.id2p.length + 1)
          (seedFold ((g.adjacency.getD g.source_id []).enum.take MAX_NUM_PEERS)
            ((List.replicate g.id2p.length (-1 : Int)).set g.source_id 0)
            (List.replicate g.id2p.length (0 : Nat)) []).2.2
          (seedFold ((g.adjacency.getD g.source_id []).enum.take MAX_NUM_PEERS)
            ((List.replicate g.id2p.length (-1 : Int)).set g.source_id 0)
            (List.replicate g.id2p.length (0 : Nat)) []).1
          (seedFold ((g.adjacency.getD g.source_id []).enum.take MAX_NUM_PEERS)
            ((List.replicate g.id2p.length (-1 : Int)).set g.source_id 0)
            (List.replicate g.id2p.length (0 : Nat)) []).2.1).2
        (bfsLoop g.adjacency (3 * g.id2p.length + 1)
          (seedFold ((g.adjacency.getD g.source_id []).enum.take MAX_NUM_PEERS)
            ((List.replicate g.id2p.length (-1 : Int)).set g.source_id 0)
            (List.replicate g.id2p.length (0 : Nat)) []).2.2
          (seedFold ((g.adjacency.getD g.source_id []).enum.take MAX_NUM_PEERS)
            ((List.replicate g.id2p.length (-1 : Int)).set g.source_id 0)
            (List.replicate g.id2p.length (0 : Nat)) []).1
          (seedFold ((g.adjacency.getD g.source_id []).enum.take MAX_NUM_PEERS)
            ((List.replicate g.id2p.length (-1 : Int)).set g.source_id 0)
            (List.replicate g.id2p.length (0 : Nat)) []).2.1).1
      = _
    rw [hseedeq2]
  rw [hcd]
  apply compute_result_lookup_none g hw _ _ v
    (by rw [hlens.2, hrl1, List.length_replicate])
    hvlt husedv
  right
  left
  exact havoid

/-- Every next-hop appearing anywhere in a `compute_result` value is the
peer of one of the first `MAX_NUM_PEERS` enumerated source neighbors. -/
theorem compute_result_cap (g : Graph) (routes : List Nat) (dist : List Int) :
    ∀ kv ∈ compute_result g routes dist, ∀ m ∈ kv.2,
      ∃ pr ∈ (g.adjacency.getD g.source_id []).enum.take MAX_NUM_PEERS,
        m = g.id2p.getD pr.2 0 := by
  intro kv hkv m hm
  obtain ⟨i, r, hkveq⟩ := compute_result_entry hkv
  have hm2 : m ∈ peerSet g r := by
    rw [hkveq] at hm
    exact hm
  rw [mem_peerSet_iff] at hm2
  obtain ⟨pr, hprm, -, hmeq⟩ := hm2
  exact ⟨pr, hprm, hmeq⟩

/-- Statement of the amended C3 claim at `g`: every next-hop in the
result of `calculate_distance` comes from the first `MAX_NUM_PEERS`
enumerated source neighbors, and a source neighbor at enumeration
position `MAX_NUM_PEERS` or later whose only edge is the one back to the
source is absent from the result (rather than appearing at distance 1 as
the original claim said). -/
def C3Concl (g : Graph) : Prop :=
  (∀ kv ∈ calculate_distance g, ∀ m ∈ kv.2,
    ∃ pr ∈ (g.adjacency.getD g.source_id []).enum.take MAX_NUM_PEERS,
      m = g.id2p.getD pr.2 0) ∧
  (∀ i v, MAX_NUM_PEERS ≤ i →
    (g.adjacency.getD g.source_id []).get? i = some v →
    g.adjacency.getD v [] = [g.source_id] →
    (calculate_distance g).lookup (g.id2p.getD v 0) = none)

/-- C3 (amended): only the first `MAX_NUM_PEERS` enumerated source
neighbors ever contribute next hops, and an overflow neighbor whose only
edge is to the source is dropped from the result entirely; the original
claim that overflow neighbors "still appear as reachable at distance 1"
is refuted by `routes_cap_claim_cex`. -/
theorem routes_cap_amended (g : Graph) (hr : Reachable g) : C3Concl g := by
  have hw := reachable_wf hr
  constructor
  · intro kv hkv m hm
    have hkv2 : kv ∈ compute_result g
        (bfsLoop g.adjacency (3 * g.id2p.length + 1)
          (seedFold ((g.adjacency.getD g.source_id []).enum.take MAX_NUM_PEERS)
            ((List.replicate g.id2p.length (-1 : Int)).set g.source_id 0)
            (List.replicate g.id2p.length (0 : Nat)) []).2.2
          (seedFold ((g.adjacency.getD g.source_id []).enum.take MAX_NUM_PEERS)
            ((List.replicate g.id2p.length (-1 : Int)).set g.source_id 0)
            (List.replicate g.id2p.length (0 : Nat)) []).1
          (seedFold ((g.adjacency.getD g.source_id []).enum.take MAX_NUM_PEERS)
            ((List.replicate g.id2p.length (-1 : Int)).set g.source_id 0)
            (List.replicate g.id2p.length (0 : Nat)) []).2.1).2
        (bfsLoop g.adjacency (3 * g.id2p.length + 1)
          (seedFold ((g.adjacency.getD g.source_id []).enum.take MAX_NUM_PEERS)
            ((List.replicate g.id2p.length (-1 : Int)).set g.source_id 0)
            (List.replicate g.id2p.length (0 : Nat)) []).2.2
          (seedFold ((g.adjacency.getD g.source_id []).enum.take MAX_NUM_PEERS)
            ((List.replicate g.id2p.length (-1 : Int)).set g.source_id 0)
            (List.replicate g.id2p.length (0 : Nat)) []).1
          (seedFold ((g.adjacency.getD g.source_id []).enum.take MAX_NUM_PEERS)
            ((List.replicate g.id2p.length (-1 : Int)).set g.source_id 0)
            (List.replicate g.id2p.length (0 : Nat)) []).2.1).1 := hkv
    exact compute_result_cap g _ _ kv hkv2 m hm
  · intro i v hi hv honly
    exact calculate_distance_overflow g hw i v hi hv honly

set_option maxRecDepth 10000 in
/-- C1: counterexample to the claim as stated, with no cap on the source
fan-out.  In the reachable 129-ray star the node with id 129 (the 129th
neighbor, enumeration position 128) is a used non-source peer one edge
away from the source, yet it is absent from the result of
`calculate_distance`. -/
theorem calculate_distance_claim_cex :
    Reachable star129 ∧ 129 < star129.id2p.length ∧
    star129.used.getD 129 false = true ∧ (129 : Nat) ≠ star129.source_id ∧
    pathLen star129.adjacency star129.source_id 129 1 ∧
    (calculate_distance star129).lookup (star129.id2p.getD 129 0) = none :=
  ⟨star129_reachable, by decide, by decide, by decide, by decide, by decide⟩

set_option maxRecDepth 10000 in
/-- Witness for C1 (amended) at the diamond graph of scenario S1. -/
theorem calculate_distance_correct_witness :
    Reachable gS1 ∧
    (gS1.adjacency.getD gS1.source_id []).length ≤ MAX_NUM_PEERS ∧
    C1Concl gS1 :=
  ⟨gS1_reachable, by decide,
    calculate_distance_correct gS1 gS1_reachable (by decide)⟩

set_option maxRecDepth 10000 in
/-- C3: counterexample to the claim that overflow neighbors "still appear
as reachable at distance 1".  In the reachable 129-ray star the source
has 129 direct neighbors; the neighbor at enumeration position 128 is one
edge from the source but does not appear in the result at all. -/
theorem routes_cap_claim_cex :
    Reachable star129 ∧
    129 ≤ (star129.adjacency.getD star129.source_id []).length ∧
    (star129.adjacency.getD star129.source_id []).get? 128 = some 129 ∧
    pathLen star129.adjacency star129.source_id 129 1 ∧
    (calculate_distance star129).lookup (star129.id2p.getD 129 0) = none :=
  ⟨star129_reachable, by decide, by decide, by decide, by decide⟩

/-- Witness for C3 (amended) at the 129-ray star. -/
theorem routes_cap_amended_witness :
    Reachable star129 ∧ C3Concl star129 :=
  ⟨star129_reachable, routes_cap_amended star129 star129_reachable⟩

/-! ## PeerStore (`peer_store.rs`)

Peers and socket addresses are numbered; the on-disk Peers column is an
association list threaded through the store, with `save_to_db` as upsert
and row deletion as erase.  `HashMap` is an association list with
`lookup` / `upsert` / `erase` / `modifyAt` as the map operations.  The
random sampling helpers (`find_peers` and friends) only read the state
and are not modelled. -/

/-- Trust level of a `(PeerId, Addr)` pair. -/
inductive TrustLevel : Type
  | Indirect
  | Direct
  | Signed
deriving DecidableEq, Repr

/-- Modelled peer descriptor (`account_id` is never consulted). -/
structure PeerInfo : Type where
  id : Nat
  addr : Option Nat
deriving DecidableEq, Repr

/-- Status of a known peer. -/
inductive KnownPeerStatus : Type
  | Unknown
  | NotConnected
  | Connected
  | Banned (reason : Nat) (ts : Nat)
deriving DecidableEq, Repr

/-- Model of `KnownPeerStatus::is_banned`. -/
def KnownPeerStatus.is_banned : KnownPeerStatus → Bool
  | .Banned _ _ => true
  | _ => false

/-- State kept per known peer. -/
structure KnownPeerState : Type where
  peer_info : PeerInfo
  first_seen : Nat
  last_seen : Nat
  status : KnownPeerStatus
deriving DecidableEq, Repr

/-- Modelled from the spec: a freshly created `KnownPeerState` records the
peer info, sets both timestamps to the current time, and starts at status
`Unknown` (the type lives in `near_network_primitives`, outside this
repository). -/
def KnownPeerState.new (info : PeerInfo) (now : Nat) : KnownPeerState :=
  { peer_info := info, first_seen := now, last_seen := now,
    status := KnownPeerStatus.Unknown }

/-- Reverse-index entry of `addr_peers`. -/
structure VerifiedPeer : Type where
  peer_id : Nat
  trust_level : TrustLevel
deriving DecidableEq, Repr

/-- Model of `VerifiedPeer::new`. -/
def VerifiedPeer.new (pid : Nat) : VerifiedPeer :=
  { peer_id := pid, trust_level := TrustLevel.Indirect }

/-- Model of `VerifiedPeer::signed`. -/
def VerifiedPeer.signed (pid : Nat) : VerifiedPeer :=
  { peer_id := pid, trust_level := TrustLevel.Signed }

/-- The peer store: the persisted Peers column, the peer map, and the
reverse address index. -/
structure PeerStore : Type where
  store : List (Nat × KnownPeerState)
  peer_states : List (Nat × KnownPeerState)
  addr_peers : List (Nat × VerifiedPeer)
deriving DecidableEq, Repr

/-- Model of `PeerStore::save_to_db` followed by commit: one row upsert. -/
def save_to_db (store : List (Nat × KnownPeerState)) (pid : Nat)
    (s : KnownPeerState) : List (Nat × KnownPeerState) :=
  upsert store pid s

/-- Model of `PeerStore::touch`: write the peer's current state through to
disk if it is known. -/
def PeerStore.touch (st : PeerStore) (pid : Nat) : PeerStore :=
  match st.peer_states.lookup pid with
  | some s => { st with store := save_to_db st.store pid s }
  | none => st

/-- First block of `update_peer_info`: if a peer currently owns the target
address, drop the reverse-index entry and clear that peer's address. -/
def PeerStore.unbind_addr (st : PeerStore) (peer_addr : Nat) : PeerStore :=
  match st.addr_peers.lookup peer_addr with
  | some vp =>
      { st with
        addr_peers := erase st.addr_peers peer_addr,
        peer_states := modifyAt st.peer_states vp.peer_id
          (fun s => { s with peer_info := { s.peer_info with addr := none } }) }
  | none => st

/-- Second block of `update_peer_info`: if the target peer already has an
address, take it and drop its reverse-index entry. -/
def PeerStore.unbind_id (st : PeerStore) (pid : Nat) : PeerStore :=
  match st.peer_states.lookup pid with
  | some s =>
      match s.peer_info.addr with
      | some cur_addr =>
          { st with
            peer_states := modifyAt st.peer_states pid
              (fun s2 => { s2 with
                peer_info := { s2.peer_info with addr := none } }),
            addr_peers := erase st.addr_peers cur_addr }
      | none => st
  | none => st

/-- Third block of `update_peer_info`: install the new pair on both sides
(`insert` into the index, `and_modify().or_insert_with()` on the map). -/
def PeerStore.bind_pair (st : PeerStore) (now : Nat) (info : PeerInfo)
    (peer_addr : Nat) (trust : TrustLevel) : PeerStore :=
  { st with
    addr_peers := upsert st.addr_peers peer_addr
      { peer_id := info.id, trust_level := trust },
    peer_states :=
      match st.peer_states.lookup info.id with
      | some _ => modifyAt st.peer_states info.id
          (fun s2 => { s2 with
            peer_info := { s2.peer_info with addr := some peer_addr } })
      | none => upsert st.peer_states info.id (KnownPeerState.new info now) }

/-- Model of `PeerStore::update_peer_info`: unbind the address, unbind the
peer's old address, bind the new pair, then write the touched peers
through to disk (`touch_other` is the id recorded by the first block's
`and_modify`). -/
def PeerStore.update_peer_info (st : PeerStore) (now : Nat) (info : PeerInfo)
    (peer_addr : Nat) (trust : TrustLevel) : PeerStore :=
  let touch_other : Option Nat :=
    match st.addr_peers.lookup peer_addr with
    | some vp => (st.peer_states.lookup vp.peer_id).map
        (fun s => s.peer_info.id)
    | none => none
  let st3 := ((st.unbind_addr peer_addr).unbind_id info.id).bind_pair
    now info peer_addr trust
  let st4 := st3.touch info.id
  match touch_other with
  | some q => st4.touch q
  | none => st4

/-- Model of the private `is_peer_trusted` check inside
`PeerStore::add_peer` for `TrustLevel::Direct`. -/
def PeerStore.is_peer_trusted (st : PeerStore) (pid : Nat) : Bool :=
  match st.peer_states.lookup pid with
  | none => false
  | some s =>
      match s.peer_info.addr with
      | none => false
      | some cur =>
          match st.addr_peers.lookup cur with
          | none => false
          | some vp => vp.trust_level = TrustLevel.Signed

/-- Model of `PeerStore::add_peer`. -/
def PeerStore.add_peer (st : PeerStore) (now : Nat) (info : PeerInfo)
    (trust : TrustLevel) : PeerStore :=
  match info.addr with
  | some peer_addr =>
      match trust with
      | TrustLevel.Signed =>
          st.update_peer_info now info peer_addr TrustLevel.Signed
      | TrustLevel.Direct =>
          if st.is_peer_trusted info.id then st
          else st.update_peer_info now info peer_addr TrustLevel.Direct
      | TrustLevel.Indirect =>
          if st.peer_states.lookup info.id = none ∧
              st.addr_peers.lookup peer_addr = none then
            st.update_peer_info now info peer_addr TrustLevel.Indirect
          else st
  | none =>
      if st.peer_states.lookup info.id = none then
        { st with peer_states := (upsert st.peer_states info.id
            (KnownPeerState.new info now)) }
      else st

/-- Model of `PeerStore::peer_connected`; the `unwrap` after the trusted
add is a panic point, modelled as `none`. -/
def PeerStore.peer_connected (st : PeerStore) (now : Nat) (info : PeerInfo) :
    Option PeerStore :=
  match (st.add_peer now info TrustLevel.Signed).peer_states.lookup info.id with
  | none => none
  | some _ =>
      some (({ st.add_peer now info TrustLevel.Signed with
        peer_states := (modifyAt
          (st.add_peer now info TrustLevel.Signed).peer_states info.id
          (fun s => { s with
            last_seen := now,
            status := KnownPeerStatus.Connected })) }).touch info.id)

/-- Model of `PeerStore::peer_disconnected` (`none` is the `Err` return on
an unknown peer, which leaves the state unchanged). -/
def PeerStore.peer_disconnected (st : PeerStore) (now : Nat) (pid : Nat) :
    Option PeerStore :=
  match st.peer_states.lookup pid with
  | none => none
  | some _ =>
      let st2 := { st with peer_states := (modifyAt st.peer_states pid
        (fun s => { s with
          last_seen := now,
          status := KnownPeerStatus.NotConnected })) }
      some (st2.touch pid)

/-- Model of `PeerStore::peer_ban`. -/
def PeerStore.peer_ban (st : PeerStore) (now : Nat) (pid : Nat)
    (reason : Nat) : Option PeerStore :=
  match st.peer_states.lookup pid with
  | none => none
  | some _ =>
      let st2 := { st with peer_states := (modifyAt st.peer_states pid
        (fun s => { s with
          last_seen := now,
          status := KnownPeerStatus.Banned reason now })) }
      some (st2.touch pid)

/-- Model of `PeerStore::peer_unban` (does not touch `last_seen`). -/
def PeerStore.peer_unban (st : PeerStore) (pid : Nat) : Option PeerStore :=
  match st.peer_states.lookup pid with
  | none => none
  | some _ =>
      let st2 := { st with peer_states := (modifyAt st.peer_states pid
        (fun s => { s with status := KnownPeerStatus.NotConnected })) }
      some (st2.touch pid)

/-- Model of `PeerStore::remove_expired`: collect the expired
not-connected peers, then remove each from the peer map and delete its
disk row.  The `(now - last_seen).to_std()?` conversion errors out on a
negative difference in Rust; here the truncated `Nat` difference makes
such a peer simply non-expired. -/
def PeerStore.remove_expired (st : PeerStore) (now : Nat)
    (expiration : Nat) : PeerStore :=
  let to_remove := (st.peer_states.filter
    (fun kv => kv.2.status ≠ KnownPeerStatus.Connected ∧
      expiration < now - kv.2.last_seen)).map Prod.fst
  { st with
    peer_states := to_remove.foldl (fun l pid => erase l pid) st.peer_states,
    store := to_remove.foldl (fun l pid => erase l pid) st.store }

/-- One boot-node step of `PeerStore::new` on the pair of maps under
construction. -/
def bootStep (now : Nat) (maps : List (Nat × KnownPeerState) ×
    List (Nat × VerifiedPeer)) (info : PeerInfo) :
    List (Nat × KnownPeerState) × List (Nat × VerifiedPeer) :=
  if maps.1.lookup info.id = none then
    match info.addr with
    | some peer_addr =>
        match maps.2.lookup peer_addr with
        | some _ => maps
        | none =>
            (upsert maps.1 info.id (KnownPeerState.new info now),
              upsert maps.2 peer_addr (VerifiedPeer.signed info.id))
    | none => maps
  else maps

/-- Reset applied to every loaded row: keep the peer info and first-seen
time, stamp `last_seen` with the load time, and reset the status to
`NotConnected` unless it is a preserved ban. -/
def resetState (now : Nat) (s : KnownPeerState) : KnownPeerState :=
  { peer_info := s.peer_info, first_seen := s.first_seen, last_seen := now,
    status := if s.status.is_banned then s.status
      else KnownPeerStatus.NotConnected }

/-- One persisted-row step of `PeerStore::new`: reset timestamps/status,
then either propagate a ban onto an existing (boot) entry or load the row
if its address is free. -/
def loadStep (now : Nat) (maps : List (Nat × KnownPeerState) ×
    List (Nat × VerifiedPeer)) (row : Nat × KnownPeerState) :
    List (Nat × KnownPeerState) × List (Nat × VerifiedPeer) :=
  match maps.1.lookup row.1 with
  | some _ =>
      if (resetState now row.2).status.is_banned then
        (modifyAt maps.1 row.1
          (fun s => { s with status := (resetState now row.2).status }),
          maps.2)
      else maps
  | none =>
      match (resetState now row.2).peer_info.addr with
      | some peer_addr =>
          match maps.2.lookup peer_addr with
          | none =>
              (upsert maps.1 row.1 (resetState now row.2),
                upsert maps.2 peer_addr
                  (VerifiedPeer.new (resetState now row.2).peer_info.id))
          | some _ => maps
      | none => maps

/-- Model of `PeerStore::new`: install the boot nodes, then fold the
persisted rows over the two maps; the store handle is kept as-is (the
constructor performs no writes). -/
def PeerStore.new (now : Nat) (boot_nodes : List PeerInfo)
    (store : List (Nat × KnownPeerState)) : PeerStore :=
  let maps1 := boot_nodes.foldl (bootStep now) ([], [])
  let maps2 := store.foldl (loadStep now) maps1
  { store := store, peer_states := maps2.1, addr_peers := maps2.2 }

/-- Forward half of the symmetric-index invariant on the two maps: every
peer holding an address is indexed back to itself. -/
def P1a (states : List (Nat × KnownPeerState))
    (index : List (Nat × VerifiedPeer)) : Prop :=
  ∀ id s a, states.lookup id = some s → s.peer_info.addr = some a →
    ∃ vp, index.lookup a = some vp ∧ vp.peer_id = id

/-- Reverse half: every indexed address points at a peer holding it. -/
def P1b (states : List (Nat × KnownPeerState))
    (index : List (Nat × VerifiedPeer)) : Prop :=
  ∀ a vp, index.lookup a = some vp →
    ∃ s, states.lookup vp.peer_id = some s ∧ s.peer_info.addr = some a

/-- The symmetric-index invariant P1 of a peer store. -/
def P1 (st : PeerStore) : Prop :=
  P1a st.peer_states st.addr_peers ∧ P1b st.peer_states st.addr_peers

theorem touch_fields (st : PeerStore) (pid : Nat) :
    (st.touch pid).peer_states = st.peer_states ∧
    (st.touch pid).addr_peers = st.addr_peers := by
  unfold PeerStore.touch
  cases st.peer_states.lookup pid with
  | none => exact ⟨rfl, rfl⟩
  | some s => exact ⟨rfl, rfl⟩

theorem P1_touch {st : PeerStore} (pid : Nat) (h : P1 st) : P1 (st.touch pid) := by
  obtain ⟨h1, h2⟩ := touch_fields st pid
  rw [P1, h1, h2]
  exact h

/-- Binding a fresh pair on both sides preserves P1, provided the address
is unbound and the peer is unknown. -/
theorem P1_insert_pair {states : List (Nat × KnownPeerState)}
    {index : List (Nat × VerifiedPeer)} (h : P1a states index ∧ P1b states index)
    (pid a : Nat) (s : KnownPeerState) (vp : VerifiedPeer)
    (hsa : s.peer_info.addr = some a) (hvp : vp.peer_id = pid)
    (hfree : index.lookup a = none) (hpid : states.lookup pid = none) :
    P1a (upsert states pid s) (upsert index a vp) ∧
    P1b (upsert states pid s) (upsert index a vp) := by
  constructor
  · intro id s2 a2 hl hs2
    rw [lookup_upsert] at hl
    by_cases hid : id = pid
    · rw [if_pos hid] at hl
      injection hl with hl
      rw [← hl, hsa] at hs2
      injection hs2 with hs2
      refine ⟨vp, ?_, by rw [hvp, hid]⟩
      rw [lookup_upsert, if_pos hs2.symm]
    · rw [if_neg hid] at hl
      obtain ⟨vp2, hvp2, hvpid⟩ := h.1 id s2 a2 hl hs2
      have hne : a2 ≠ a := by
        intro hc
        rw [hc, hfree] at hvp2
        cases hvp2
      refine ⟨vp2, ?_, hvpid⟩
      rw [lookup_upsert, if_neg hne]
      exact hvp2
  · intro a2 vp2 hl
    rw [lookup_upsert] at hl
    by_cases ha2 : a2 = a
    · rw [if_pos ha2] at hl
      injection hl with hl
      rw [← hl, hvp]
      refine ⟨s, ?_, by rw [hsa, ha2]⟩
      rw [lookup_upsert, if_pos rfl]
    · rw [if_neg ha2] at hl
      obtain ⟨s2, hs2, hs2a⟩ := h.2 a2 vp2 hl
      have hne : vp2.peer_id ≠ pid := by
        intro hc
        rw [hc, hpid] at hs2
        cases hs2
      refine ⟨s2, ?_, hs2a⟩
      rw [lookup_upsert, if_neg hne]
      exact hs2

/-- Modifying entries without changing `peer_info` preserves both halves
of P1. -/
theorem P1_modify_keep_info {states : List (Nat × KnownPeerState)}
    {index : List (Nat × VerifiedPeer)} (h : P1a states index ∧ P1b states index)
    (pid : Nat) (f : KnownPeerState → KnownPeerState)
    (hf : ∀ s, (f s).peer_info = s.peer_info) :
    P1a (modifyAt states pid f) index ∧ P1b (modifyAt states pid f) index := by
  constructor
  · intro id s2 a2 hl hs2
    rw [lookup_modifyAt] at hl
    by_cases hid : id = pid
    · rw [if_pos hid] at hl
      cases hlo : states.lookup pid with
      | none =>
          rw [hlo] at hl
          cases hl
      | some s0 =>
          rw [hlo] at hl
          injection hl with hl
          rw [← hl, hf s0] at hs2
          exact hid ▸ h.1 pid s0 a2 hlo hs2
    · rw [if_neg hid] at hl
      exact h.1 id s2 a2 hl hs2
  · intro a2 vp2 hl
    obtain ⟨s2, hs2, hs2a⟩ := h.2 a2 vp2 hl
    rw [lookup_modifyAt]
    by_cases hid : vp2.peer_id = pid
    · rw [hid] at hs2
      rw [if_pos hid, hs2]
      exact ⟨f s2, rfl, by rw [hf s2]; exact hs2a⟩
    · rw [if_neg hid]
      exact ⟨s2, hs2, hs2a⟩

theorem unbind_addr_eq_none (st : PeerStore) (A : Nat)
    (hA : st.addr_peers.lookup A = none) : st.unbind_addr A = st := by
  unfold PeerStore.unbind_addr
  rw [hA]

theorem unbind_addr_eq_some (st : PeerStore) (A : Nat) (vp : VerifiedPeer)
    (hA : st.addr_peers.lookup A = some vp) :
    st.unbind_addr A = { st with
      addr_peers := erase st.addr_peers A,
      peer_states := (modifyAt st.peer_states vp.peer_id
        (fun s => { s with peer_info := { s.peer_info with addr := none } })) } := by
  unfold PeerStore.unbind_addr
  rw [hA]

theorem unbind_id_eq_none (st : PeerStore) (pid : Nat)
    (hs : st.peer_states.lookup pid = none) : st.unbind_id pid = st := by
  unfold PeerStore.unbind_id
  rw [hs]

theorem unbind_id_eq_noaddr (st : PeerStore) (pid : Nat) (s : KnownPeerState)
    (hs : st.peer_states.lookup pid = some s) (ha : s.peer_info.addr = none) :
    st.unbind_id pid = st := by
  unfold PeerStore.unbind_id
  simp only [hs, ha]

theorem unbind_id_eq_some (st : PeerStore) (pid : Nat) (s : KnownPeerState)
    (cur : Nat) (hs : st.peer_states.lookup pid = some s)
    (ha : s.peer_info.addr = some cur) :
    st.unbind_id pid = { st with
      peer_states := (modifyAt st.peer_states pid
        (fun s2 => { s2 with peer_info := { s2.peer_info with addr := none } })),
      addr_peers := erase st.addr_peers cur } := by
  unfold PeerStore.unbind_id
  simp only [hs, ha]

theorem bind_pair_eq_new (st : PeerStore) (now : Nat) (info : PeerInfo)
    (A : Nat) (trust : TrustLevel)
    (hl : st.peer_states.lookup info.id = none) :
    st.bind_pair now info A trust = { st with
      addr_peers := (upsert st.addr_peers A
        { peer_id := info.id, trust_level := trust }),
      peer_states := (upsert st.peer_states info.id
        (KnownPeerState.new info now)) } := by
  unfold PeerStore.bind_pair
  rw [hl]

theorem bind_pair_eq_mod (st : PeerStore) (now : Nat) (info : PeerInfo)
    (A : Nat) (trust : TrustLevel) (s : KnownPeerState)
    (hl : st.peer_states.lookup info.id = some s) :
    st.bind_pair now info A trust = { st with
      addr_peers := (upsert st.addr_peers A
        { peer_id := info.id, trust_level := trust }),
      peer_states := (modifyAt st.peer_states info.id
        (fun s2 => { s2 with
          peer_info := { s2.peer_info with addr := some A } })) } := by
  unfold PeerStore.bind_pair
  rw [hl]

theorem unbind_addr_index (st : PeerStore) (A b : Nat) :
    (st.unbind_addr A).addr_peers.lookup b
      = if b = A then none else st.addr_peers.lookup b := by
  cases hA : st.addr_peers.lookup A with
  | none =>
      rw [unbind_addr_eq_none st A hA]
      by_cases hb : b = A
      · rw [if_pos hb, hb]
        exact hA
      · rw [if_neg hb]
  | some vp =>
      rw [unbind_addr_eq_some st A vp hA]
      exact lookup_erase _ _ _

theorem unbind_addr_states_strip (st : PeerStore) (A : Nat) (vp : VerifiedPeer)
    (s0 : KnownPeerState) (hA : st.addr_peers.lookup A = some vp)
    (hs0 : st.peer_states.lookup vp.peer_id = some s0) :
    (st.unbind_addr A).peer_states.lookup vp.peer_id
      = some { s0 with peer_info := { s0.peer_info with addr := none } } := by
  rw [unbind_addr_eq_some st A vp hA]
  rw [show ({ st with
      addr_peers := erase st.addr_peers A,
      peer_states := (modifyAt st.peer_states vp.peer_id
        (fun s => { s with
          peer_info := { s.peer_info with addr := none } })) } :
      PeerStore).peer_states
    = modifyAt st.peer_states vp.peer_id
        (fun s => { s with peer_info := { s.peer_info with addr := none } })
    from rfl]
  rw [lookup_modifyAt, if_pos rfl, hs0]
  rfl

theorem unbind_addr_states_other (st : PeerStore) (A r : Nat)
    (hr : ∀ vp, st.addr_peers.lookup A = some vp → r ≠ vp.peer_id) :
    (st.unbind_addr A).peer_states.lookup r = st.peer_states.lookup r := by
  cases hA : st.addr_peers.lookup A with
  | none => rw [unbind_addr_eq_none st A hA]
  | some vp =>
      rw [unbind_addr_eq_some st A vp hA]
      rw [show ({ st with
          addr_peers := erase st.addr_peers A,
          peer_states := (modifyAt st.peer_states vp.peer_id
            (fun s => { s with
              peer_info := { s.peer_info with addr := none } })) } :
          PeerStore).peer_states
        = modifyAt st.peer_states vp.peer_id
            (fun s => { s with peer_info := { s.peer_info with addr := none } })
        from rfl]
      rw [lookup_modifyAt, if_neg (hr vp hA)]

theorem unbind_id_states_other (st : PeerStore) (pid r : Nat) (hr : r ≠ pid) :
    (st.unbind_id pid).peer_states.lookup r = st.peer_states.lookup r := by
  cases hs : st.peer_states.lookup pid with
  | none => rw [unbind_id_eq_none st pid hs]
  | some s =>
      cases ha : s.peer_info.addr with
      | none => rw [unbind_id_eq_noaddr st pid s hs ha]
      | some cur =>
          rw [unbind_id_eq_some st pid s cur hs ha]
          rw [show ({ st with
              peer_states := (modifyAt st.peer_states pid
                (fun s2 => { s2 with
                  peer_info := { s2.peer_info with addr := none } })),
              addr_peers := erase st.addr_peers cur } :
              PeerStore).peer_states
            = modifyAt st.peer_states pid
                (fun s2 => { s2 with
                  peer_info := { s2.peer_info with addr := none } })
            from rfl]
          rw [lookup_modifyAt, if_neg hr]

theorem unbind_id_index_none (st : PeerStore) (pid b : Nat)
    (hb : st.addr_peers.lookup b = none) :
    (st.unbind_id pid).addr_peers.lookup b = none := by
  cases hs : st.peer_states.lookup pid with
  | none =>
      rw [unbind_id_eq_none st pid hs]
      exact hb
  | some s =>
      cases ha : s.peer_info.addr with
      | none =>
          rw [unbind_id_eq_noaddr st pid s hs ha]
          exact hb
      | some cur =>
          rw [unbind_id_eq_some st pid s cur hs ha]
          rw [show ({ st with
              peer_states := (modifyAt st.peer_states pid
                (fun s2 => { s2 with
                  peer_info := { s2.peer_info with addr := none } })),
              addr_peers := erase st.addr_peers cur } :
              PeerStore).addr_peers
            = erase st.addr_peers cur from rfl]
          rw [lookup_erase]
          by_cases hbc : b = cur
          · rw [if_pos hbc]
          · rw [if_neg hbc]
            exact hb

theorem unbind_id_states_self (st : PeerStore) (pid : Nat) :
    ∀ s2, (st.unbind_id pid).peer_states.lookup pid = some s2 →
      s2.peer_info.addr = none := by
  intro s2 hl
  cases hs : st.peer_states.lookup pid with
  | none =>
      rw [unbind_id_eq_none st pid hs, hs] at hl
      cases hl
  | some s =>
      cases ha : s.peer_info.addr with
      | none =>
          rw [unbind_id_eq_noaddr st pid s hs ha, hs] at hl
          injection hl with hl
          rw [← hl]
          exact ha
      | some cur =>
          rw [unbind_id_eq_some st pid s cur hs ha] at hl
          rw [show ({ st with
              peer_states := (modifyAt st.peer_states pid
                (fun s3 => { s3 with
                  peer_info := { s3.peer_info with addr := none } })),
              addr_peers := erase st.addr_peers cur } :
              PeerStore).peer_states
            = modifyAt st.peer_states pid
                (fun s3 => { s3 with
                  peer_info := { s3.peer_info with addr := none } })
            from rfl] at hl
          rw [lookup_modifyAt, if_pos rfl, hs] at hl
          injection hl with hl
          rw [← hl]

theorem P1_unbind_addr (st : PeerStore) (A : Nat) (h : P1 st) :
    P1 (st.unbind_addr A) := by
  cases hA : st.addr_peers.lookup A with
  | none =>
      rw [unbind_addr_eq_none st A hA]
      exact h
  | some vp =>
      rw [unbind_addr_eq_some st A vp hA]
      constructor
      · intro id s2 a2 hl hs2
        rw [show ({ st with
            addr_peers := erase st.addr_peers A,
            peer_states := (modifyAt st.peer_states vp.peer_id
              (fun s => { s with
                peer_info := { s.peer_info with addr := none } })) } :
            PeerStore).peer_states
          = modifyAt st.peer_states vp.peer_id
              (fun s => { s with peer_info := { s.peer_info with addr := none } })
          from rfl] at hl
        rw [lookup_modifyAt] at hl
        by_cases hid : id = vp.peer_id
        · rw [if_pos hid] at hl
          cases hlo : st.peer_states.lookup vp.peer_id with
          | none =>
              rw [hlo] at hl
              cases hl
          | some s0 =>
              rw [hlo] at hl
              injection hl with hl
              rw [← hl] at hs2
              cases hs2
        · rw [if_neg hid] at hl
          obtain ⟨vp2, hvp2, hvpid⟩ := h.1 id s2 a2 hl hs2
          have hne : a2 ≠ A := by
            intro hc
            rw [hc, hA] at hvp2
            injection hvp2 with hvp2
            rw [← hvp2] at hvpid
            exact hid hvpid.symm
          refine ⟨vp2, ?_, hvpid⟩
          rw [show ({ st with
              addr_peers := erase st.addr_peers A,
              peer_states := (modifyAt st.peer_states vp.peer_id
                (fun s => { s with
                  peer_info := { s.peer_info with addr := none } })) } :
              PeerStore).addr_peers
            = erase st.addr_peers A from rfl]
          rw [lookup_erase, if_neg hne]
          exact hvp2
      · intro a2 vp2 hl
        rw [show ({ st with
            addr_peers := erase st.addr_peers A,
            peer_states := (modifyAt st.peer_states vp.peer_id
              (fun s => { s with
                peer_info := { s.peer_info with addr := none } })) } :
            PeerStore).addr_peers
          = erase st.addr_peers A from rfl] at hl
        rw [lookup_erase] at hl
        by_cases ha2 : a2 = A
        · rw [if_pos ha2] at hl
          cases hl
        · rw [if_neg ha2] at hl
          obtain ⟨s2, hs2, hs2a⟩ := h.2 a2 vp2 hl
          have hne : vp2.peer_id ≠ vp.peer_id := by
            intro hc
            obtain ⟨s3, hs3, hs3a⟩ := h.2 A vp hA
            rw [hc, hs3] at hs2
            injection hs2 with hs2
            rw [← hs2, hs3a] at hs2a
            injection hs2a with hs2a
            exact ha2 hs2a.symm
          rw [show ({ st with
              addr_peers := erase st.addr_peers A,
              peer_states := (modifyAt st.peer_states vp.peer_id
                (fun s => { s with
                  peer_info := { s.peer_info with addr := none } })) } :
              PeerStore).peer_states
            = modifyAt st.peer_states vp.peer_id
                (fun s => { s with
                  peer_info := { s.peer_info with addr := none } })
            from rfl]
          rw [lookup_modifyAt, if_neg hne]
          exact ⟨s2, hs2, hs2a⟩

theorem P1_unbind_id (st : PeerStore) (pid : Nat) (h : P1 st) :
    P1 (st.unbind_id pid) := by
  cases hs : st.peer_states.lookup pid with
  | none =>
      rw [unbind_id_eq_none st pid hs]
      exact h
  | some s =>
      cases ha : s.peer_info.addr with
      | none =>
          rw [unbind_id_eq_noaddr st pid s hs ha]
          exact h
      | some cur =>
          rw [unbind_id_eq_some st pid s cur hs ha]
          have hps : ({ st with
              peer_states := (modifyAt st.peer_states pid
                (fun s2 => { s2 with
                  peer_info := { s2.peer_info with addr := none } })),
              addr_peers := erase st.addr_peers cur } :
              PeerStore).peer_states
            = modifyAt st.peer_states pid
                (fun s2 => { s2 with
                  peer_info := { s2.peer_info with addr := none } }) := rfl
          have hap : ({ st with
              peer_states := (modifyAt st.peer_states pid
                (fun s2 => { s2 with
                  peer_info := { s2.peer_info with addr := none } })),
              addr_peers := erase st.addr_peers cur } :
              PeerStore).addr_peers = erase st.addr_peers cur := rfl
          constructor
          · intro id s2 a2 hl hs2
            rw [hps, lookup_modifyAt] at hl
            by_cases hid : id = pid
            · rw [if_pos hid, hs] at hl
              injection hl with hl
              rw [← hl] at hs2
              cases hs2
            · rw [if_neg hid] at hl
              obtain ⟨vp2, hvp2, hvpid⟩ := h.1 id s2 a2 hl hs2
              have hne : a2 ≠ cur := by
                intro hc
                obtain ⟨vp3, hvp3, hvpid3⟩ := h.1 pid s cur hs ha
                rw [hc, hvp3] at hvp2
                injection hvp2 with hvp2
                rw [← hvp2] at hvpid
                rw [hvpid3] at hvpid
                exact hid hvpid.symm
              refine ⟨vp2, ?_, hvpid⟩
              rw [hap, lookup_erase, if_neg hne]
              exact hvp2
          · intro a2 vp2 hl
            rw [hap, lookup_erase] at hl
            by_cases ha2 : a2 = cur
            · rw [if_pos ha2] at hl
              cases hl
            · rw [if_neg ha2] at hl
              obtain ⟨s2, hs2, hs2a⟩ := h.2 a2 vp2 hl
              have hne : vp2.peer_id ≠ pid := by
                intro hc
                rw [hc, hs] at hs2
                injection hs2 with hs2
                rw [← hs2, ha] at hs2a
                injection hs2a with hs2a
                exact ha2 hs2a.symm
              rw [hps, lookup_modifyAt, if_neg hne]
              exact ⟨s2, hs2, hs2a⟩

theorem bind_pair_index (st : PeerStore) (now : Nat) (info : PeerInfo)
    (A : Nat) (trust : TrustLevel) (b : Nat) :
    (st.bind_pair now info A trust).addr_peers.lookup b
      = if b = A then some { peer_id := info.id, trust_level := trust }
        else st.addr_peers.lookup b := by
  cases hl : st.peer_states.lookup info.id with
  | none =>
      rw [bind_pair_eq_new st now info A trust hl]
      exact lookup_upsert _ _ _ _
  | some s =>
      rw [bind_pair_eq_mod st now info A trust s hl]
      exact lookup_upsert _ _ _ _

theorem bind_pair_states_self (st : PeerStore) (now : Nat) (info : PeerInfo)
    (A : Nat) (trust : TrustLevel) (hia : info.addr = some A) :
    ∃ s, (st.bind_pair now info A trust).peer_states.lookup info.id = some s ∧
      s.peer_info.addr = some A := by
  cases hl : st.peer_states.lookup info.id with
  | none =>
      rw [bind_pair_eq_new st now info A trust hl]
      refine ⟨KnownPeerState.new info now, ?_, hia⟩
      rw [show ({ st with
          addr_peers := (upsert st.addr_peers A
            { peer_id := info.id, trust_level := trust }),
          peer_states := (upsert st.peer_states info.id
            (KnownPeerState.new info now)) } : PeerStore).peer_states
        = upsert st.peer_states info.id (KnownPeerState.new info now) from rfl]
      rw [lookup_upsert, if_pos rfl]
  | some s =>
      rw [bind_pair_eq_mod st now info A trust s hl]
      refine ⟨{ s with peer_info := { s.peer_info with addr := some A } }, ?_, rfl⟩
      rw [show ({ st with
          addr_peers := (upsert st.addr_peers A
            { peer_id := info.id, trust_level := trust }),
          peer_states := (modifyAt st.peer_states info.id
            (fun s2 => { s2 with
              peer_info := { s2.peer_info with addr := some A } })) } :
          PeerStore).peer_states
        = modifyAt st.peer_states info.id
            (fun s2 => { s2 with
              peer_info := { s2.peer_info with addr := some A } }) from rfl]
      rw [lookup_modifyAt, if_pos rfl, hl]
      rfl

theorem bind_pair_states_other (st : PeerStore) (now : Nat) (info : PeerInfo)
    (A : Nat) (trust : TrustLevel) (r : Nat) (hr : r ≠ info.id) :
    (st.bind_pair now info A trust).peer_states.lookup r
      = st.peer_states.lookup r := by
  cases hl : st.peer_states.lookup info.id with
  | none =>
      rw [bind_pair_eq_new st now info A trust hl]
      rw [show ({ st with
          addr_peers := (upsert st.addr_peers A
            { peer_id := info.id, trust_level := trust }),
          peer_states := (upsert st.peer_states info.id
            (KnownPeerState.new info now)) } : PeerStore).peer_states
        = upsert st.peer_states info.id (KnownPeerState.new info now) from rfl]
      rw [lookup_upsert, if_neg hr]
  | some s =>
      rw [bind_pair_eq_mod st now info A trust s hl]
      rw [show ({ st with
          addr_peers := (upsert st.addr_peers A
            { peer_id := info.id, trust_level := trust }),
          peer_states := (modifyAt st.peer_states info.id
            (fun s2 => { s2 with
              peer_info := { s2.peer_info with addr := some A } })) } :
          PeerStore).peer_states
        = modifyAt st.peer_states info.id
            (fun s2 => { s2 with
              peer_info := { s2.peer_info with addr := some A } }) from rfl]
      rw [lookup_modifyAt, if_neg hr]

theorem P1_bind_pair (st : PeerStore) (now : Nat) (info : PeerInfo)
    (A : Nat) (trust : TrustLevel) (h : P1 st)
    (hfree : st.addr_peers.lookup A = none)
    (hnoaddr : ∀ s, st.peer_states.lookup info.id = some s →
      s.peer_info.addr = none)
    (hia : info.addr = some A) :
    P1 (st.bind_pair now info A trust) := by
  cases hl : st.peer_states.lookup info.id with
  | none =>
      rw [bind_pair_eq_new st now info A trust hl]
      exact P1_insert_pair h info.id A (KnownPeerState.new info now)
        { peer_id := info.id, trust_level := trust } hia rfl hfree hl
  | some s =>
      rw [bind_pair_eq_mod st now info A trust s hl]
      have hps : ({ st with
          addr_peers := (upsert st.addr_peers A
            { peer_id := info.id, trust_level := trust }),
          peer_states := (modifyAt st.peer_states info.id
            (fun s2 => { s2 with
              peer_info := { s2.peer_info with addr := some A } })) } :
          PeerStore).peer_states
        = modifyAt st.peer_states info.id
            (fun s2 => { s2 with
              peer_info := { s2.peer_info with addr := some A } }) := rfl
      have hap : ({ st with
          addr_peers := (upsert st.addr_peers A
            { peer_id := info.id, trust_level := trust }),
          peer_states := (modifyAt st.peer_states info.id
            (fun s2 => { s2 with
              peer_info := { s2.peer_info with addr := some A } })) } :
          PeerStore).addr_peers
        = upsert st.addr_peers A
            { peer_id := info.id, trust_level := trust } := rfl
      constructor
      · intro id s2 a2 hl2 hs2
        rw [hps, lookup_modifyAt] at hl2
        by_cases hid : id = info.id
        · rw [if_pos hid, hl] at hl2
          injection hl2 with hl2
          rw [← hl2] at hs2
          have ha2 : a2 = A := by
            have h3 : some A = some a2 := hs2
            injection h3 with h3
            exact h3.symm
          refine ⟨{ peer_id := info.id, trust_level := trust }, ?_, hid.symm⟩
          rw [hap, lookup_upsert, if_pos ha2]
        · rw [if_neg hid] at hl2
          obtain ⟨vp2, hvp2, hvpid⟩ := h.1 id s2 a2 hl2 hs2
          have hne : a2 ≠ A := by
            intro hc
            rw [hc, hfree] at hvp2
            cases hvp2
          refine ⟨vp2, ?_, hvpid⟩
          rw [hap, lookup_upsert, if_neg hne]
          exact hvp2
      · intro a2 vp2 hl2
        rw [hap, lookup_upsert] at hl2
        by_cases ha2 : a2 = A
        · rw [if_pos ha2] at hl2
          injection hl2 with hl2
          rw [← hl2]
          refine ⟨{ s with peer_info := { s.peer_info with addr := some A } },
            ?_, by rw [ha2]⟩
          rw [hps, lookup_modifyAt]
          rw [if_pos rfl, hl]
          rfl
        · rw [if_neg ha2] at hl2
          obtain ⟨s2, hs2, hs2a⟩ := h.2 a2 vp2 hl2
          have hne : vp2.peer_id ≠ info.id := by
            intro hc
            rw [hc, hl] at hs2
            injection hs2 with hs2
            rw [← hs2, hnoaddr s hl] at hs2a
            cases hs2a
          rw [hps, lookup_modifyAt, if_neg hne]
          exact ⟨s2, hs2, hs2a⟩

theorem P1_update_peer_info (st : PeerStore) (now : Nat) (info : PeerInfo)
    (A : Nat) (trust : TrustLevel) (h : P1 st) (hia : info.addr = some A) :
    P1 (st.update_peer_info now info A trust) := by
  have h1 := P1_unbind_addr st A h
  have hA1 : (st.unbind_addr A).addr_peers.lookup A = none := by
    rw [unbind_addr_index, if_pos rfl]
  have h2 := P1_unbind_id (st.unbind_addr A) info.id h1
  have hA2 := unbind_id_index_none (st.unbind_addr A) info.id A hA1
  have hnoaddr := unbind_id_states_self (st.unbind_addr A) info.id
  have h3 := P1_bind_pair ((st.unbind_addr A).unbind_id info.id) now info A
    trust h2 hA2 hnoaddr hia
  unfold PeerStore.update_peer_info
  cases hA : st.addr_peers.lookup A with
  | none =>
      show P1 ((((st.unbind_addr A).unbind_id info.id).bind_pair
        now info A trust).touch info.id)
      exact P1_touch _ h3
  | some vp =>
      show P1 (match Option.map (fun s => s.peer_info.id)
          (List.lookup vp.peer_id st.peer_states) with
        | some q => ((((st.unbind_addr A).unbind_id info.id).bind_pair
            now info A trust).touch info.id).touch q
        | none => (((st.unbind_addr A).unbind_id info.id).bind_pair
            now info A trust).touch info.id)
      cases Option.map (fun s => s.peer_info.id)
          (List.lookup vp.peer_id st.peer_states) with
      | none => exact P1_touch _ h3
      | some q => exact P1_touch _ (P1_touch _ h3)

theorem P1_add_peer (st : PeerStore) (now : Nat) (info : PeerInfo)
    (trust : TrustLevel) (h : P1 st) : P1 (st.add_peer now info trust) := by
  unfold PeerStore.add_peer
  cases hia : info.addr with
  | some A =>
      cases trust with
      | Signed => exact P1_update_peer_info st now info A TrustLevel.Signed h hia
      | Direct =>
          show P1 (if st.is_peer_trusted info.id = true then st
            else st.update_peer_info now info A TrustLevel.Direct)
          by_cases ht : st.is_peer_trusted info.id = true
          · rw [if_pos ht]
            exact h
          · rw [if_neg ht]
            exact P1_update_peer_info st now info A TrustLevel.Direct h hia
      | Indirect =>
          show P1 (if st.peer_states.lookup info.id = none ∧
              st.addr_peers.lookup A = none then
            st.update_peer_info now info A TrustLevel.Indirect else st)
          by_cases hc : st.peer_states.lookup info.id = none ∧
              st.addr_peers.lookup A = none
          · rw [if_pos hc]
            exact P1_update_peer_info st now info A TrustLevel.Indirect h hia
          · rw [if_neg hc]
            exact h
  | none =>
      show P1 (if st.peer_states.lookup info.id = none then
        { st with peer_states := (upsert st.peer_states info.id
            (KnownPeerState.new info now)) } else st)
      by_cases hc : st.peer_states.lookup info.id = none
      · rw [if_pos hc]
        constructor
        · intro id s2 a2 hl hs2
          rw [show ({ st with peer_states := (upsert st.peer_states info.id
              (KnownPeerState.new info now)) } : PeerStore).peer_states
            = upsert st.peer_states info.id (KnownPeerState.new info now)
            from rfl, lookup_upsert] at hl
          by_cases hid : id = info.id
          · rw [if_pos hid] at hl
            injection hl with hl
            rw [← hl] at hs2
            have : (KnownPeerState.new info now).peer_info.addr = none := by
              rw [show (KnownPeerState.new info now).peer_info.addr = info.addr
                from rfl, hia]
            rw [this] at hs2
            cases hs2
          · rw [if_neg hid] at hl
            exact h.1 id s2 a2 hl hs2
        · intro a2 vp2 hl
          obtain ⟨s2, hs2, hs2a⟩ := h.2 a2 vp2 hl
          have hne : vp2.peer_id ≠ info.id := by
            intro hcc
            rw [hcc, hc] at hs2
            cases hs2
          refine ⟨s2, ?_, hs2a⟩
          rw [show ({ st with peer_states := (upsert st.peer_states info.id
              (KnownPeerState.new info now)) } : PeerStore).peer_states
            = upsert st.peer_states info.id (KnownPeerState.new info now)
            from rfl, lookup_upsert, if_neg hne]
          exact hs2
      · rw [if_neg hc]
        exact h

theorem P1_modify_entry (st : PeerStore) (pid : Nat)
    (f : KnownPeerState → KnownPeerState)
    (hf : ∀ s, (f s).peer_info = s.peer_info) (h : P1 st) :
    P1 { st with peer_states := (modifyAt st.peer_states pid f) } :=
  P1_modify_keep_info h pid f hf

theorem P1_peer_connected (st : PeerStore) (now : Nat) (info : PeerInfo)
    (h : P1 st) :
    ∀ st2, st.peer_connected now info = some st2 → P1 st2 := by
  intro st2 heq
  have h1 := P1_add_peer st now info TrustLevel.Signed h
  unfold PeerStore.peer_connected at heq
  cases hl : (st.add_peer now info TrustLevel.Signed).peer_states.lookup
      info.id with
  | none =>
      rw [hl] at heq
      cases heq
  | some s =>
      rw [hl] at heq
      injection heq with heq
      rw [← heq]
      exact P1_touch _ (P1_modify_entry _ info.id _ (fun s2 => rfl) h1)

theorem P1_peer_disconnected (st : PeerStore) (now : Nat) (pid : Nat)
    (h : P1 st) :
    ∀ st2, st.peer_disconnected now pid = some st2 → P1 st2 := by
  intro st2 heq
  unfold PeerStore.peer_disconnected at heq
  cases hl : st.peer_states.lookup pid with
  | none =>
      rw [hl] at heq
      cases heq
  | some s =>
      rw [hl] at heq
      injection heq with heq
      rw [← heq]
      exact P1_touch _ (P1_modify_entry _ pid _ (fun s2 => rfl) h)

theorem P1_peer_ban (st : PeerStore) (now : Nat) (pid : Nat) (reason : Nat)
    (h : P1 st) :
    ∀ st2, st.peer_ban now pid reason = some st2 → P1 st2 := by
  intro st2 heq
  unfold PeerStore.peer_ban at heq
  cases hl : st.peer_states.lookup pid with
  | none =>
      rw [hl] at heq
      cases heq
  | some s =>
      rw [hl] at heq
      injection heq with heq
      rw [← heq]
      exact P1_touch _ (P1_modify_entry _ pid _ (fun s2 => rfl) h)

theorem P1_peer_unban (st : PeerStore) (pid : Nat) (h : P1 st) :
    ∀ st2, st.peer_unban pid = some st2 → P1 st2 := by
  intro st2 heq
  unfold PeerStore.peer_unban at heq
  cases hl : st.peer_states.lookup pid with
  | none =>
      rw [hl] at heq
      cases heq
  | some s =>
      rw [hl] at heq
      injection heq with heq
      rw [← heq]
      exact P1_touch _ (P1_modify_entry _ pid _ (fun s2 => rfl) h)

theorem bootStep_eq_known (now : Nat) (maps : List (Nat × KnownPeerState) ×
    List (Nat × VerifiedPeer)) (info : PeerInfo)
    (h1 : ¬ maps.1.lookup info.id = none) : bootStep now maps info = maps := by
  unfold bootStep
  rw [if_neg h1]

theorem bootStep_eq_noaddr (now : Nat) (maps : List (Nat × KnownPeerState) ×
    List (Nat × VerifiedPeer)) (info : PeerInfo)
    (h1 : maps.1.lookup info.id = none) (ha : info.addr = none) :
    bootStep now maps info = maps := by
  unfold bootStep
  rw [if_pos h1]
  simp only [ha]

theorem bootStep_eq_taken (now : Nat) (maps : List (Nat × KnownPeerState) ×
    List (Nat × VerifiedPeer)) (info : PeerInfo) (a : Nat) (vp : VerifiedPeer)
    (h1 : maps.1.lookup info.id = none) (ha : info.addr = some a)
    (hi : maps.2.lookup a = some vp) : bootStep now maps info = maps := by
  unfold bootStep
  rw [if_pos h1]
  simp only [ha, hi]

theorem bootStep_eq_insert (now : Nat) (maps : List (Nat × KnownPeerState) ×
    List (Nat × VerifiedPeer)) (info : PeerInfo) (a : Nat)
    (h1 : maps.1.lookup info.id = none) (ha : info.addr = some a)
    (hi : maps.2.lookup a = none) :
    bootStep now maps info
      = (upsert maps.1 info.id (KnownPeerState.new info now),
        upsert maps.2 a (VerifiedPeer.signed info.id)) := by
  unfold bootStep
  rw [if_pos h1]
  simp only [ha, hi]

theorem P1_bootStep (now : Nat) (maps : List (Nat × KnownPeerState) ×
    List (Nat × VerifiedPeer)) (info : PeerInfo)
    (h : P1a maps.1 maps.2 ∧ P1b maps.1 maps.2) :
    P1a (bootStep now maps info).1 (bootStep now maps info).2 ∧
    P1b (bootStep now maps info).1 (bootStep now maps info).2 := by
  by_cases h1 : maps.1.lookup info.id = none
  · cases ha : info.addr with
    | none =>
        rw [bootStep_eq_noaddr now maps info h1 ha]
        exact h
    | some a =>
        cases hi : maps.2.lookup a with
        | some vp =>
            rw [bootStep_eq_taken now maps info a vp h1 ha hi]
            exact h
        | none =>
            rw [bootStep_eq_insert now maps info a h1 ha hi]
            have haddr : (KnownPeerState.new info now).peer_info.addr
                = some a := by
              rw [show (KnownPeerState.new info now).peer_info.addr = info.addr
                from rfl, ha]
            exact P1_insert_pair h info.id a (KnownPeerState.new info now)
              (VerifiedPeer.signed info.id) haddr rfl hi h1
  · rw [bootStep_eq_known now maps info h1]
    exact h

theorem loadStep_eq_banned (now : Nat) (maps : List (Nat × KnownPeerState) ×
    List (Nat × VerifiedPeer)) (row : Nat × KnownPeerState)
    (s : KnownPeerState) (hl : maps.1.lookup row.1 = some s)
    (hb : (resetState now row.2).status.is_banned = true) :
    loadStep now maps row
      = (modifyAt maps.1 row.1
          (fun s2 => { s2 with status := (resetState now row.2).status }),
        maps.2) := by
  unfold loadStep
  simp only [hl, hb, if_true]

theorem loadStep_eq_known_notban (now : Nat)
    (maps : List (Nat × KnownPeerState) × List (Nat × VerifiedPeer))
    (row : Nat × KnownPeerState) (s : KnownPeerState)
    (hl : maps.1.lookup row.1 = some s)
    (hb : ¬ (resetState now row.2).status.is_banned = true) :
    loadStep now maps row = maps := by
  unfold loadStep
  simp only [hl, hb, Bool.false_eq_true, if_false]

theorem loadStep_eq_noaddr (now : Nat) (maps : List (Nat × KnownPeerState) ×
    List (Nat × VerifiedPeer)) (row : Nat × KnownPeerState)
    (hl : maps.1.lookup row.1 = none)
    (ha : row.2.peer_info.addr = none) : loadStep now maps row = maps := by
  unfold loadStep
  have ha2 : (resetState now row.2).peer_info.addr = none := by
    rw [show (resetState now row.2).peer_info = row.2.peer_info from rfl]
    exact ha
  simp only [hl, ha2]

theorem loadStep_eq_taken (now : Nat) (maps : List (Nat × KnownPeerState) ×
    List (Nat × VerifiedPeer)) (row : Nat × KnownPeerState) (a : Nat)
    (vp : VerifiedPeer) (hl : maps.1.lookup row.1 = none)
    (ha : row.2.peer_info.addr = some a) (hi : maps.2.lookup a = some vp) :
    loadStep now maps row = maps := by
  unfold loadStep
  have ha2 : (resetState now row.2).peer_info.addr = some a := by
    rw [show (resetState now row.2).peer_info = row.2.peer_info from rfl]
    exact ha
  simp only [hl, ha2, hi]

theorem loadStep_eq_insert (now : Nat) (maps : List (Nat × KnownPeerState) ×
    List (Nat × VerifiedPeer)) (row : Nat × KnownPeerState) (a : Nat)
    (hl : maps.1.lookup row.1 = none)
    (ha : row.2.peer_info.addr = some a) (hi : maps.2.lookup a = none) :
    loadStep now maps row
      = (upsert maps.1 row.1 (resetState now row.2),
        upsert maps.2 a
          (VerifiedPeer.new (resetState now row.2).peer_info.id)) := by
  unfold loadStep
  have ha2 : (resetState now row.2).peer_info.addr = some a := by
    rw [show (resetState now row.2).peer_info = row.2.peer_info from rfl]
    exact ha
  simp only [hl, ha2, hi]

theorem P1_loadStep (now : Nat) (maps : List (Nat × KnownPeerState) ×
    List (Nat × VerifiedPeer)) (row : Nat × KnownPeerState)
    (hrow : row.2.peer_info.id = row.1)
    (h : P1a maps.1 maps.2 ∧ P1b maps.1 maps.2) :
    P1a (loadStep now maps row).1 (loadStep now maps row).2 ∧
    P1b (loadStep now maps row).1 (loadStep now maps row).2 := by
  cases hl : maps.1.lookup row.1 with
  | some s =>
      by_cases hb : (resetState now row.2).status.is_banned = true
      · rw [loadStep_eq_banned now maps row s hl hb]
        exact P1_modify_keep_info h row.1
          (fun s2 => { s2 with status := (resetState now row.2).status })
          (fun s2 => rfl)
      · rw [loadStep_eq_known_notban now maps row s hl hb]
        exact h
  | none =>
      cases ha : row.2.peer_info.addr with
      | none =>
          rw [loadStep_eq_noaddr now maps row hl ha]
          exact h
      | some a =>
          cases hi : maps.2.lookup a with
          | some vp =>
              rw [loadStep_eq_taken now maps row a vp hl ha hi]
              exact h
          | none =>
              rw [loadStep_eq_insert now maps row a hl ha hi]
              have ha2 : (resetState now row.2).peer_info.addr = some a := by
                rw [show (resetState now row.2).peer_info = row.2.peer_info
                  from rfl]
                exact ha
              have hvp : (VerifiedPeer.new
                  (resetState now row.2).peer_info.id).peer_id = row.1 := by
                rw [show (VerifiedPeer.new
                    (resetState now row.2).peer_info.id).peer_id
                  = (resetState now row.2).peer_info.id from rfl]
                rw [show (resetState now row.2).peer_info = row.2.peer_info
                  from rfl]
                exact hrow
              exact P1_insert_pair h row.1 a (resetState now row.2)
                (VerifiedPeer.new (resetState now row.2).peer_info.id)
                ha2 hvp hi hl

theorem P1_foldl_boot (now : Nat) :
    ∀ (l : List PeerInfo) (maps : List (Nat × KnownPeerState) ×
      List (Nat × VerifiedPeer)),
    P1a maps.1 maps.2 ∧ P1b maps.1 maps.2 →
    P1a (l.foldl (bootStep now) maps).1 (l.foldl (bootStep now) maps).2 ∧
    P1b (l.foldl (bootStep now) maps).1 (l.foldl (bootStep now) maps).2 := by
  intro l
  induction l with
  | nil => intro maps h; exact h
  | cons info rest ih =>
      intro maps h
      exact ih (bootStep now maps info) (P1_bootStep now maps info h)

theorem P1_foldl_load (now : Nat) :
    ∀ (l : List (Nat × KnownPeerState)) (maps : List (Nat × KnownPeerState) ×
      List (Nat × VerifiedPeer)),
    (∀ kv ∈ l, kv.2.peer_info.id = kv.1) →
    P1a maps.1 maps.2 ∧ P1b maps.1 maps.2 →
    P1a (l.foldl (loadStep now) maps).1 (l.foldl (loadStep now) maps).2 ∧
    P1b (l.foldl (loadStep now) maps).1 (l.foldl (loadStep now) maps).2 := by
  intro l
  induction l with
  | nil => intro maps _ h; exact h
  | cons row rest ih =>
      intro maps hrows h
      exact ih (loadStep now maps row)
        (fun kv hkv => hrows kv (List.mem_cons_of_mem _ hkv))
        (P1_loadStep now maps row (hrows row (List.mem_cons_self _ _)) h)

theorem P1_new (now : Nat) (boot_nodes : List PeerInfo)
    (store : List (Nat × KnownPeerState))
    (hrows : ∀ kv ∈ store, kv.2.peer_info.id = kv.1) :
    P1 (PeerStore.new now boot_nodes store) := by
  have hbase : P1a ([] : List (Nat × KnownPeerState))
      ([] : List (Nat × VerifiedPeer)) ∧
      P1b ([] : List (Nat × KnownPeerState)) ([] : List (Nat × VerifiedPeer)) := by
    constructor
    · intro id s a hl
      cases hl
    · intro a vp hl
      cases hl
  have h1 := P1_foldl_boot now boot_nodes ([], []) hbase
  have h2 := P1_foldl_load now store (boot_nodes.foldl (bootStep now) ([], []))
    hrows h1
  exact h2

theorem lookup_foldl_erase {β : Type} (ids : List Nat) :
    ∀ (l : List (Nat × β)) (r : Nat),
    (ids.foldl (fun acc pid => erase acc pid) l).lookup r
      = if r ∈ ids then none else l.lookup r := by
  induction ids with
  | nil =>
      intro l r
      rw [if_neg (List.not_mem_nil r)]
      rfl
  | cons i rest ih =>
      intro l r
      rw [List.foldl_cons, ih]
      by_cases hr : r ∈ rest
      · rw [if_pos hr, if_pos (List.mem_cons_of_mem _ hr)]
      · rw [if_neg hr, lookup_erase]
        by_cases hri : r = i
        · rw [if_pos hri, if_pos (hri ▸ List.mem_cons_self _ _)]
        · rw [if_neg hri, if_neg (by
            intro hc
            rcases List.mem_cons.1 hc with h | h
            · exact hri h
            · exact hr h)]

theorem remove_expired_fields (st : PeerStore) (now expiration : Nat) :
    (st.remove_expired now expiration).addr_peers = st.addr_peers ∧
    (st.remove_expired now expiration).peer_states
      = ((st.peer_states.filter
          (fun kv => kv.2.status ≠ KnownPeerStatus.Connected ∧
            expiration < now - kv.2.last_seen)).map Prod.fst).foldl
        (fun l pid => erase l pid) st.peer_states :=
  ⟨rfl, rfl⟩

theorem P1a_remove_expired (st : PeerStore) (now expiration : Nat)
    (h : P1 st) :
    P1a (st.remove_expired now expiration).peer_states
      (st.remove_expired now expiration).addr_peers := by
  obtain ⟨hap, hps⟩ := remove_expired_fields st now expiration
  rw [hap, hps]
  intro id s a hl hsa
  rw [lookup_foldl_erase] at hl
  by_cases hid : id ∈ (st.peer_states.filter
      (fun kv => kv.2.status ≠ KnownPeerStatus.Connected ∧
        expiration < now - kv.2.last_seen)).map Prod.fst
  · rw [if_pos hid] at hl
    cases hl
  · rw [if_neg hid] at hl
    exact h.1 id s a hl hsa

theorem bootStep_states_other (now : Nat) (maps : List (Nat × KnownPeerState) ×
    List (Nat × VerifiedPeer)) (info : PeerInfo) (pid : Nat)
    (hpid : pid ≠ info.id) :
    (bootStep now maps info).1.lookup pid = maps.1.lookup pid := by
  by_cases h1 : maps.1.lookup info.id = none
  · cases ha : info.addr with
    | none => rw [bootStep_eq_noaddr now maps info h1 ha]
    | some a =>
        cases hi : maps.2.lookup a with
        | some vp => rw [bootStep_eq_taken now maps info a vp h1 ha hi]
        | none =>
            rw [bootStep_eq_insert now maps info a h1 ha hi]
            rw [show ((upsert maps.1 info.id (KnownPeerState.new info now),
                upsert maps.2 a (VerifiedPeer.signed info.id)) :
                List (Nat × KnownPeerState) × List (Nat × VerifiedPeer)).1
              = upsert maps.1 info.id (KnownPeerState.new info now) from rfl]
            rw [lookup_upsert, if_neg hpid]
  · rw [bootStep_eq_known now maps info h1]

theorem loadStep_states_other (now : Nat) (maps : List (Nat × KnownPeerState) ×
    List (Nat × VerifiedPeer)) (row : Nat × KnownPeerState) (pid : Nat)
    (hpid : pid ≠ row.1) :
    (loadStep now maps row).1.lookup pid = maps.1.lookup pid := by
  cases hl : maps.1.lookup row.1 with
  | some s =>
      by_cases hb : (resetState now row.2).status.is_banned = true
      · rw [loadStep_eq_banned now maps row s hl hb]
        rw [show ((modifyAt maps.1 row.1
            (fun s2 => { s2 with status := (resetState now row.2).status }),
            maps.2) : List (Nat × KnownPeerState) × List (Nat × VerifiedPeer)).1
          = modifyAt maps.1 row.1
              (fun s2 => { s2 with status := (resetState now row.2).status })
          from rfl]
        rw [lookup_modifyAt, if_neg hpid]
      · rw [loadStep_eq_known_notban now maps row s hl hb]
  | none =>
      cases ha : row.2.peer_info.addr with
      | none => rw [loadStep_eq_noaddr now maps row hl ha]
      | some a =>
          cases hi : maps.2.lookup a with
          | some vp => rw [loadStep_eq_taken now maps row a vp hl ha hi]
          | none =>
              rw [loadStep_eq_insert now maps row a hl ha hi]
              rw [show ((upsert maps.1 row.1 (resetState now row.2),
                  upsert maps.2 a
                    (VerifiedPeer.new (resetState now row.2).peer_info.id)) :
                  List (Nat × KnownPeerState) × List (Nat × VerifiedPeer)).1
                = upsert maps.1 row.1 (resetState now row.2) from rfl]
              rw [lookup_upsert, if_neg hpid]

theorem foldl_loadStep_states_other (now : Nat) :
    ∀ (l : List (Nat × KnownPeerState)) (maps : List (Nat × KnownPeerState) ×
      List (Nat × VerifiedPeer)) (pid : Nat), pid ∉ l.map Prod.fst →
    (l.foldl (loadStep now) maps).1.lookup pid = maps.1.lookup pid := by
  intro l
  induction l with
  | nil => intro maps pid _; rfl
  | cons row rest ih =>
      intro maps pid hpid
      rw [List.foldl_cons, ih (loadStep now maps row) pid
        (fun hc => hpid (List.mem_cons_of_mem _ hc))]
      exact loadStep_states_other now maps row pid
        (fun hc => hpid (hc ▸ List.mem_cons_self _ _))

theorem bootStep_index_mono (now : Nat) (maps : List (Nat × KnownPeerState) ×
    List (Nat × VerifiedPeer)) (info : PeerInfo) (b : Nat)
    (hb : ¬ maps.2.lookup b = none) :
    ¬ (bootStep now maps info).2.lookup b = none := by
  by_cases h1 : maps.1.lookup info.id = none
  · cases ha : info.addr with
    | none =>
        rw [bootStep_eq_noaddr now maps info h1 ha]
        exact hb
    | some a =>
        cases hi : maps.2.lookup a with
        | some vp =>
            rw [bootStep_eq_taken now maps info a vp h1 ha hi]
            exact hb
        | none =>
            rw [bootStep_eq_insert now maps info a h1 ha hi]
            rw [show ((upsert maps.1 info.id (KnownPeerState.new info now),
                upsert maps.2 a (VerifiedPeer.signed info.id)) :
                List (Nat × KnownPeerState) × List (Nat × VerifiedPeer)).2
              = upsert maps.2 a (VerifiedPeer.signed info.id) from rfl]
            rw [lookup_upsert]
            by_cases hba : b = a
            · rw [if_pos hba]
              exact fun hc => Option.noConfusion hc
            · rw [if_neg hba]
              exact hb
  · rw [bootStep_eq_known now maps info h1]
    exact hb

theorem loadStep_index_mono (now : Nat) (maps : List (Nat × KnownPeerState) ×
    List (Nat × VerifiedPeer)) (row : Nat × KnownPeerState) (b : Nat)
    (hb : ¬ maps.2.lookup b = none) :
    ¬ (loadStep now maps row).2.lookup b = none := by
  cases hl : maps.1.lookup row.1 with
  | some s =>
      by_cases hban : (resetState now row.2).status.is_banned = true
      · rw [loadStep_eq_banned now maps row s hl hban]
        exact hb
      · rw [loadStep_eq_known_notban now maps row s hl hban]
        exact hb
  | none =>
      cases ha : row.2.peer_info.addr with
      | none =>
          rw [loadStep_eq_noaddr now maps row hl ha]
          exact hb
      | some a =>
          cases hi : maps.2.lookup a with
          | some vp =>
              rw [loadStep_eq_taken now maps row a vp hl ha hi]
              exact hb
          | none =>
              rw [loadStep_eq_insert now maps row a hl ha hi]
              rw [show ((upsert maps.1 row.1 (resetState now row.2),
                  upsert maps.2 a
                    (VerifiedPeer.new (resetState now row.2).peer_info.id)) :
                  List (Nat × KnownPeerState) × List (Nat × VerifiedPeer)).2
                = upsert maps.2 a
                    (VerifiedPeer.new (resetState now row.2).peer_info.id)
                from rfl]
              rw [lookup_upsert]
              by_cases hba : b = a
              · rw [if_pos hba]
                exact fun hc => Option.noConfusion hc
              · rw [if_neg hba]
                exact hb

theorem foldl_loadStep_index_mono (now : Nat) :
    ∀ (l : List (Nat × KnownPeerState)) (maps : List (Nat × KnownPeerState) ×
      List (Nat × VerifiedPeer)) (b : Nat), ¬ maps.2.lookup b = none →
    ¬ (l.foldl (loadStep now) maps).2.lookup b = none := by
  intro l
  induction l with
  | nil => intro maps b hb; exact hb
  | cons row rest ih =>
      intro maps b hb
      exact ih (loadStep now maps row) b (loadStep_index_mono now maps row b hb)

theorem boot_states_dom (now : Nat) :
    ∀ (l : List PeerInfo) (maps : List (Nat × KnownPeerState) ×
      List (Nat × VerifiedPeer)) (pid : Nat),
    maps.1.lookup pid = none → pid ∉ l.map PeerInfo.id →
    (l.foldl (bootStep now) maps).1.lookup pid = none := by
  intro l
  induction l with
  | nil => intro maps pid h _; exact h
  | cons info rest ih =>
      intro maps pid h hpid
      rw [List.foldl_cons]
      refine ih (bootStep now maps info) pid ?_
        (fun hc => hpid (List.mem_cons_of_mem _ hc))
      rw [bootStep_states_other now maps info pid
        (fun hc => hpid (hc ▸ List.mem_cons_self _ _))]
      exact h

theorem resetState_status (now : Nat) (s : KnownPeerState) :
    (resetState now s).status
      = if s.status.is_banned then s.status else KnownPeerStatus.NotConnected :=
  rfl

theorem resetState_banned (now : Nat) (s : KnownPeerState)
    (hb : s.status.is_banned = true) :
    (resetState now s).status.is_banned = true := by
  rw [resetState_status, if_pos hb]
  exact hb

theorem keyed_unique {β : Type} :
    ∀ (l : List (Nat × β)), (l.map Prod.fst).Nodup →
    ∀ (pid : Nat) (s : β), (pid, s) ∈ l → ∀ kv ∈ l, kv.1 = pid → kv.2 = s := by
  intro l
  induction l with
  | nil =>
      intro _ pid s hmem
      cases hmem
  | cons hd tl ih =>
      intro hnd pid s hmem kv hkv hk1
      rw [List.map_cons, List.nodup_cons] at hnd
      rcases List.mem_cons.1 hmem with hm | hm
      · rcases List.mem_cons.1 hkv with hk | hk
        · rw [hk, ← hm]
        · exfalso
          apply hnd.1
          have h1 : hd.1 = pid := by rw [← hm]
          rw [h1, ← hk1]
          exact List.mem_map_of_mem _ hk
      · rcases List.mem_cons.1 hkv with hk | hk
        · exfalso
          apply hnd.1
          have h1 : hd.1 = pid := by rw [← hk]; exact hk1
          rw [h1]
          exact List.mem_map_of_mem Prod.fst hm
        · exact ih hnd.2 pid s hm kv hk hk1

theorem foldl_bootStep_index_mono (now : Nat) :
    ∀ (l : List PeerInfo) (maps : List (Nat × KnownPeerState) ×
      List (Nat × VerifiedPeer)) (b : Nat), ¬ maps.2.lookup b = none →
    ¬ (l.foldl (bootStep now) maps).2.lookup b = none := by
  intro l
  induction l with
  | nil => intro maps b hb; exact hb
  | cons info rest ih =>
      intro maps b hb
      exact ih (bootStep now maps info) b (bootStep_index_mono now maps info b hb)

theorem boot_index_binds (now : Nat) :
    ∀ (l : List PeerInfo) (maps : List (Nat × KnownPeerState) ×
      List (Nat × VerifiedPeer)) (b : PeerInfo) (ab : Nat),
    b ∈ l → b.addr = some ab → (l.map PeerInfo.id).Nodup →
    (∀ pid, ¬ maps.1.lookup pid = none → pid ∉ l.map PeerInfo.id) →
    ¬ (l.foldl (bootStep now) maps).2.lookup ab = none := by
  intro l
  induction l with
  | nil =>
      intro maps b ab hmem
      cases hmem
  | cons info rest ih =>
      intro maps b ab hmem hab hnd hdisj
      rw [List.map_cons, List.nodup_cons] at hnd
      rcases List.mem_cons.1 hmem with hm | hm
      · have h1 : maps.1.lookup info.id = none := by
          by_contra hc
          exact hdisj info.id hc (by
            rw [List.map_cons]
            exact List.mem_cons_self _ _)
        have hab2 : info.addr = some ab := by
          rw [← hm]
          exact hab
        rw [List.foldl_cons]
        cases hi : maps.2.lookup ab with
        | some vp =>
            rw [bootStep_eq_taken now maps info ab vp h1 hab2 hi]
            exact foldl_bootStep_index_mono now rest maps ab
              (by rw [hi]; exact fun hc => Option.noConfusion hc)
        | none =>
            rw [bootStep_eq_insert now maps info ab h1 hab2 hi]
            apply foldl_bootStep_index_mono
            rw [show ((upsert maps.1 info.id (KnownPeerState.new info now),
                upsert maps.2 ab (VerifiedPeer.signed info.id)) :
                List (Nat × KnownPeerState) × List (Nat × VerifiedPeer)).2
              = upsert maps.2 ab (VerifiedPeer.signed info.id) from rfl]
            rw [lookup_upsert, if_pos rfl]
            exact fun hc => Option.noConfusion hc
      · rw [List.foldl_cons]
        refine ih (bootStep now maps info) b ab hm hab hnd.2 ?_
        intro pid hpid hmem2
        by_cases hpi : pid = info.id
        · rw [hpi] at hmem2
          exact hnd.1 hmem2
        · rw [bootStep_states_other now maps info pid hpi] at hpid
          exact hdisj pid hpid (List.mem_cons_of_mem _ hmem2)

theorem load_keep_none (now : Nat) :
    ∀ (l : List (Nat × KnownPeerState)) (maps : List (Nat × KnownPeerState) ×
      List (Nat × VerifiedPeer)) (pid : Nat),
    (∀ kv ∈ l, kv.1 = pid → kv.2.peer_info.addr = none) →
    maps.1.lookup pid = none →
    (l.foldl (loadStep now) maps).1.lookup pid = none := by
  intro l
  induction l with
  | nil => intro maps pid _ h; exact h
  | cons row rest ih =>
      intro maps pid hrows h
      rw [List.foldl_cons]
      refine ih (loadStep now maps row) pid
        (fun kv hkv => hrows kv (List.mem_cons_of_mem _ hkv)) ?_
      by_cases hr : row.1 = pid
      · have ha : row.2.peer_info.addr = none :=
          hrows row (List.mem_cons_self _ _) hr
        rw [loadStep_eq_noaddr now maps row (by rw [hr]; exact h) ha]
        exact h
      · rw [loadStep_states_other now maps row pid (fun hc => hr hc.symm)]
        exact h

theorem load_avoid_taken (now : Nat) :
    ∀ (l : List (Nat × KnownPeerState)) (maps : List (Nat × KnownPeerState) ×
      List (Nat × VerifiedPeer)) (pid ab : Nat),
    (∀ kv ∈ l, kv.1 = pid → kv.2.peer_info.addr = some ab) →
    maps.1.lookup pid = none → ¬ maps.2.lookup ab = none →
    (l.foldl (loadStep now) maps).1.lookup pid = none := by
  intro l
  induction l with
  | nil => intro maps pid ab _ h _; exact h
  | cons row rest ih =>
      intro maps pid ab hrows h hab
      rw [List.foldl_cons]
      refine ih (loadStep now maps row) pid ab
        (fun kv hkv => hrows kv (List.mem_cons_of_mem _ hkv)) ?_
        (loadStep_index_mono now maps row ab hab)
      by_cases hr : row.1 = pid
      · have ha : row.2.peer_info.addr = some ab :=
          hrows row (List.mem_cons_self _ _) hr
        cases hi : maps.2.lookup ab with
        | none => exact absurd hi hab
        | some vp =>
            rw [loadStep_eq_taken now maps row ab vp (by rw [hr]; exact h) ha hi]
            exact h
      · rw [loadStep_states_other now maps row pid (fun hc => hr hc.symm)]
        exact h

theorem load_dichotomy (now : Nat) :
    ∀ (l : List (Nat × KnownPeerState)) (maps : List (Nat × KnownPeerState) ×
      List (Nat × VerifiedPeer)) (pid : Nat) (s : KnownPeerState),
    (∀ kv ∈ l, kv.1 = pid → kv.2 = s) →
    (maps.1.lookup pid = none ∨
      maps.1.lookup pid = some (resetState now s)) →
    (l.foldl (loadStep now) maps).1.lookup pid = none ∨
    (l.foldl (loadStep now) maps).1.lookup pid = some (resetState now s) := by
  intro l
  induction l with
  | nil => intro maps pid s _ h; exact h
  | cons row rest ih =>
      intro maps pid s hrows h
      rw [List.foldl_cons]
      refine ih (loadStep now maps row) pid s
        (fun kv hkv => hrows kv (List.mem_cons_of_mem _ hkv)) ?_
      by_cases hr : row.1 = pid
      · have hrow2 : row.2 = s := hrows row (List.mem_cons_self _ _) hr
        rcases h with h | h
        · cases ha : row.2.peer_info.addr with
          | none =>
              rw [loadStep_eq_noaddr now maps row (by rw [hr]; exact h) ha]
              exact Or.inl h
          | some a =>
              cases hi : maps.2.lookup a with
              | some vp =>
                  rw [loadStep_eq_taken now maps row a vp
                    (by rw [hr]; exact h) ha hi]
                  exact Or.inl h
              | none =>
                  rw [loadStep_eq_insert now maps row a
                    (by rw [hr]; exact h) ha hi]
                  right
                  rw [show ((upsert maps.1 row.1 (resetState now row.2),
                      upsert maps.2 a (VerifiedPeer.new
                        (resetState now row.2).peer_info.id)) :
                      List (Nat × KnownPeerState) ×
                        List (Nat × VerifiedPeer)).1
                    = upsert maps.1 row.1 (resetState now row.2) from rfl]
                  rw [lookup_upsert, if_pos hr.symm, hrow2]
        · have hlk : maps.1.lookup row.1 = some (resetState now s) := by
            rw [hr]
            exact h
          by_cases hb : (resetState now row.2).status.is_banned = true
          · rw [loadStep_eq_banned now maps row (resetState now s) hlk hb]
            right
            rw [show ((modifyAt maps.1 row.1 (fun s2 => { s2 with
                status := (resetState now row.2).status }), maps.2) :
                List (Nat × KnownPeerState) × List (Nat × VerifiedPeer)).1
              = modifyAt maps.1 row.1 (fun s2 => { s2 with
                  status := (resetState now row.2).status }) from rfl]
            rw [lookup_modifyAt, if_pos hr.symm, hr, h, hrow2]
            rfl
          · rw [loadStep_eq_known_notban now maps row (resetState now s) hlk hb]
            exact Or.inr h
      · rw [loadStep_states_other now maps row pid (fun hc => hr hc.symm)]
        exact h

theorem load_banned (now : Nat) :
    ∀ (l : List (Nat × KnownPeerState)) (maps : List (Nat × KnownPeerState) ×
      List (Nat × VerifiedPeer)) (pid : Nat),
    (∀ kv ∈ l, kv.1 = pid → kv.2.status.is_banned = true) →
    ((∀ s2, maps.1.lookup pid = some s2 → s2.status.is_banned = true) ∨
      (∃ kv ∈ l, kv.1 = pid)) →
    ∀ s2, (l.foldl (loadStep now) maps).1.lookup pid = some s2 →
      s2.status.is_banned = true := by
  intro l
  induction l with
  | nil =>
      intro maps pid _ h
      rcases h with h | ⟨kv, hkv, -⟩
      · exact h
      · cases hkv
  | cons row rest ih =>
      intro maps pid hrows h
      rw [List.foldl_cons]
      refine ih (loadStep now maps row) pid
        (fun kv hkv => hrows kv (List.mem_cons_of_mem _ hkv)) ?_
      by_cases hr : row.1 = pid
      · left
        have hban : row.2.status.is_banned = true :=
          hrows row (List.mem_cons_self _ _) hr
        have hrb : (resetState now row.2).status.is_banned = true :=
          resetState_banned now row.2 hban
        cases hlk : maps.1.lookup row.1 with
        | some x =>
            rw [loadStep_eq_banned now maps row x hlk hrb]
            intro s2 hs2
            rw [show ((modifyAt maps.1 row.1 (fun s3 => { s3 with
                status := (resetState now row.2).status }), maps.2) :
                List (Nat × KnownPeerState) × List (Nat × VerifiedPeer)).1
              = modifyAt maps.1 row.1 (fun s3 => { s3 with
                  status := (resetState now row.2).status }) from rfl] at hs2
            rw [lookup_modifyAt, if_pos hr.symm, hr] at hs2
            rw [hr] at hlk
            rw [hlk] at hs2
            injection hs2 with hs2
            rw [← hs2]
            exact hrb
        | none =>
            cases ha : row.2.peer_info.addr with
            | none =>
                rw [loadStep_eq_noaddr now maps row hlk ha]
                intro s2 hs2
                rw [← hr, hlk] at hs2
                cases hs2
            | some a =>
                cases hi : maps.2.lookup a with
                | some vp =>
                    rw [loadStep_eq_taken now maps row a vp hlk ha hi]
                    intro s2 hs2
                    rw [← hr, hlk] at hs2
                    cases hs2
                | none =>
                    rw [loadStep_eq_insert now maps row a hlk ha hi]
                    intro s2 hs2
                    rw [show ((upsert maps.1 row.1 (resetState now row.2),
                        upsert maps.2 a (VerifiedPeer.new
                          (resetState now row.2).peer_info.id)) :
                        List (Nat × KnownPeerState) ×
                          List (Nat × VerifiedPeer)).1
                      = upsert maps.1 row.1 (resetState now row.2)
                      from rfl] at hs2
                    rw [lookup_upsert, if_pos hr.symm] at hs2
                    injection hs2 with hs2
                    rw [← hs2]
                    exact hrb
      · rcases h with h | ⟨kv, hkv, hk1⟩
        · left
          intro s2 hs2
          rw [loadStep_states_other now maps row pid
            (fun hc => hr hc.symm)] at hs2
          exact h s2 hs2
        · right
          refine ⟨kv, ?_, hk1⟩
          rcases List.mem_cons.1 hkv with hk | hk
          · exfalso
            rw [hk] at hk1
            exact hr hk1
          · exact hk

/-- Shape of every entry present after `PeerStore::new`: freshly stamped,
and either a fresh boot entry (`Unknown`), a reset row (`NotConnected`),
or a preserved/propagated ban. -/
def NewEntryOK (now : Nat) (s2 : KnownPeerState) : Prop :=
  s2.last_seen = now ∧ (s2.status = KnownPeerStatus.Unknown ∨
    s2.status = KnownPeerStatus.NotConnected ∨ s2.status.is_banned = true)

theorem bootStep_entries (now : Nat) (maps : List (Nat × KnownPeerState) ×
    List (Nat × VerifiedPeer)) (info : PeerInfo)
    (h : ∀ pid s2, maps.1.lookup pid = some s2 → NewEntryOK now s2) :
    ∀ pid s2, (bootStep now maps info).1.lookup pid = some s2 →
      NewEntryOK now s2 := by
  intro pid s2 hl
  by_cases h1 : maps.1.lookup info.id = none
  · cases ha : info.addr with
    | none =>
        rw [bootStep_eq_noaddr now maps info h1 ha] at hl
        exact h pid s2 hl
    | some a =>
        cases hi : maps.2.lookup a with
        | some vp =>
            rw [bootStep_eq_taken now maps info a vp h1 ha hi] at hl
            exact h pid s2 hl
        | none =>
            rw [bootStep_eq_insert now maps info a h1 ha hi] at hl
            rw [show ((upsert maps.1 info.id (KnownPeerState.new info now),
                upsert maps.2 a (VerifiedPeer.signed info.id)) :
                List (Nat × KnownPeerState) × List (Nat × VerifiedPeer)).1
              = upsert maps.1 info.id (KnownPeerState.new info now)
              from rfl] at hl
            rw [lookup_upsert] at hl
            by_cases hpid : pid = info.id
            · rw [if_pos hpid] at hl
              injection hl with hl
              rw [← hl]
              exact ⟨rfl, Or.inl rfl⟩
            · rw [if_neg hpid] at hl
              exact h pid s2 hl
  · rw [bootStep_eq_known now maps info h1] at hl
    exact h pid s2 hl

theorem loadStep_entries (now : Nat) (maps : List (Nat × KnownPeerState) ×
    List (Nat × VerifiedPeer)) (row : Nat × KnownPeerState)
    (h : ∀ pid s2, maps.1.lookup pid = some s2 → NewEntryOK now s2) :
    ∀ pid s2, (loadStep now maps row).1.lookup pid = some s2 →
      NewEntryOK now s2 := by
  intro pid s2 hl
  cases hlk : maps.1.lookup row.1 with
  | some x =>
      by_cases hb : (resetState now row.2).status.is_banned = true
      · rw [loadStep_eq_banned now maps row x hlk hb] at hl
        rw [show ((modifyAt maps.1 row.1 (fun s3 => { s3 with
            status := (resetState now row.2).status }), maps.2) :
            List (Nat × KnownPeerState) × List (Nat × VerifiedPeer)).1
          = modifyAt maps.1 row.1 (fun s3 => { s3 with
              status := (resetState now row.2).status }) from rfl] at hl
        rw [lookup_modifyAt] at hl
        by_cases hpid : pid = row.1
        · rw [if_pos hpid] at hl
          cases hlo : maps.1.lookup row.1 with
          | none =>
              rw [hlo] at hl
              cases hl
          | some y =>
              rw [hlo] at hl
              injection hl with hl
              rw [← hl]
              obtain ⟨hls, -⟩ := h row.1 y hlo
              exact ⟨hls, Or.inr (Or.inr hb)⟩
        · rw [if_neg hpid] at hl
          exact h pid s2 hl
      · rw [loadStep_eq_known_notban now maps row x hlk hb] at hl
        exact h pid s2 hl
  | none =>
      cases ha : row.2.peer_info.addr with
      | none =>
          rw [loadStep_eq_noaddr now maps row hlk ha] at hl
          exact h pid s2 hl
      | some a =>
          cases hi : maps.2.lookup a with
          | some vp =>
              rw [loadStep_eq_taken now maps row a vp hlk ha hi] at hl
              exact h pid s2 hl
          | none =>
              rw [loadStep_eq_insert now maps row a hlk ha hi] at hl
              rw [show ((upsert maps.1 row.1 (resetState now row.2),
                  upsert maps.2 a (VerifiedPeer.new
                    (resetState now row.2).peer_info.id)) :
                  List (Nat × KnownPeerState) × List (Nat × VerifiedPeer)).1
                = upsert maps.1 row.1 (resetState now row.2) from rfl] at hl
              rw [lookup_upsert] at hl
              by_cases hpid : pid = row.1
              · rw [if_pos hpid] at hl
                injection hl with hl
                rw [← hl]
                refine ⟨rfl, ?_⟩
                by_cases hb : row.2.status.is_banned = true
                · exact Or.inr (Or.inr (resetState_banned now row.2 hb))
                · right
                  left
                  rw [resetState_status, if_neg hb]
              · rw [if_neg hpid] at hl
                exact h pid s2 hl

theorem foldl_bootStep_entries (now : Nat) :
    ∀ (l : List PeerInfo) (maps : List (Nat × KnownPeerState) ×
      List (Nat × VerifiedPeer)),
    (∀ pid s2, maps.1.lookup pid = some s2 → NewEntryOK now s2) →
    ∀ pid s2, (l.foldl (bootStep now) maps).1.lookup pid = some s2 →
      NewEntryOK now s2 := by
  intro l
  induction l with
  | nil => intro maps h; exact h
  | cons info rest ih =>
      intro maps h
      exact ih (bootStep now maps info) (bootStep_entries now maps info h)

theorem foldl_loadStep_entries (now : Nat) :
    ∀ (l : List (Nat × KnownPeerState)) (maps : List (Nat × KnownPeerState) ×
      List (Nat × VerifiedPeer)),
    (∀ pid s2, maps.1.lookup pid = some s2 → NewEntryOK now s2) →
    ∀ pid s2, (l.foldl (loadStep now) maps).1.lookup pid = some s2 →
      NewEntryOK now s2 := by
  intro l
  induction l with
  | nil => intro maps h; exact h
  | cons row rest ih =>
      intro maps h
      exact ih (loadStep now maps row) (loadStep_entries now maps row h)

/-- C9 (amended): `PeerStore::new` keeps the Peers column untouched; every
entry it produces is stamped `last_seen = now` with status `Unknown`
(fresh boot entry), `NotConnected` (reset row), or a preserved/propagated
ban; a persisted non-boot peer is either dropped or loaded exactly as its
reset row; a persisted ban survives under its peer id (in particular it
is propagated onto a boot entry); and a persisted non-boot peer is
dropped - not loaded - when its address is missing or collides with a
boot node's address.  The original claim that every persisted peer is
loaded is refuted by `peer_store_new_claim_cex`. -/
theorem peer_store_new_correct (now : Nat) (boot_nodes : List PeerInfo)
    (store : List (Nat × KnownPeerState))
    (hkeys : (store.map Prod.fst).Nodup)
    (hbids : (boot_nodes.map PeerInfo.id).Nodup) :
    (PeerStore.new now boot_nodes store).store = store ∧
    (∀ pid s2,
      (PeerStore.new now boot_nodes store).peer_states.lookup pid = some s2 →
      s2.last_seen = now ∧ (s2.status = KnownPeerStatus.Unknown ∨
        s2.status = KnownPeerStatus.NotConnected ∨
        s2.status.is_banned = true)) ∧
    (∀ pid s, (pid, s) ∈ store → (∀ b ∈ boot_nodes, b.id ≠ pid) →
      (PeerStore.new now boot_nodes store).peer_states.lookup pid = none ∨
      (PeerStore.new now boot_nodes store).peer_states.lookup pid
        = some (resetState now s)) ∧
    (∀ pid s, (pid, s) ∈ store → s.status.is_banned = true →
      ∀ s2, (PeerStore.new now boot_nodes store).peer_states.lookup pid
        = some s2 → s2.status.is_banned = true) ∧
    (∀ pid s, (pid, s) ∈ store → s.peer_info.addr = none →
      (∀ b ∈ boot_nodes, b.id ≠ pid) →
      (PeerStore.new now boot_nodes store).peer_states.lookup pid = none) ∧
    (∀ b ∈ boot_nodes, ∀ ab, b.addr = some ab →
      ∀ pid s, (pid, s) ∈ store → (∀ b2 ∈ boot_nodes, b2.id ≠ pid) →
      s.peer_info.addr = some ab →
      (PeerStore.new now boot_nodes store).peer_states.lookup pid = none) := by
  have hfield : (PeerStore.new now boot_nodes store).peer_states
      = (store.foldl (loadStep now)
          (boot_nodes.foldl (bootStep now) ([], []))).1 := rfl
  have hbootnone : ∀ pid, (∀ b ∈ boot_nodes, b.id ≠ pid) →
      (boot_nodes.foldl (bootStep now) ([], [])).1.lookup pid = none := by
    intro pid hb
    refine boot_states_dom now boot_nodes ([], []) pid rfl ?_
    intro hc
    obtain ⟨b, hbm, hbe⟩ := List.mem_map.1 hc
    exact hb b hbm hbe
  refine ⟨rfl, ?_, ?_, ?_, ?_, ?_⟩
  · intro pid s2 hl
    rw [hfield] at hl
    exact foldl_loadStep_entries now store _
      (foldl_bootStep_entries now boot_nodes ([], [])
        (fun pid2 s3 hl2 => by cases hl2)) pid s2 hl
  · intro pid s hmem hb
    rw [hfield]
    exact load_dichotomy now store _ pid s
      (fun kv hkv hk1 => keyed_unique store hkeys pid s hmem kv hkv hk1)
      (Or.inl (hbootnone pid hb))
  · intro pid s hmem hban s2 hl
    rw [hfield] at hl
    refine load_banned now store _ pid ?_ (Or.inr ⟨(pid, s), hmem, rfl⟩) s2 hl
    intro kv hkv hk1
    rw [keyed_unique store hkeys pid s hmem kv hkv hk1]
    exact hban
  · intro pid s hmem ha hb
    rw [hfield]
    refine load_keep_none now store _ pid ?_ (hbootnone pid hb)
    intro kv hkv hk1
    rw [keyed_unique store hkeys pid s hmem kv hkv hk1]
    exact ha
  · intro b hbm ab hab pid s hmem hb ha
    rw [hfield]
    refine load_avoid_taken now store _ pid ab ?_ (hbootnone pid hb) ?_
    · intro kv hkv hk1
      rw [keyed_unique store hkeys pid s hmem kv hkv hk1]
      exact ha
    · refine boot_index_binds now boot_nodes ([], []) b ab hbm hab hbids ?_
      intro pid2 hpid2
      exact absurd rfl hpid2

/-- A persisted row with no address, used by the C9 artifacts. -/
def rowC9 : KnownPeerState :=
  { peer_info := { id := 2, addr := none }, first_seen := 3, last_seen := 4,
    status := KnownPeerStatus.NotConnected }

/-- C9: counterexample to "new loads every peer persisted in the Peers
column".  A persisted non-boot peer whose stored `peer_info` has no
address is silently skipped: it is absent from `peer_states` although its
row sits in the store. -/
theorem peer_store_new_claim_cex :
    (2, rowC9) ∈ ([(2, rowC9)] : List (Nat × KnownPeerState)) ∧
    (PeerStore.new 100 [] [(2, rowC9)]).store = [(2, rowC9)] ∧
    (PeerStore.new 100 [] [(2, rowC9)]).peer_states.lookup 2 = none :=
  ⟨by decide, rfl, by decide⟩

/-- Witness for C9 (amended) at a one-row store with no boot nodes. -/
theorem peer_store_new_correct_witness :
    ((([(2, rowC9)] : List (Nat × KnownPeerState)).map Prod.fst).Nodup ∧
      (([] : List PeerInfo).map PeerInfo.id).Nodup) ∧
    ((PeerStore.new 100 [] [(2, rowC9)]).peer_states.lookup 2 = none ∨
      (PeerStore.new 100 [] [(2, rowC9)]).peer_states.lookup 2
        = some (resetState 100 rowC9)) :=
  ⟨⟨by decide, by decide⟩,
    (peer_store_new_correct 100 [] [(2, rowC9)] (by decide) (by decide)).2.2.1
      2 rowC9 (by decide) (by decide)⟩

/-- The store holding the single signed peer 1 at address 10. -/
def stC7 : PeerStore :=
  PeerStore.add_peer { store := [], peer_states := [], addr_peers := [] } 0
    { id := 1, addr := some 10 } TrustLevel.Signed

theorem stC7_P1 : P1 stC7 := by
  have hps : stC7.peer_states
      = [(1, KnownPeerState.new { id := 1, addr := some 10 } 0)] := rfl
  have hap : stC7.addr_peers
      = [(10, { peer_id := 1, trust_level := TrustLevel.Signed })] := rfl
  constructor
  · intro id s a hl hsa
    rw [hps, lookup_cons] at hl
    by_cases hid : id = 1
    · rw [if_pos hid] at hl
      injection hl with hl
      rw [← hl] at hsa
      have h10 : some (10 : Nat) = some a := hsa
      injection h10 with h10
      refine ⟨{ peer_id := 1, trust_level := TrustLevel.Signed }, ?_, hid.symm⟩
      rw [hap, lookup_cons, if_pos h10.symm]
    · rw [if_neg hid, List.lookup_nil] at hl
      cases hl
  · intro a vp hl
    rw [hap, lookup_cons] at hl
    by_cases ha : a = 10
    · rw [if_pos ha] at hl
      injection hl with hl
      rw [← hl]
      refine ⟨KnownPeerState.new { id := 1, addr := some 10 } 0, ?_, ?_⟩
      · rw [show ({ peer_id := 1, trust_level := TrustLevel.Signed } :
            VerifiedPeer).peer_id = 1 from rfl, hps, lookup_cons, if_pos rfl]
      · rw [ha]
        rfl
    · rw [if_neg ha, List.lookup_nil] at hl
      cases hl

/-- C7: counterexample.  `remove_expired` deletes the expired peer from
`peer_states` (and its disk row) but leaves its `addr_peers` entry
behind, so the reverse half of the symmetric-index invariant P1 is
broken: address 10 still points at peer 1, which no longer exists. -/
theorem remove_expired_P1_claim_cex :
    P1 stC7 ∧
    (stC7.remove_expired 1000 10).addr_peers.lookup 10
      = some { peer_id := 1, trust_level := TrustLevel.Signed } ∧
    (stC7.remove_expired 1000 10).peer_states.lookup 1 = none ∧
    ¬ P1 (stC7.remove_expired 1000 10) := by
  refine ⟨stC7_P1, by decide, by decide, ?_⟩
  intro hP
  obtain ⟨s, hs, -⟩ := hP.2 10
    { peer_id := 1, trust_level := TrustLevel.Signed } (by decide)
  have hs2 : (stC7.remove_expired 1000 10).peer_states.lookup 1 = some s := hs
  have hn : (stC7.remove_expired 1000 10).peer_states.lookup 1 = none := by
    decide
  rw [hn] at hs2
  cases hs2

/-- C7 (amended): the symmetric-index invariant P1 holds after `new` (on
a store whose rows carry their own key id) and is preserved by
`peer_connected`, `peer_disconnected`, `peer_ban`, `peer_unban` and
`add_peer` at every trust level; `remove_expired` preserves only the
forward half P1a - the claim that it preserves all of P1 is refuted by
`remove_expired_P1_claim_cex`. -/
theorem peer_store_P1_amended :
    (∀ (now : Nat) (boot_nodes : List PeerInfo)
        (store : List (Nat × KnownPeerState)),
      (∀ kv ∈ store, kv.2.peer_info.id = kv.1) →
      P1 (PeerStore.new now boot_nodes store)) ∧
    (∀ (st : PeerStore) (now : Nat) (info : PeerInfo), P1 st →
      ∀ st2, st.peer_connected now info = some st2 → P1 st2) ∧
    (∀ (st : PeerStore) (now pid : Nat), P1 st →
      ∀ st2, st.peer_disconnected now pid = some st2 → P1 st2) ∧
    (∀ (st : PeerStore) (now pid reason : Nat), P1 st →
      ∀ st2, st.peer_ban now pid reason = some st2 → P1 st2) ∧
    (∀ (st : PeerStore) (pid : Nat), P1 st →
      ∀ st2, st.peer_unban pid = some st2 → P1 st2) ∧
    (∀ (st : PeerStore) (now : Nat) (info : PeerInfo) (trust : TrustLevel),
      P1 st → P1 (st.add_peer now info trust)) ∧
    (∀ (st : PeerStore) (now expiration : Nat), P1 st →
      P1a (st.remove_expired now expiration).peer_states
        (st.remove_expired now expiration).addr_peers) :=
  ⟨P1_new,
    fun st now info h => P1_peer_connected st now info h,
    fun st now pid h => P1_peer_disconnected st now pid h,
    fun st now pid reason h => P1_peer_ban st now pid reason h,
    fun st pid h => P1_peer_unban st pid h,
    fun st now info trust h => P1_add_peer st now info trust h,
    fun st now expiration h => P1a_remove_expired st now expiration h⟩

/-- Witness for C7 (amended) covering `new` and `add_peer`. -/
theorem peer_store_P1_amended_witness :
    P1 stC7 ∧
    P1 (stC7.add_peer 5 { id := 2, addr := some 20 } TrustLevel.Indirect) ∧
    P1 (PeerStore.new 7 [{ id := 3, addr := some 40 }] [(2, rowC9)]) :=
  ⟨stC7_P1,
    peer_store_P1_amended.2.2.2.2.2.1 stC7 5
      { id := 2, addr := some 20 } TrustLevel.Indirect stC7_P1,
    peer_store_P1_amended.1 7 [{ id := 3, addr := some 40 }] [(2, rowC9)]
      (by decide)⟩

/-- `update_peer_info` changes `peer_states` and `addr_peers` exactly as the
unbind/unbind/bind pipeline does (the trailing `touch` calls only write the
store column). -/
theorem update_peer_info_fields (st : PeerStore) (now : Nat) (info : PeerInfo)
    (A : Nat) (trust : TrustLevel) :
    (st.update_peer_info now info A trust).peer_states
      = (((st.unbind_addr A).unbind_id info.id).bind_pair
          now info A trust).peer_states ∧
    (st.update_peer_info now info A trust).addr_peers
      = (((st.unbind_addr A).unbind_id info.id).bind_pair
          now info A trust).addr_peers := by
  unfold PeerStore.update_peer_info
  cases hA : st.addr_peers.lookup A with
  | none =>
      show ((((st.unbind_addr A).unbind_id info.id).bind_pair
          now info A trust).touch info.id).peer_states
        = (((st.unbind_addr A).unbind_id info.id).bind_pair
            now info A trust).peer_states ∧
        ((((st.unbind_addr A).unbind_id info.id).bind_pair
          now info A trust).touch info.id).addr_peers
        = (((st.unbind_addr A).unbind_id info.id).bind_pair
            now info A trust).addr_peers
      exact touch_fields _ _
  | some vp =>
      show (match Option.map (fun (s : KnownPeerState) => s.peer_info.id)
          (List.lookup vp.peer_id st.peer_states) with
        | some q => ((((st.unbind_addr A).unbind_id info.id).bind_pair
            now info A trust).touch info.id).touch q
        | none => (((st.unbind_addr A).unbind_id info.id).bind_pair
            now info A trust).touch info.id).peer_states
        = (((st.unbind_addr A).unbind_id info.id).bind_pair
            now info A trust).peer_states ∧
        (match Option.map (fun (s : KnownPeerState) => s.peer_info.id)
          (List.lookup vp.peer_id st.peer_states) with
        | some q => ((((st.unbind_addr A).unbind_id info.id).bind_pair
            now info A trust).touch info.id).touch q
        | none => (((st.unbind_addr A).unbind_id info.id).bind_pair
            now info A trust).touch info.id).addr_peers
        = (((st.unbind_addr A).unbind_id info.id).bind_pair
            now info A trust).addr_peers
      cases Option.map (fun (s : KnownPeerState) => s.peer_info.id)
          (List.lookup vp.peer_id st.peer_states) with
      | none => exact touch_fields _ _
      | some q =>
          obtain ⟨h1, h2⟩ := touch_fields
            ((((st.unbind_addr A).unbind_id info.id).bind_pair
              now info A trust).touch info.id) q
          obtain ⟨h3, h4⟩ := touch_fields
            (((st.unbind_addr A).unbind_id info.id).bind_pair
              now info A trust) info.id
          exact ⟨h1.trans h3, h2.trans h4⟩

/-- After `update_peer_info`, the reverse index maps the address to the new
peer id with the requested trust level. -/
theorem update_peer_info_index_self (st : PeerStore) (now : Nat)
    (info : PeerInfo) (A : Nat) (trust : TrustLevel) :
    (st.update_peer_info now info A trust).addr_peers.lookup A
      = some { peer_id := info.id, trust_level := trust } := by
  rw [(update_peer_info_fields st now info A trust).2, bind_pair_index,
    if_pos rfl]

/-- After `update_peer_info`, the target peer's state records the new
address. -/
theorem update_peer_info_states_self (st : PeerStore) (now : Nat)
    (info : PeerInfo) (A : Nat) (trust : TrustLevel)
    (hia : info.addr = some A) :
    ∃ s, (st.update_peer_info now info A trust).peer_states.lookup info.id
        = some s ∧ s.peer_info.addr = some A := by
  obtain ⟨s, hs, hsa⟩ := bind_pair_states_self
    ((st.unbind_addr A).unbind_id info.id) now info A trust hia
  exact ⟨s, by rw [(update_peer_info_fields st now info A trust).1]; exact hs,
    hsa⟩

/-- After `update_peer_info`, a different peer that previously owned the
address has its address stripped. -/
theorem update_peer_info_states_strip (st : PeerStore) (now : Nat)
    (info : PeerInfo) (A : Nat) (trust : TrustLevel) (vp : VerifiedPeer)
    (s0 : KnownPeerState) (hA : st.addr_peers.lookup A = some vp)
    (hne : vp.peer_id ≠ info.id)
    (hs0 : st.peer_states.lookup vp.peer_id = some s0) :
    (st.update_peer_info now info A trust).peer_states.lookup vp.peer_id
      = some { s0 with peer_info := { s0.peer_info with addr := none } } := by
  rw [(update_peer_info_fields st now info A trust).1]
  rw [bind_pair_states_other ((st.unbind_addr A).unbind_id info.id) now info A
    trust vp.peer_id hne]
  rw [unbind_id_states_other (st.unbind_addr A) info.id vp.peer_id hne]
  exact unbind_addr_states_strip st A vp s0 hA hs0

/-- A trusted peer is present in `peer_states`. -/
theorem is_peer_trusted_lookup (st : PeerStore) (pid : Nat)
    (ht : st.is_peer_trusted pid = true) :
    ¬ st.peer_states.lookup pid = none := by
  intro hc
  unfold PeerStore.is_peer_trusted at ht
  rw [hc] at ht
  exact Bool.noConfusion ht

theorem add_peer_direct_trusted (st : PeerStore) (now : Nat) (info : PeerInfo)
    (ht : st.is_peer_trusted info.id = true) :
    st.add_peer now info TrustLevel.Direct = st := by
  unfold PeerStore.add_peer
  cases hia : info.addr with
  | some a =>
      show (if st.is_peer_trusted info.id = true then st
        else st.update_peer_info now info a TrustLevel.Direct) = st
      rw [if_pos ht]
  | none =>
      show (if st.peer_states.lookup info.id = none then
        { st with peer_states := (upsert st.peer_states info.id
            (KnownPeerState.new info now)) } else st) = st
      rw [if_neg (is_peer_trusted_lookup st info.id ht)]

theorem add_peer_direct_eq (st : PeerStore) (now : Nat) (info : PeerInfo)
    (a : Nat) (hia : info.addr = some a)
    (hnt : st.is_peer_trusted info.id = false) :
    st.add_peer now info TrustLevel.Direct
      = st.update_peer_info now info a TrustLevel.Direct := by
  unfold PeerStore.add_peer
  rw [hia]
  show (if st.is_peer_trusted info.id = true then st
    else st.update_peer_info now info a TrustLevel.Direct)
      = st.update_peer_info now info a TrustLevel.Direct
  rw [if_neg (show ¬ st.is_peer_trusted info.id = true by rw [hnt]; decide)]

/-- C6: `add_peer` with `TrustLevel.Direct` leaves the store unchanged when
the target peer currently holds an address whose reverse-index entry is
verified Signed (`is_peer_trusted`); otherwise, when the new info carries
an address, it replaces the address binding: the reverse index maps the
address to the peer with Direct trust, the peer's state records the
address, and any other peer previously bound to that address has its
address stripped. -/
theorem add_peer_direct_policy (st : PeerStore) (now : Nat)
    (info : PeerInfo) :
    (st.is_peer_trusted info.id = true →
      st.add_peer now info TrustLevel.Direct = st) ∧
    (∀ a, st.is_peer_trusted info.id = false → info.addr = some a →
      (st.add_peer now info TrustLevel.Direct).addr_peers.lookup a
          = some { peer_id := info.id, trust_level := TrustLevel.Direct } ∧
      (∃ s, (st.add_peer now info
          TrustLevel.Direct).peer_states.lookup info.id
          = some s ∧ s.peer_info.addr = some a) ∧
      (∀ vp s0, st.addr_peers.lookup a = some vp → vp.peer_id ≠ info.id →
        st.peer_states.lookup vp.peer_id = some s0 →
        (st.add_peer now info
            TrustLevel.Direct).peer_states.lookup vp.peer_id
          = some { s0 with
              peer_info := { s0.peer_info with addr := none } })) := by
  refine ⟨fun ht => add_peer_direct_trusted st now info ht, ?_⟩
  intro a hnt hia
  rw [add_peer_direct_eq st now info a hia hnt]
  exact ⟨update_peer_info_index_self st now info a TrustLevel.Direct,
    update_peer_info_states_self st now info a TrustLevel.Direct hia,
    fun vp s0 hA hne hs0 =>
      update_peer_info_states_strip st now info a TrustLevel.Direct vp s0
        hA hne hs0⟩

/-- The store after connecting peer 1 at address 10 (scenario S6). -/
def stW6 : PeerStore :=
  (PeerStore.peer_connected
    { store := [], peer_states := [], addr_peers := [] } 0
    { id := 1, addr := some 10 }).getD
    { store := [], peer_states := [], addr_peers := [] }

/-- Witness for C6: on scenario S6, peer 1 is trusted, so adding it again
at address 20 with Direct trust is a no-op - it stays bound at 10 Signed
and 20 is not indexed; on an empty store the untrusted branch binds the
new address with Direct trust. -/
theorem add_peer_direct_policy_witness :
    (stW6.is_peer_trusted 1 = true ∧
      stW6.add_peer 5 { id := 1, addr := some 20 } TrustLevel.Direct = stW6 ∧
      stW6.addr_peers.lookup 10
        = some { peer_id := 1, trust_level := TrustLevel.Signed } ∧
      stW6.addr_peers.lookup 20 = none) ∧
    (PeerStore.is_peer_trusted
        { store := [], peer_states := [], addr_peers := [] } 2 = false ∧
      (PeerStore.add_peer { store := [], peer_states := [], addr_peers := [] }
          7 { id := 2, addr := some 30 }
          TrustLevel.Direct).addr_peers.lookup 30
        = some { peer_id := 2, trust_level := TrustLevel.Direct }) :=
  ⟨⟨by decide,
    (add_peer_direct_policy stW6 5 { id := 1, addr := some 20 }).1 (by decide),
    by decide, by decide⟩,
   ⟨by decide,
    ((add_peer_direct_policy
        { store := [], peer_states := [], addr_peers := [] } 7
        { id := 2, addr := some 30 }).2 30 (by decide) (by decide)).1⟩⟩
